import Mathlib

/-! Interactive interpreter: scanner, shunting-yard parser, RPN evaluator.

A shallow embedding of `src/interpreter.cpp`.

* `std::string` is `String`; `s[0]` is `char0 s` (the NUL character for the
  empty string, as `std::string::operator[]` gives).
* `std::vector<T>` is `List T` with `push_back x` as `xs ++ [x]`.  The two
  vectors that are used as stacks (`op_stack` in `read_expr`, `stack` in
  `expression::get_value`) are kept with their back at the head of the list.
* `double` is a type parameter `D`; the arithmetic of `<cmath>` and
  `std::stod` are the fields of `DoubleOps D`.
* `uint32_t i` is a `Nat` (token vectors are far shorter than `2^32`).
* A thrown exception is `Except.error`; the static `memory` of `interpret`
  is passed in and returned, also when an exception is thrown.
-/

namespace Interp

/-- What a call can end with instead of a value. `runtime_error what` is a thrown
`std::runtime_error`; `stod_error` is the `std::invalid_argument` or
`std::out_of_range` thrown by `std::stod`; `undefined_behaviour` stands for
`stack.back()` on an empty vector or `tks[i]` past the end (undefined in C++);
`out_of_fuel` is the recursion budget of `read_expr` running out. -/
inductive Exn where
  | runtime_error (what : String)
  | stod_error
  | undefined_behaviour
  | out_of_fuel
deriving DecidableEq, Repr

/-- What the source takes from the C++ implementation it is built with. The
operations on `double` the interpreter uses: `+ - * /`, `fmod`, `pow`, unary
minus and `std::stod`, which gives `none` where it throws; `zero`, the
value-initialised `double` that `memory[name]` inserts for a name the map does
not hold; and `target_first`, the order of the two operands of the `=` in
`return memory[name]=expr->get_value(memory);` of `assignment::get_value`. The
source names no language standard: C++17 evaluates the right operand before
the left one (`target_first = false`), and the earlier standards leave the two
calls in either order, so that `memory[name]` may run first
(`target_first = true`). -/
structure DoubleOps (D : Type) where
  add : D → D → D
  sub : D → D → D
  mul : D → D → D
  div : D → D → D
  fmod : D → D → D
  pow : D → D → D
  neg : D → D
  stod : String → Option D
  zero : D
  target_first : Bool

/-- The character `s[0]` of a `std::string`. -/
def char0 (s : String) : Char := s.data.headD (Char.ofNat 0)

/-! ## Scanner -/

/-- The loop of `is_num`; `dot` is the flag of the same name (the variable `first`
of the source is never true and decides nothing). -/
def is_num_loop : List Char → Bool → Bool
  | [], _ => true
  | c :: cs, dot =>
    if c = '.' ∧ dot = false then is_num_loop cs true
    else if c < '0' ∨ c > '9' then false
    else is_num_loop cs dot

/-- Source: `bool is_num(std::string s)`. -/
def is_num (s : String) : Bool := is_num_loop s.data false

/-- The loop of `is_ident`, with the condition of the source as written. -/
def is_ident_loop : List Char → Bool
  | [] => true
  | c :: cs =>
    if (c < 'a' ∨ c > 'z') ∧ (c < 'A' ∨ c > 'Z') ∧ (c < '0' ∧ c > '9') ∧ c ≠ '_' then false
    else is_ident_loop cs

/-- Source: `bool is_ident(std::string s)`. -/
def is_ident (s : String) : Bool :=
  if char0 s ≥ '0' ∧ char0 s ≤ '9' then false
  else is_ident_loop s.data

/-- Source: `double parse_num(std::string s)`. -/
def parse_num {D : Type} (ops : DoubleOps D) (s : String) : Except Exn D :=
  match ops.stod s with
  | some d => .ok d
  | none => .error .stod_error

/-- Source: `bool is_op(char c)`. -/
def is_op (c : Char) : Bool :=
  c = '+' ∨ c = '-' ∨ c = '*' ∨ c = '/' ∨ c = '%' ∨ c = '^'

/-- Source: `bool is_separator(char c)`. -/
def is_separator (c : Char) : Bool :=
  c = ' ' ∨ c = '\n' ∨ c = '\t' ∨ c = '\r'

/-- Source: `token::TK_TYPE`. -/
inductive TK_TYPE where
  | TK_PAREN_OPEN
  | TK_PAREN_CLOSE
  | TK_ASSIGN
  | TK_OP
  | TK_NUM
  | TK_IDENT
deriving DecidableEq, Repr

/-- Source: `struct token`. -/
structure token where
  type : TK_TYPE
  data : String
deriving DecidableEq, Repr

/-- Source: `void commit(bool &reading,std::string &tmp,std::vector<token> &tks)`;
the three references are returned. -/
def commit (reading : Bool) (tmp : String) (tks : List token) :
    Except Exn (Bool × String × List token) :=
  if reading then
    if is_num tmp then .ok (false, "", tks ++ [⟨.TK_NUM, tmp⟩])
    else if is_ident tmp then .ok (false, "", tks ++ [⟨.TK_IDENT, tmp⟩])
    else .error (.runtime_error ("unexpected '" ++ tmp ++ "'"))
  else .ok (reading, tmp, tks)

/-- The `for(char c:s)` loop of `scan`, over the state `reading`, `tmp`, `tks`. -/
def scan_loop : List Char → Bool → String → List token →
    Except Exn (Bool × String × List token)
  | [], reading, tmp, tks => .ok (reading, tmp, tks)
  | c :: cs, reading, tmp, tks =>
    if is_separator c then
      match commit reading tmp tks with
      | .error e => .error e
      | .ok (reading, tmp, tks) => scan_loop cs reading tmp tks
    else if c = '(' then
      match commit reading tmp tks with
      | .error e => .error e
      | .ok (reading, tmp, tks) =>
        scan_loop cs reading tmp (tks ++ [⟨.TK_PAREN_OPEN, String.singleton c⟩])
    else if c = ')' then
      match commit reading tmp tks with
      | .error e => .error e
      | .ok (reading, tmp, tks) =>
        scan_loop cs reading tmp (tks ++ [⟨.TK_PAREN_CLOSE, String.singleton c⟩])
    else if c = '=' then
      match commit reading tmp tks with
      | .error e => .error e
      | .ok (reading, tmp, tks) =>
        scan_loop cs reading tmp (tks ++ [⟨.TK_ASSIGN, String.singleton c⟩])
    else if is_op c then
      match commit reading tmp tks with
      | .error e => .error e
      | .ok (reading, tmp, tks) =>
        scan_loop cs reading tmp (tks ++ [⟨.TK_OP, String.singleton c⟩])
    else scan_loop cs true (tmp.push c) tks

/-- Source: `std::vector<token> scan(const std::string& s)`. -/
def scan (s : String) : Except Exn (List token) :=
  match scan_loop s.data false "" [] with
  | .error e => .error e
  | .ok (reading, tmp, tks) =>
    if tmp.length > 0 then
      match commit reading tmp tks with
      | .error e => .error e
      | .ok (_, _, tks) => .ok tks
    else .ok tks

/-! ## Nodes -/

mutual
/-- Source: `struct node` and its subclasses `num`, `var`, `negexprgrp`,
`expression`, `assignment`, `assignment_op`. An `expression` is its member
`std::vector<expr_data> expr`. -/
inductive node (D : Type) where
  | num (data : D)
  | var (name : String) (negative : Bool)
  | negexprgrp (expr : node D)
  | expression (expr : List (expr_data D))
  | assignment (name : String) (expr : node D)
  | assignment_op (name : String) (expr : node D) (op : Char)
/-- Source: `expression::expr_data`: a factor (`is_op` false) or an operator
character (`is_op` true). -/
inductive expr_data (D : Type) where
  | factor (f : node D)
  | op (c : Char)
end

/-- Source: `std::unordered_map<std::string,double>`. -/
abbrev Memory (D : Type) := String → Option D

/-- Source: `memory[name]=v`. -/
def Memory.set {D : Type} (memory : Memory D) (name : String) (v : D) : Memory D :=
  fun k => if k = name then some v else memory k

/-- Source: the map after the call `memory[name]` of
`std::unordered_map::operator[]`, which inserts `name` with the value-initialised
`double` when the map does not hold it. -/
def Memory.subscript {D : Type} (memory : Memory D) (name : String) (zero : D) : Memory D :=
  match memory name with
  | some _ => memory
  | none => memory.set name zero

/-- Source: `int operator_precedence(char c)`. -/
def operator_precedence (c : Char) : Except Exn Int :=
  if c = '+' then .ok 1
  else if c = '-' then .ok 1
  else if c = '*' then .ok 2
  else if c = '/' then .ok 2
  else if c = '%' then .ok 2
  else if c = '^' then .ok 3
  else .error (.runtime_error ("unknown operator '" ++ String.singleton c ++ "'"))

/-! ## Parser -/

/-- The `while(op_stack.size()>0&&operator_precedence(op_stack.back())>=precedence)`
loop of `read_expr`: returns `op_stack` and `expr` after it. -/
def shunt {D : Type} (precedence : Int) :
    List Char → List (expr_data D) → Except Exn (List Char × List (expr_data D))
  | [], expr => .ok ([], expr)
  | c :: op_stack, expr =>
    match operator_precedence c with
    | .error e => .error e
    | .ok p =>
      if p ≥ precedence then shunt precedence op_stack (expr ++ [.op c])
      else .ok (c :: op_stack, expr)

/-- The `while(op_stack.size()>0)` loops of `read_expr`, which move every stacked
operator to `expr`, the back of the stack first. -/
def flush {D : Type} : List Char → List (expr_data D) → List (expr_data D)
  | [], expr => expr
  | c :: op_stack, expr => flush op_stack (expr ++ [.op c])

/-- Source: `void expression::read_expr(const std::vector<token> tks,uint32_t &i,bool parens)`,
from the head of its `for(;;i++)` loop. `op_stack` is the local vector of that
name (empty when the function is entered), `expr` the member the entries are
appended to, and the result is `expr` and `i` at the `return`. The recursive
call for `(` appends to the same `expr`; the `negexprgrp` constructor, written
out in the `-` `(` branch, starts a new `expression` with an empty one. Every
call, a next turn of the loop included, takes one unit of `fuel`. -/
def read_expr {D : Type} (ops : DoubleOps D) (tks : List token) :
    Nat → Bool → List Char → List (expr_data D) → Nat →
    Except Exn (List (expr_data D) × Nat)
  | 0, _, _, _, _ => .error .out_of_fuel
  | fuel + 1, parens, op_stack, expr, i =>
    match tks[i]? with
    | none => .error (.runtime_error "expected value, got EOF")
    | some t =>
      -- read value
      let value : Except Exn (List (expr_data D) × Nat) :=
        match t.type with
        | .TK_IDENT => .ok (expr ++ [.factor (.var t.data false)], i)
        | .TK_NUM =>
          match parse_num ops t.data with
          | .error e => .error e
          | .ok d => .ok (expr ++ [.factor (.num d)], i)
        | .TK_OP =>
          match tks[i + 1]? with
          | none => .error (.runtime_error ("expected value, got '" ++ t.data ++ "'"))
          | some t1 =>
            if t1.type = .TK_NUM ∨ t1.type = .TK_IDENT then
              if char0 t.data = '-' then
                if t1.type = .TK_NUM then
                  match parse_num ops t1.data with
                  | .error e => .error e
                  | .ok d => .ok (expr ++ [.factor (.num (ops.neg d))], i + 1)
                else .ok (expr ++ [.factor (.var t1.data true)], i + 1)
              else if char0 t.data = '+' then
                if t1.type = .TK_NUM then
                  match parse_num ops t1.data with
                  | .error e => .error e
                  | .ok d => .ok (expr ++ [.factor (.num d)], i + 1)
                else .ok (expr ++ [.factor (.var t1.data false)], i + 1)
              else .error (.runtime_error ("expected value, got '" ++ t.data ++ "'"))
            else if t1.type = .TK_PAREN_OPEN then
              if char0 t.data = '-' then
                -- negexprgrp(tks,i) with i already advanced to the parenthesis
                if t1.type ≠ .TK_PAREN_OPEN then
                  .error (.runtime_error ("expected '(', got '" ++ t1.data ++ "'"))
                else
                  match read_expr ops tks fuel true [] [] (i + 1 + 1) with
                  | .error e => .error e
                  | .ok (e, j) => .ok (expr ++ [.factor (.negexprgrp (.expression e))], j)
              else .error (.runtime_error ("expected value, got '" ++ t.data ++ "'"))
            else .error (.runtime_error ("expected value, got '" ++ t.data ++ "'"))
        | .TK_PAREN_OPEN => read_expr ops tks fuel true [] expr (i + 1)
        | .TK_PAREN_CLOSE => .error (.runtime_error "expected value, got ')'")
        | .TK_ASSIGN => .error (.runtime_error ("expected value, got '" ++ t.data ++ "'"))
      match value with
      | .error e => .error e
      | .ok (expr, i) =>
        -- i++, then read operator
        match tks[i + 1]? with
        | some t =>
          if t.type = .TK_OP then
            match operator_precedence (char0 t.data) with
            | .error e => .error e
            | .ok precedence =>
              match shunt precedence op_stack expr with
              | .error e => .error e
              | .ok (op_stack, expr) =>
                read_expr ops tks fuel parens (char0 t.data :: op_stack) expr (i + 1 + 1)
          else if parens then
            if (flush op_stack expr).length = 0 then
              .error (.runtime_error "empty expression")
            else .ok (flush op_stack expr, i + 1)
          else .error (.runtime_error ("expected operator, got '" ++ t.data ++ "'"))
        | none =>
          if parens then .error (.runtime_error "expected ')', got EOF")
          else if (flush op_stack expr).length = 0 then
            .error (.runtime_error "empty expression")
          else .ok (flush op_stack expr, i + 1)

/-- Source: the constructors `expression(tks,i)` (with `parens` false) and
`expression(tks,i,b)`: `read_expr` on a new object, whose `expr` is empty. The
fuel covers every token: each call of `read_expr` is at a larger `i`. -/
def expression_ctor {D : Type} (ops : DoubleOps D) (tks : List token) (i : Nat)
    (parens : Bool) : Except Exn (node D × Nat) :=
  match read_expr ops tks (tks.length + 1) parens [] [] i with
  | .error e => .error e
  | .ok (expr, i) => .ok (.expression expr, i)

/-! ## Evaluator -/

/-- Source: `static double expression::operate(double lhs,double rhs,char op)`. -/
def operate {D : Type} (ops : DoubleOps D) (lhs rhs : D) (op : Char) : Except Exn D :=
  if op = '+' then .ok (ops.add lhs rhs)
  else if op = '-' then .ok (ops.sub lhs rhs)
  else if op = '/' then .ok (ops.div lhs rhs)
  else if op = '*' then .ok (ops.mul lhs rhs)
  else if op = '%' then .ok (ops.fmod lhs rhs)
  else if op = '^' then .ok (ops.pow lhs rhs)
  else .error (.runtime_error "invalid operator")

mutual
/-- Source: the virtual `double get_value(std::unordered_map<std::string,double>&)`
of `num`, `var`, `negexprgrp`, `expression`, `assignment` and `assignment_op`.
The map is returned with the result. In `assignment::get_value` the operand
`memory[name]` of `=` is evaluated before the right operand when
`ops.target_first` holds, and then the right operand reads, and an exception
in it leaves, the map with `name` inserted; otherwise the right operand is
evaluated first, on the map as it was. In `assignment_op::get_value` the right
operand is a statement of its own and `name` is in the map when `memory[name]`
runs. -/
def get_value {D : Type} (ops : DoubleOps D) : node D → Memory D → Except Exn D × Memory D
  | .num data, memory => (.ok data, memory)
  | .var name negative, memory =>
    match memory name with
    | some v => (.ok (if negative then ops.neg v else v), memory)
    | none => (.error (.runtime_error ("undefined variable '" ++ name ++ "'")), memory)
  | .negexprgrp expr, memory =>
    match get_value ops expr memory with
    | (.error e, memory) => (.error e, memory)
    | (.ok v, memory) => (.ok (ops.neg v), memory)
  | .expression expr, memory => get_value_loop ops expr [] memory
  | .assignment name expr, memory =>
    match get_value ops expr
        (if ops.target_first then memory.subscript name ops.zero else memory) with
    | (.error e, memory) => (.error e, memory)
    | (.ok v, memory) => (.ok v, memory.set name v)
  | .assignment_op name expr op, memory =>
    match memory name with
    | none => (.error (.runtime_error ("undefined variable '" ++ name ++ "'")), memory)
    | some lhs =>
      match get_value ops expr memory with
      | (.error e, memory) => (.error e, memory)
      | (.ok rhs, memory) =>
        match operate ops lhs rhs op with
        | .error e => (.error e, memory)
        | .ok v => (.ok v, memory.set name v)
/-- The `for(auto &e:expr)` loop of `expression::get_value` and the check after
it; `stack` has its back at the head. -/
def get_value_loop {D : Type} (ops : DoubleOps D) :
    List (expr_data D) → List D → Memory D → Except Exn D × Memory D
  | [], stack, memory =>
    match stack with
    | [v] => (.ok v, memory)
    | _ => (.error (.runtime_error "internal error, invalid stack size"), memory)
  | .op c :: rest, stack, memory =>
    match stack with
    | rhs :: lhs :: stack =>
      match operate ops lhs rhs c with
      | .error e => (.error e, memory)
      | .ok v => get_value_loop ops rest (v :: stack) memory
    | _ => (.error .undefined_behaviour, memory)
  | .factor f :: rest, stack, memory =>
    match get_value ops f memory with
    | (.error e, memory) => (.error e, memory)
    | (.ok v, memory) => get_value_loop ops rest (v :: stack) memory
end

/-! ## Statements -/

/-- Source: the constructor `assignment(tks,i)`. -/
def assignment_ctor {D : Type} (ops : DoubleOps D) (tks : List token) :
    Except Exn (node D × Nat) :=
  match tks[0]? with
  | none => .error .undefined_behaviour
  | some t0 =>
    if t0.type ≠ .TK_IDENT then
      .error (.runtime_error ("can't assign to '" ++ t0.data ++ "'"))
    else if 2 < tks.length then
      match expression_ctor ops tks 2 false with
      | .error e => .error e
      | .ok (expr, i) => .ok (.assignment t0.data expr, i)
    else .error (.runtime_error "expected expression, got EOF")

/-- Source: the constructor `assignment_op(tks,i)`. -/
def assignment_op_ctor {D : Type} (ops : DoubleOps D) (tks : List token) :
    Except Exn (node D × Nat) :=
  match tks[0]?, tks[1]? with
  | some t0, some t1 =>
    if t0.type ≠ .TK_IDENT then
      .error (.runtime_error ("can't assign to '" ++ t0.data ++ "'"))
    else if 3 < tks.length then
      match expression_ctor ops tks 3 false with
      | .error e => .error e
      | .ok (expr, i) => .ok (.assignment_op t0.data expr (char0 t1.data), i)
    else .error (.runtime_error "expected expression, got EOF")
  | _, _ => .error .undefined_behaviour

/-- The three ways `parse` reads a token sequence. -/
inductive StmtKind where
  | assignment
  | assignment_op
  | expression
deriving DecidableEq, Repr

/-- The conditions of the `if` chain of `parse`. -/
def classify (tks : List token) : StmtKind :=
  if 1 < tks.length ∧ (tks[1]?.map token.type) = some .TK_ASSIGN then .assignment
  else if 2 < tks.length ∧ (tks[1]?.map token.type) = some .TK_OP
      ∧ (tks[2]?.map token.type) = some .TK_ASSIGN then .assignment_op
  else .expression

/-- Source: `std::unique_ptr<node> parse(const std::vector<token> tks)`. -/
def parse {D : Type} (ops : DoubleOps D) (tks : List token) : Except Exn (node D) :=
  match classify tks with
  | .assignment =>
    match assignment_ctor ops tks with
    | .error e => .error e
    | .ok (n, _) => .ok n
  | .assignment_op =>
    match assignment_op_ctor ops tks with
    | .error e => .error e
    | .ok (n, _) => .ok n
  | .expression =>
    match expression_ctor ops tks 0 false with
    | .error e => .error e
    | .ok (n, _) => .ok n

/-- The call `parse(tks)->get_value(memory)` of `interpret`, on tokens. -/
def interpret_tokens {D : Type} (ops : DoubleOps D) (tks : List token) (memory : Memory D) :
    Except Exn D × Memory D :=
  match parse ops tks with
  | .error e => (.error e, memory)
  | .ok n => get_value ops n memory

/-- Source: `double interpret(std::string expression)`, with the static `memory`
as an argument and a result. -/
def interpret {D : Type} (ops : DoubleOps D) (expression : String) (memory : Memory D) :
    Except Exn D × Memory D :=
  match scan expression with
  | .error e => (.error e, memory)
  | .ok tks => interpret_tokens ops tks memory

/-! ## An instance to run the model on -/

/-- Reads an unsigned decimal integer: the value of a string of digits. -/
def digits_value : List Char → Nat → Nat
  | [], acc => acc
  | c :: cs, acc => digits_value cs (10 * acc + (c.toNat - '0'.toNat))

/-- The operations on the integers, where they are exact on doubles too (small
integers, no fraction): `+ - *`, truncated `/` and `fmod`, `pow` with a natural
exponent, and `stod` on a non-empty string of digits, with the operand order of
C++17. It serves to run the model on concrete statements such as `2+3*4`. -/
def intOps : DoubleOps Int where
  add := fun a b => a + b
  sub := fun a b => a - b
  mul := fun a b => a * b
  div := fun a b => Int.tdiv a b
  fmod := fun a b => Int.tmod a b
  pow := fun a b => a ^ b.toNat
  neg := fun a => -a
  stod := fun s =>
    if s.data ≠ [] ∧ s.data.all (fun c => decide ('0' ≤ c ∧ c ≤ '9')) then
      some (Int.ofNat (digits_value s.data 0))
    else none
  zero := 0
  target_first := false

/-- The instance `intOps` in a build that evaluates `memory[name]` before the right
operand of the assignment, as the standards before C++17 allow. -/
def intOpsTargetFirst : DoubleOps Int where
  add := intOps.add
  sub := intOps.sub
  mul := intOps.mul
  div := intOps.div
  fmod := intOps.fmod
  pow := intOps.pow
  neg := intOps.neg
  stod := intOps.stod
  zero := 0
  target_first := true

/-- The empty variable store. -/
def emptyMemory (D : Type) : Memory D := fun _ => none

/-! ## One turn of the loop of `read_expr`, in two steps

These definitions restate the body of `read_expr` for the proofs below
(`read_expr_succ` is the equation between the two). -/

/-- What `read_expr` finds at a value position `i`: an operand `f` whose last
token is at `i'`, a `(` (the group is read by a recursive call on the same
`expr`), a `-` before a `(` (a `negexprgrp` is read from `i + 2`), or an
exception. -/
inductive ValueStep (D : Type) where
  | leaf (f : node D) (i' : Nat)
  | group
  | neggroup
  | fail (e : Exn)

/-- The `switch(tks[i].type)` of `read_expr` up to its recursive calls. -/
def value_step {D : Type} (ops : DoubleOps D) (tks : List token) (i : Nat) : ValueStep D :=
  match tks[i]? with
  | none => .fail (.runtime_error "expected value, got EOF")
  | some t =>
    match t.type with
    | .TK_IDENT => .leaf (.var t.data false) i
    | .TK_NUM =>
      match parse_num ops t.data with
      | .error e => .fail e
      | .ok d => .leaf (.num d) i
    | .TK_OP =>
      match tks[i + 1]? with
      | none => .fail (.runtime_error ("expected value, got '" ++ t.data ++ "'"))
      | some t1 =>
        if t1.type = .TK_NUM ∨ t1.type = .TK_IDENT then
          if char0 t.data = '-' then
            if t1.type = .TK_NUM then
              match parse_num ops t1.data with
              | .error e => .fail e
              | .ok d => .leaf (.num (ops.neg d)) (i + 1)
            else .leaf (.var t1.data true) (i + 1)
          else if char0 t.data = '+' then
            if t1.type = .TK_NUM then
              match parse_num ops t1.data with
              | .error e => .fail e
              | .ok d => .leaf (.num d) (i + 1)
            else .leaf (.var t1.data false) (i + 1)
          else .fail (.runtime_error ("expected value, got '" ++ t.data ++ "'"))
        else if t1.type = .TK_PAREN_OPEN then
          if char0 t.data = '-' then .neggroup
          else .fail (.runtime_error ("expected value, got '" ++ t.data ++ "'"))
        else .fail (.runtime_error ("expected value, got '" ++ t.data ++ "'"))
    | .TK_PAREN_OPEN => .group
    | .TK_PAREN_CLOSE => .fail (.runtime_error "expected value, got ')'")
    | .TK_ASSIGN => .fail (.runtime_error ("expected value, got '" ++ t.data ++ "'"))

/-- What `read_expr` does at the operator position after a value that ended at
`i'`: push the operator and go on, return, or throw. -/
inductive OpStep (D : Type) where
  | next (op_stack : List Char) (expr : List (expr_data D))
  | done (expr : List (expr_data D))
  | fail (e : Exn)

/-- The `if(i<tks.size())` part of `read_expr`, up to the next turn of the loop. -/
def op_step {D : Type} (tks : List token) (parens : Bool) (op_stack : List Char)
    (expr : List (expr_data D)) (i' : Nat) : OpStep D :=
  match tks[i' + 1]? with
  | some t =>
    if t.type = .TK_OP then
      match operator_precedence (char0 t.data) with
      | .error e => .fail e
      | .ok precedence =>
        match shunt precedence op_stack expr with
        | .error e => .fail e
        | .ok (op_stack, expr) => .next (char0 t.data :: op_stack) expr
    else if parens then
      if (flush op_stack expr).length = 0 then .fail (.runtime_error "empty expression")
      else .done (flush op_stack expr)
    else .fail (.runtime_error ("expected operator, got '" ++ t.data ++ "'"))
  | none =>
    if parens then .fail (.runtime_error "expected ')', got EOF")
    else if (flush op_stack expr).length = 0 then .fail (.runtime_error "empty expression")
    else .done (flush op_stack expr)

/-- The rest of a turn of the loop of `read_expr` once the value is read. -/
def resume {D : Type} (ops : DoubleOps D) (tks : List token) (fuel : Nat) (parens : Bool)
    (op_stack : List Char) (expr : List (expr_data D)) (i' : Nat) :
    Except Exn (List (expr_data D) × Nat) :=
  match op_step tks parens op_stack expr i' with
  | .fail e => .error e
  | .done expr => .ok (expr, i' + 1)
  | .next op_stack expr => read_expr ops tks fuel parens op_stack expr (i' + 1 + 1)

/-- The token sequence `B` holds the tokens of `A`, in the same order, from
position `d` on. -/
def Agree (A B : List token) (d : Nat) : Prop :=
  ∀ k, k < A.length → B[k + d]? = A[k]?

/-- How the end of `A` looks inside `B` when a run of `read_expr` on `A` with
`parens = p` is compared with a run on `B` with `parens = q`: inside a group of
`A` nothing is asked; at top level, `B` ends where `A` ends, or `B` goes on with
a token that is no operator and its run is inside a group. -/
def EndOK (A B : List token) (d : Nat) (p q : Bool) : Prop :=
  (p = true ∧ q = true)
  ∨ (p = false ∧ q = false ∧ B[A.length + d]? = none)
  ∨ (p = false ∧ q = true ∧ ∃ t, B[A.length + d]? = some t ∧ t.type ≠ .TK_OP)

/-! ## Well-formed reverse-Polish sequences -/

mutual
/-- The nodes the expression parser builds: literals, variable references, and
negated groups over an entry sequence that a value stack evaluates to exactly
one value; no assignment inside. -/
def node_ok {D : Type} : node D → Bool
  | .num _ => true
  | .var _ _ => true
  | .negexprgrp e => node_ok e
  | .expression es => rpn_depth es 0 == some 1
  | .assignment _ _ => false
  | .assignment_op _ _ _ => false
/-- The size of the value stack after the entries `es`, started at size `d`;
`none` when an operator entry finds fewer than two values, is no operator of
`operate`, or a factor is not `node_ok`. -/
def rpn_depth {D : Type} : List (expr_data D) → Nat → Option Nat
  | [], d => some d
  | .factor f :: rest, d => if node_ok f then rpn_depth rest (d + 1) else none
  | .op c :: rest, d => if is_op c ∧ 2 ≤ d then rpn_depth rest (d - 1) else none
end

mutual
/-- The names of the variable references of a node, in evaluation order. -/
def node_vars {D : Type} : node D → List String
  | .num _ => []
  | .var name _ => [name]
  | .negexprgrp e => node_vars e
  | .expression es => rpn_vars es
  | .assignment _ e => node_vars e
  | .assignment_op _ e _ => node_vars e
/-- The names of the variable references of an entry sequence, in order. -/
def rpn_vars {D : Type} : List (expr_data D) → List String
  | [] => []
  | .factor f :: rest => node_vars f ++ rpn_vars rest
  | .op _ :: rest => rpn_vars rest
end

/-- The first name of `xs` that the store does not hold. -/
def first_undefined {D : Type} (m : Memory D) (xs : List String) : Option String :=
  xs.find? (fun x => (m x).isNone)

/-- The texts of the identifier tokens, in order. -/
def idents (tks : List token) : List String :=
  tks.filterMap (fun t => if t.type = .TK_IDENT then some t.data else none)

/-- The tokens at positions `i ≤ k < j`. -/
def slice (tks : List token) (i j : Nat) : List token := (tks.drop i).take (j - i)

/-- The message of the undefined-variable error of `var::get_value` and
`assignment_op::get_value`. -/
def undefined_variable (name : String) : Exn :=
  .runtime_error ("undefined variable '" ++ name ++ "'")

/-- What evaluating a well-formed node or entry sequence with the variable
references `vars` gives in the store `m`: the store is unchanged, and the
result is the undefined-variable error of the first reference that `m` does
not hold, or a value when it holds them all. -/
def EvalSpec {D : Type} (m : Memory D) (vars : List String)
    (r : Except Exn D × Memory D) : Prop :=
  r.2 = m ∧
    match first_undefined m vars with
    | some x => r.1 = .error (undefined_variable x)
    | none => ∃ v, r.1 = .ok v

/-! ## Buffered runs of the scanner -/

/-- The part of `scan` after its loop: the last buffer is committed when it is
not empty. -/
def scan_end : Bool × String × List token → Except Exn (List token)
  | (reading, tmp, tks) =>
    if tmp.length > 0 then
      match commit reading tmp tks with
      | .error e => .error e
      | .ok (_, _, tks) => .ok tks
    else .ok tks

/-- The characters that end a buffered run in `scan`: whitespace, parentheses,
`=` and the operators. -/
def is_delim (c : Char) : Bool :=
  is_separator c || (c == '(' || (c == ')' || (c == '=' || is_op c)))

/-- The buffered runs of a text, in order, after the characters `cur` of a run
already begun: the maximal runs of characters that are no delimiters. -/
def buffered_runs_from : List Char → List Char → List (List Char)
  | [], cur => if cur = [] then [] else [cur]
  | c :: cs, cur =>
    if is_delim c then
      if cur = [] then buffered_runs_from cs [] else cur :: buffered_runs_from cs []
    else buffered_runs_from cs (cur ++ [c])

/-- The buffered runs of a text. -/
def buffered_runs (s : String) : List (List Char) := buffered_runs_from s.data []

/-- A decimal digit. -/
def is_digit (c : Char) : Bool := decide ('0' ≤ c ∧ c ≤ '9')

/-- Made only of digits with at most one `.`. -/
def digits_one_dot (r : List Char) : Bool :=
  r.all (fun c => is_digit c || c == '.') && decide (r.count '.' ≤ 1)

/-- A run that starts with a digit and is not made only of digits with at most
one `.`. -/
def bad_number_run (r : List Char) : Bool :=
  (match r with
    | c :: _ => is_digit c
    | [] => false) && !digits_one_dot r

/-- The scan of the characters `cs` from the state `reading`, `tmp`, `tks`: the
loop of `scan` and the commit after it. -/
def scan_from (cs : List Char) (reading : Bool) (tmp : String) (tks : List token) :
    Except Exn (List token) :=
  match scan_loop cs reading tmp tks with
  | .error e => .error e
  | .ok st => scan_end st

/-! ## The value stack, entry by entry -/

/-- The `for(auto &e:expr)` loop of `expression::get_value` without the test
after it: the value stack, back at the head, after the entries. -/
def run_entries {D : Type} (ops : DoubleOps D) :
    List (expr_data D) → List D → Memory D → Except Exn (List D) × Memory D
  | [], stack, memory => (.ok stack, memory)
  | .op c :: rest, stack, memory =>
    match stack with
    | rhs :: lhs :: stack =>
      match operate ops lhs rhs c with
      | .error e => (.error e, memory)
      | .ok v => run_entries ops rest (v :: stack) memory
    | _ => (.error .undefined_behaviour, memory)
  | .factor f :: rest, stack, memory =>
    match get_value ops f memory with
    | (.error e, memory) => (.error e, memory)
    | (.ok v, memory) => run_entries ops rest (v :: stack) memory

/-- The test of `expression::get_value` after its loop. -/
def stack_result {D : Type} : Except Exn (List D) × Memory D → Except Exn D × Memory D
  | (.error e, memory) => (.error e, memory)
  | (.ok [v], memory) => (.ok v, memory)
  | (.ok _, memory) => (.error (.runtime_error "internal error, invalid stack size"), memory)

/-! ## The reference precedence grammar -/

/-- Reference, from the operator semantics of the specification: `+` add, `-`
subtract, `*` multiply, `/` divide, `%` remainder, `^` power. -/
def apply_op {D : Type} (ops : DoubleOps D) (o : Char) (lhs rhs : D) : D :=
  if o = '+' then ops.add lhs rhs
  else if o = '-' then ops.sub lhs rhs
  else if o = '*' then ops.mul lhs rhs
  else if o = '/' then ops.div lhs rhs
  else if o = '%' then ops.fmod lhs rhs
  else ops.pow lhs rhs

/-- The operators of precedence 1. -/
def is_additive (o : Char) : Bool := o == '+' || o == '-'

/-- The operators of precedence 2. -/
def is_multiplicative (o : Char) : Bool := o == '*' || (o == '/' || o == '%')

/-- Splits `o1 x1 ... ok xk` at the operators that satisfy `p`: the items before
the first such operator, and for each such operator its operand with the items
up to the next one. -/
def split_at {α : Type} (p : Char → Bool) :
    List (Char × α) → List (Char × α) × List (Char × α × List (Char × α))
  | [] => ([], [])
  | (o, x) :: rest =>
    if p o then ([], (o, x, (split_at p rest).1) :: (split_at p rest).2)
    else ((o, x) :: (split_at p rest).1, (split_at p rest).2)

/-- Reference: a left-associative chain `x ^ x1 ^ ... ^ xk`. -/
def ref_pow_chain {D : Type} (ops : DoubleOps D) (x : D) (l : List (Char × D)) : D :=
  l.foldl (fun acc ox => apply_op ops ox.1 acc ox.2) x

/-- Reference: a left-associative chain of `*`, `/` and `%` over chains of `^`. -/
def ref_mul_chain {D : Type} (ops : DoubleOps D) (x : D) (l : List (Char × D)) : D :=
  (split_at is_multiplicative l).2.foldl
    (fun acc g => apply_op ops g.1 acc (ref_pow_chain ops g.2.1 g.2.2))
    (ref_pow_chain ops x (split_at is_multiplicative l).1)

/-- Reference: a left-associative chain of `+` and `-` over chains of `*`, `/`
and `%` over chains of `^`: the value of `x o1 x1 ... ok xk` by the precedence
grammar. -/
def ref_add_chain {D : Type} (ops : DoubleOps D) (x : D) (l : List (Char × D)) : D :=
  (split_at is_additive l).2.foldl
    (fun acc g => apply_op ops g.1 acc (ref_mul_chain ops g.2.1 g.2.2))
    (ref_mul_chain ops x (split_at is_additive l).1)

/-- The tokens of `o1 s1 ... ok sk`, operators and numeric literals in turn. -/
def chain_tokens {D : Type} : List (Char × String × D) → List token
  | [] => []
  | (o, s, _) :: rest => ⟨.TK_OP, String.singleton o⟩ :: ⟨.TK_NUM, s⟩ :: chain_tokens rest

/-- The operators and values of `o1 s1 ... ok sk`. -/
def chain_values {D : Type} (l : List (Char × String × D)) : List (Char × D) :=
  l.map (fun e => (e.1, e.2.2))

/-- The pending operations `F`, the innermost first, applied to a right operand. -/
def pending {D : Type} (ops : DoubleOps D) (F : List (Char × D)) (y : D) : D :=
  F.foldl (fun acc g => apply_op ops g.1 g.2 acc) y

/-- The value of the reference grammar on `x o1 x1 ...` when `x` stands inside
the contexts `k3` (a chain of `^` under way), `k2` (a chain of `* / %`) and `k1`
(a chain of `+ -`). -/
def ref_state {D : Type} (ops : DoubleOps D) (k1 k2 k3 : D → D) (x : D)
    (l : List (Char × D)) : D :=
  (split_at is_additive l).2.foldl
    (fun acc g => apply_op ops g.1 acc (ref_mul_chain ops g.2.1 g.2.2))
    (k1 ((split_at is_multiplicative (split_at is_additive l).1).2.foldl
      (fun acc g => apply_op ops g.1 acc (ref_pow_chain ops g.2.1 g.2.2))
      (k2 (ref_pow_chain ops (k3 x)
        (split_at is_multiplicative (split_at is_additive l).1).1))))

/-- Every operator of the pending operations `F` has precedence `q`. -/
def Level {D : Type} (q : Int) (F : List (Char × D)) : Prop :=
  ∀ g ∈ F, operator_precedence g.1 = .ok q

/-! ## Basic facts -/

theorem char0_singleton (c : Char) : char0 (String.singleton c) = c := rfl

theorem is_op_cases {c : Char} (h : is_op c = true) :
    c = '+' ∨ c = '-' ∨ c = '*' ∨ c = '/' ∨ c = '%' ∨ c = '^' := by
  simpa [is_op] using h

theorem operator_precedence_is_op {c : Char} {p : Int} (h : operator_precedence c = .ok p) :
    is_op c = true := by
  unfold operator_precedence at h
  simp only [is_op, Bool.decide_or, Bool.or_eq_true, decide_eq_true_eq]
  by_contra hc
  simp only [not_or] at hc
  obtain ⟨h1, h2, h3, h4, h5, h6⟩ := hc
  simp [h1, h2, h3, h4, h5, h6] at h

theorem is_op_precedence {c : Char} (h : is_op c = true) :
    ∃ p : Int, operator_precedence c = .ok p ∧ 1 ≤ p ∧ p ≤ 3 := by
  rcases is_op_cases h with h | h | h | h | h | h <;> subst h
  · exact ⟨1, rfl, by decide, by decide⟩
  · exact ⟨1, rfl, by decide, by decide⟩
  · exact ⟨2, rfl, by decide, by decide⟩
  · exact ⟨2, rfl, by decide, by decide⟩
  · exact ⟨2, rfl, by decide, by decide⟩
  · exact ⟨3, rfl, by decide, by decide⟩

theorem operate_ok {D : Type} (ops : DoubleOps D) {c : Char} (h : is_op c = true)
    (lhs rhs : D) : ∃ v, operate ops lhs rhs c = .ok v := by
  rcases is_op_cases h with h | h | h | h | h | h <;> subst h
  · exact ⟨_, rfl⟩
  · exact ⟨_, rfl⟩
  · exact ⟨_, rfl⟩
  · exact ⟨_, rfl⟩
  · exact ⟨_, rfl⟩
  · exact ⟨_, rfl⟩

/-! ## Precedence, grouping and signs on three operands -/

/-- Claim C1. With the precedences of `operator_precedence` (`+ -` are 1, `* / %`
are 2, `^` is 3), interpreting the tokens of `a o1 b o2 c` (numeric literals
`a b c`, operators of precedence `p1`, `p2`) gives
`operate(operate(a,b,o1),c,o2)` when `p2 ≤ p1` and
`operate(a,operate(b,c,o2),o1)` otherwise, and leaves the store as it was. -/
theorem precedence_of_two_operators {D : Type} (ops : DoubleOps D) (sa sb sc : String)
    (a b c : D) (o1 o2 : Char) (p1 p2 : Int) (m : Memory D)
    (ha : ops.stod sa = some a) (hb : ops.stod sb = some b) (hc : ops.stod sc = some c)
    (h1 : operator_precedence o1 = .ok p1) (h2 : operator_precedence o2 = .ok p2) :
    (operator_precedence '+' = .ok 1 ∧ operator_precedence '-' = .ok 1
      ∧ operator_precedence '*' = .ok 2 ∧ operator_precedence '/' = .ok 2
      ∧ operator_precedence '%' = .ok 2 ∧ operator_precedence '^' = .ok 3) ∧
    ∃ r, (if p2 ≤ p1 then (operate ops a b o1).bind (fun x => operate ops x c o2)
          else (operate ops b c o2).bind (fun y => operate ops a y o1)) = .ok r ∧
      interpret_tokens ops
        [⟨.TK_NUM, sa⟩, ⟨.TK_OP, String.singleton o1⟩, ⟨.TK_NUM, sb⟩,
         ⟨.TK_OP, String.singleton o2⟩, ⟨.TK_NUM, sc⟩] m = (.ok r, m) := by
  refine ⟨⟨rfl, rfl, rfl, rfl, rfl, rfl⟩, ?_⟩
  have e1 := operator_precedence_is_op h1
  have e2 := operator_precedence_is_op h2
  obtain ⟨x, hx⟩ := operate_ok ops e1 a b
  obtain ⟨r1, hr1⟩ := operate_ok ops e2 x c
  obtain ⟨y, hy⟩ := operate_ok ops e2 b c
  obtain ⟨r2, hr2⟩ := operate_ok ops e1 a y
  simp only [interpret_tokens, parse, classify, expression_ctor, List.length_cons,
    List.length_nil]
  simp [read_expr, parse_num, ha, hb, hc, char0_singleton, h1, h2, shunt, flush, get_value,
    get_value_loop]
  by_cases hp : p2 ≤ p1
  · refine ⟨r1, ?_, ?_⟩
    · simp [hp, hx, hr1, Except.bind]
    · simp [hp, flush, get_value, get_value_loop, hx, hr1]
  · refine ⟨r2, ?_, ?_⟩
    · simp [hp, hy, hr2, Except.bind]
    · simp [hp, flush, get_value, get_value_loop, hy, hr2]

/-- The statement `2+3*4` is 14: the theorem at `o1 = +`, `o2 = *`. -/
theorem precedence_of_two_operators_witness :
    intOps.stod "2" = some 2 ∧ intOps.stod "3" = some 3 ∧ intOps.stod "4" = some 4
    ∧ operator_precedence '+' = .ok 1 ∧ operator_precedence '*' = .ok 2
    ∧ scan "2+3*4" = .ok [⟨.TK_NUM, "2"⟩, ⟨.TK_OP, "+"⟩, ⟨.TK_NUM, "3"⟩, ⟨.TK_OP, "*"⟩,
        ⟨.TK_NUM, "4"⟩]
    ∧ interpret_tokens intOps
        [⟨.TK_NUM, "2"⟩, ⟨.TK_OP, "+"⟩, ⟨.TK_NUM, "3"⟩, ⟨.TK_OP, "*"⟩, ⟨.TK_NUM, "4"⟩]
        (emptyMemory Int) = (.ok 14, emptyMemory Int) := by
  refine ⟨rfl, rfl, rfl, rfl, rfl, rfl, ?_⟩
  obtain ⟨r, hr, h⟩ := (precedence_of_two_operators intOps "2" "3" "4" 2 3 4 '+' '*' 1 2
    (emptyMemory Int) rfl rfl rfl rfl rfl).2
  have hr14 : r = 14 := by
    have h14 : (Except.ok 14 : Except Exn Int) = .ok r := hr
    injection h14 with h14
    exact h14.symm
  rw [← hr14]
  exact h

/-- Claim C2. Parentheses override precedence: for numeric literals `a b c` and
operators `o1 o2` among `+ - * / % ^`, the tokens of `( a o1 b ) o2 c` evaluate
to `operate(operate(a,b,o1),c,o2)` and those of `a o1 ( b o2 c )` to
`operate(a,operate(b,c,o2),o1)`, whatever the precedences; the store is left
as it was. -/
theorem parentheses_override_precedence {D : Type} (ops : DoubleOps D) (sa sb sc : String)
    (a b c : D) (o1 o2 : Char) (m : Memory D)
    (ha : ops.stod sa = some a) (hb : ops.stod sb = some b) (hc : ops.stod sc = some c)
    (h1 : is_op o1 = true) (h2 : is_op o2 = true) :
    (∃ r, (operate ops a b o1).bind (fun x => operate ops x c o2) = .ok r ∧
      interpret_tokens ops
        [⟨.TK_PAREN_OPEN, "("⟩, ⟨.TK_NUM, sa⟩, ⟨.TK_OP, String.singleton o1⟩, ⟨.TK_NUM, sb⟩,
         ⟨.TK_PAREN_CLOSE, ")"⟩, ⟨.TK_OP, String.singleton o2⟩, ⟨.TK_NUM, sc⟩] m
        = (.ok r, m)) ∧
    (∃ r, (operate ops b c o2).bind (fun y => operate ops a y o1) = .ok r ∧
      interpret_tokens ops
        [⟨.TK_NUM, sa⟩, ⟨.TK_OP, String.singleton o1⟩, ⟨.TK_PAREN_OPEN, "("⟩, ⟨.TK_NUM, sb⟩,
         ⟨.TK_OP, String.singleton o2⟩, ⟨.TK_NUM, sc⟩, ⟨.TK_PAREN_CLOSE, ")"⟩] m
        = (.ok r, m)) := by
  obtain ⟨p1, hp1, -, -⟩ := is_op_precedence h1
  obtain ⟨p2, hp2, -, -⟩ := is_op_precedence h2
  obtain ⟨x, hx⟩ := operate_ok ops h1 a b
  obtain ⟨r1, hr1⟩ := operate_ok ops h2 x c
  obtain ⟨y, hy⟩ := operate_ok ops h2 b c
  obtain ⟨r2, hr2⟩ := operate_ok ops h1 a y
  refine ⟨⟨r1, ?_, ?_⟩, ⟨r2, ?_, ?_⟩⟩
  · simp [hx, hr1, Except.bind]
  · simp only [interpret_tokens, parse, classify, expression_ctor, List.length_cons,
      List.length_nil]
    simp [read_expr, parse_num, ha, hb, hc, char0_singleton, hp1, hp2, shunt, flush,
      get_value, get_value_loop, hx, hr1]
  · simp [hy, hr2, Except.bind]
  · simp only [interpret_tokens, parse, classify, expression_ctor, List.length_cons,
      List.length_nil]
    simp [read_expr, parse_num, ha, hb, hc, char0_singleton, hp1, hp2, shunt, flush,
      get_value, get_value_loop, hy, hr2]

/-- The statement `(2+3)*4` is 20, and `2*(3+4)` is 14. -/
theorem parentheses_override_precedence_witness :
    intOps.stod "2" = some 2 ∧ intOps.stod "3" = some 3 ∧ intOps.stod "4" = some 4
    ∧ is_op '+' = true ∧ is_op '*' = true
    ∧ scan "(2+3)*4" = .ok [⟨.TK_PAREN_OPEN, "("⟩, ⟨.TK_NUM, "2"⟩, ⟨.TK_OP, "+"⟩,
        ⟨.TK_NUM, "3"⟩, ⟨.TK_PAREN_CLOSE, ")"⟩, ⟨.TK_OP, "*"⟩, ⟨.TK_NUM, "4"⟩]
    ∧ interpret_tokens intOps
        [⟨.TK_PAREN_OPEN, "("⟩, ⟨.TK_NUM, "2"⟩, ⟨.TK_OP, "+"⟩, ⟨.TK_NUM, "3"⟩,
         ⟨.TK_PAREN_CLOSE, ")"⟩, ⟨.TK_OP, "*"⟩, ⟨.TK_NUM, "4"⟩]
        (emptyMemory Int) = (.ok 20, emptyMemory Int) := by
  refine ⟨rfl, rfl, rfl, rfl, rfl, rfl, ?_⟩
  obtain ⟨r, hr, h⟩ := (parentheses_override_precedence intOps "2" "3" "4" 2 3 4 '+' '*'
    (emptyMemory Int) rfl rfl rfl rfl rfl).1
  have hr20 : r = 20 := by
    have h20 : (Except.ok 20 : Except Exn Int) = .ok r := hr
    injection h20 with h20
    exact h20.symm
  rw [← hr20]
  exact h

/-- Claim C4. A sign prefix applies to the literal or variable right after it and
binds tighter than every binary operator: for numeric literals `a b` and an
operator `o`, the tokens of `- a o b` evaluate to `operate(-a,b,o)` and those of
`+ a o b` to `operate(a,b,o)`; with a variable `x` stored as `vx` in place of
`a`, to `operate(-vx,b,o)` and `operate(vx,b,o)`. -/
theorem sign_prefix_binds_tightest {D : Type} (ops : DoubleOps D) (sa sb x : String)
    (a b vx : D) (o : Char) (m : Memory D)
    (ha : ops.stod sa = some a) (hb : ops.stod sb = some b) (hx : m x = some vx)
    (ho : is_op o = true) :
    (∃ r, operate ops (ops.neg a) b o = .ok r ∧
      interpret_tokens ops
        [⟨.TK_OP, "-"⟩, ⟨.TK_NUM, sa⟩, ⟨.TK_OP, String.singleton o⟩, ⟨.TK_NUM, sb⟩] m
        = (.ok r, m)) ∧
    (∃ r, operate ops a b o = .ok r ∧
      interpret_tokens ops
        [⟨.TK_OP, "+"⟩, ⟨.TK_NUM, sa⟩, ⟨.TK_OP, String.singleton o⟩, ⟨.TK_NUM, sb⟩] m
        = (.ok r, m)) ∧
    (∃ r, operate ops (ops.neg vx) b o = .ok r ∧
      interpret_tokens ops
        [⟨.TK_OP, "-"⟩, ⟨.TK_IDENT, x⟩, ⟨.TK_OP, String.singleton o⟩, ⟨.TK_NUM, sb⟩] m
        = (.ok r, m)) ∧
    (∃ r, operate ops vx b o = .ok r ∧
      interpret_tokens ops
        [⟨.TK_OP, "+"⟩, ⟨.TK_IDENT, x⟩, ⟨.TK_OP, String.singleton o⟩, ⟨.TK_NUM, sb⟩] m
        = (.ok r, m)) := by
  obtain ⟨p, hp, -, -⟩ := is_op_precedence ho
  obtain ⟨r1, hr1⟩ := operate_ok ops ho (ops.neg a) b
  obtain ⟨r2, hr2⟩ := operate_ok ops ho a b
  obtain ⟨r3, hr3⟩ := operate_ok ops ho (ops.neg vx) b
  obtain ⟨r4, hr4⟩ := operate_ok ops ho vx b
  have cm : char0 "-" = '-' := rfl
  have cp : char0 "+" = '+' := rfl
  have cpm : ¬ ('+' = '-') := by decide
  refine ⟨⟨r1, hr1, ?_⟩, ⟨r2, hr2, ?_⟩, ⟨r3, hr3, ?_⟩, ⟨r4, hr4, ?_⟩⟩
  all_goals
    simp only [interpret_tokens, parse, classify, expression_ctor, List.length_cons,
      List.length_nil]
    simp [read_expr, parse_num, ha, hb, hx, char0_singleton, cm, cp, cpm, hp, shunt, flush,
      get_value, get_value_loop, hr1, hr2, hr3, hr4]

/-- The statement `-3+2` is -1, with `x` stored as 3 for the variable forms. -/
theorem sign_prefix_binds_tightest_witness :
    intOps.stod "3" = some 3 ∧ intOps.stod "2" = some 2
    ∧ ((emptyMemory Int).set "x" 3) "x" = some 3 ∧ is_op '+' = true
    ∧ scan "-3+2" = .ok [⟨.TK_OP, "-"⟩, ⟨.TK_NUM, "3"⟩, ⟨.TK_OP, "+"⟩, ⟨.TK_NUM, "2"⟩]
    ∧ interpret_tokens intOps
        [⟨.TK_OP, "-"⟩, ⟨.TK_NUM, "3"⟩, ⟨.TK_OP, "+"⟩, ⟨.TK_NUM, "2"⟩]
        ((emptyMemory Int).set "x" 3) = (.ok (-1), (emptyMemory Int).set "x" 3) := by
  refine ⟨rfl, rfl, rfl, rfl, rfl, ?_⟩
  obtain ⟨r, hr, h⟩ := (sign_prefix_binds_tightest intOps "3" "2" "x" 3 2 3 '+'
    ((emptyMemory Int).set "x" 3) rfl rfl rfl rfl).1
  have hr1 : r = -1 := by
    have h1 : (Except.ok (-1) : Except Exn Int) = .ok r := hr
    injection h1 with h1
    exact h1.symm
  rw [← hr1]
  exact h

/-! ## The identifier test of the scanner -/

theorem is_ident_loop_true (cs : List Char) : is_ident_loop cs = true := by
  induction cs with
  | nil => rfl
  | cons c cs ih =>
    have h : ¬ (c < '0' ∧ c > '9') := fun ⟨h0, h9⟩ =>
      absurd (lt_trans h9 h0) (by decide)
    simp [is_ident_loop, h, ih]

/-- Claim C10, as the code has it. The loop of `is_ident` rejects nothing (its
test `c<'0'&&c>'9'` never holds), so `is_ident` accepts every string whose first
character is not a digit: the scanner turns the runs `a$b` and `..` into
identifier tokens instead of failing with "unexpected". -/
theorem is_ident_accepts_any_run :
    (∀ s : String, is_ident s = !(decide (char0 s ≥ '0' ∧ char0 s ≤ '9')))
    ∧ scan "a$b" = .ok [⟨.TK_IDENT, "a$b"⟩]
    ∧ scan ".." = .ok [⟨.TK_IDENT, ".."⟩]
    ∧ scan "a$b=1" = .ok [⟨.TK_IDENT, "a$b"⟩, ⟨.TK_ASSIGN, "="⟩, ⟨.TK_NUM, "1"⟩] := by
  refine ⟨fun s => ?_, rfl, rfl, rfl⟩
  unfold is_ident
  by_cases h : char0 s ≥ '0' ∧ char0 s ≤ '9'
  · simp [h]
  · simp [h, is_ident_loop_true]

/-! ## The loop of `read_expr`, one turn at a time -/

theorem read_expr_zero {D : Type} (ops : DoubleOps D) (tks : List token) (parens : Bool)
    (op_stack : List Char) (expr : List (expr_data D)) (i : Nat) :
    read_expr ops tks 0 parens op_stack expr i = .error .out_of_fuel := rfl

theorem resume_eq {D : Type} (ops : DoubleOps D) (tks : List token) (fuel : Nat)
    (parens : Bool) (op_stack : List Char) (expr : List (expr_data D)) (i : Nat) :
    resume ops tks fuel parens op_stack expr i =
      match tks[i + 1]? with
      | some t =>
        if t.type = .TK_OP then
          match operator_precedence (char0 t.data) with
          | .error e => .error e
          | .ok precedence =>
            match shunt precedence op_stack expr with
            | .error e => .error e
            | .ok (op_stack, expr) =>
              read_expr ops tks fuel parens (char0 t.data :: op_stack) expr (i + 1 + 1)
        else if parens then
          if (flush op_stack expr).length = 0 then
            .error (.runtime_error "empty expression")
          else .ok (flush op_stack expr, i + 1)
        else .error (.runtime_error ("expected operator, got '" ++ t.data ++ "'"))
      | none =>
        if parens then .error (.runtime_error "expected ')', got EOF")
        else if (flush op_stack expr).length = 0 then
          .error (.runtime_error "empty expression")
        else .ok (flush op_stack expr, i + 1) := by
  unfold resume op_step
  cases tks[i + 1]? with
  | none =>
    simp only []
    split_ifs <;> rfl
  | some t =>
    simp only []
    by_cases c1 : t.type = .TK_OP
    · simp only [c1, if_true]
      cases operator_precedence (char0 t.data) with
      | error e => rfl
      | ok p =>
        simp only []
        cases shunt p op_stack expr <;> rfl
    · simp only [c1, if_false]
      split_ifs <;> rfl

theorem read_expr_succ {D : Type} (ops : DoubleOps D) (tks : List token) (fuel : Nat)
    (parens : Bool) (op_stack : List Char) (expr : List (expr_data D)) (i : Nat) :
    read_expr ops tks (fuel + 1) parens op_stack expr i =
      match value_step ops tks i with
      | .fail e => .error e
      | .leaf f i' => resume ops tks fuel parens op_stack (expr ++ [.factor f]) i'
      | .group =>
        match read_expr ops tks fuel true [] expr (i + 1) with
        | .error e => .error e
        | .ok (expr, j) => resume ops tks fuel parens op_stack expr j
      | .neggroup =>
        match read_expr ops tks fuel true [] [] (i + 1 + 1) with
        | .error e => .error e
        | .ok (e, j) =>
          resume ops tks fuel parens op_stack
            (expr ++ [.factor (.negexprgrp (.expression e))]) j := by
  rw [read_expr]
  unfold value_step
  simp only [resume_eq]
  cases h : tks[i]? with
  | none => rfl
  | some t =>
    simp only []
    cases ht : t.type with
    | TK_PAREN_OPEN =>
      cases read_expr ops tks fuel true [] expr (i + 1) <;> rfl
    | TK_PAREN_CLOSE => rfl
    | TK_ASSIGN => rfl
    | TK_NUM =>
      cases parse_num ops t.data <;> rfl
    | TK_IDENT => rfl
    | TK_OP =>
      simp only []
      cases h1 : tks[i + 1]? with
      | none => rfl
      | some t1 =>
        simp only []
        by_cases c1 : t1.type = .TK_NUM ∨ t1.type = .TK_IDENT
        · simp only [c1, if_true]
          by_cases c2 : char0 t.data = '-'
          · simp only [c2, if_true]
            by_cases c3 : t1.type = .TK_NUM
            · simp only [c3, if_true]
              cases parse_num ops t1.data <;> rfl
            · simp only [c3, if_false]
          · simp only [c2, if_false]
            by_cases c4 : char0 t.data = '+'
            · simp only [c4, if_true]
              by_cases c3 : t1.type = .TK_NUM
              · simp only [c3, if_true]
                cases parse_num ops t1.data <;> rfl
              · simp only [c3, if_false]
            · simp only [c4, if_false]
        · simp only [c1, if_false]
          by_cases c5 : t1.type = .TK_PAREN_OPEN
          · simp only [c5, if_true]
            by_cases c2 : char0 t.data = '-'
            · simp only [c2, if_true, ne_eq, not_true_eq_false, if_false]
              cases read_expr ops tks fuel true [] [] (i + 1 + 1) <;> rfl
            · simp only [c2, if_false]
          · simp only [c5, if_false]

/-! ## Reading the same tokens inside a longer sequence -/

theorem value_step_embed {D : Type} (ops : DoubleOps D) {A B : List token} {d : Nat}
    (hag : Agree A B d) (i : Nat) :
    match value_step ops A i with
    | .fail _ => True
    | .leaf f i' => i' < A.length ∧ value_step ops B (i + d) = .leaf f (i' + d)
    | .group => i < A.length ∧ value_step ops B (i + d) = .group
    | .neggroup => i + 1 < A.length ∧ value_step ops B (i + d) = .neggroup := by
  unfold value_step
  cases hA : A[i]? with
  | none => trivial
  | some t =>
    have hi : i < A.length := by
      by_contra hc
      rw [List.getElem?_eq_none (Nat.le_of_not_lt hc)] at hA
      cases hA
    have hB : B[i + d]? = some t := by rw [hag i hi, hA]
    simp only [hB]
    cases ht : t.type with
    | TK_PAREN_OPEN => exact ⟨hi, rfl⟩
    | TK_PAREN_CLOSE => trivial
    | TK_ASSIGN => trivial
    | TK_NUM =>
      simp only []
      cases parse_num ops t.data with
      | error e => trivial
      | ok v => exact ⟨hi, rfl⟩
    | TK_IDENT => exact ⟨hi, rfl⟩
    | TK_OP =>
      simp only []
      cases hA1 : A[i + 1]? with
      | none => trivial
      | some t1 =>
        have hi1 : i + 1 < A.length := by
          by_contra hc
          rw [List.getElem?_eq_none (Nat.le_of_not_lt hc)] at hA1
          cases hA1
        have hB1 : B[i + d + 1]? = some t1 := by
          rw [Nat.add_right_comm, hag (i + 1) hi1, hA1]
        simp only [hB1]
        by_cases c1 : t1.type = .TK_NUM ∨ t1.type = .TK_IDENT
        · simp only [c1, if_true]
          by_cases c2 : char0 t.data = '-'
          · simp only [c2, if_true]
            by_cases c3 : t1.type = .TK_NUM
            · simp only [c3, if_true]
              cases parse_num ops t1.data with
              | error e => trivial
              | ok v => exact ⟨hi1, by rw [Nat.add_right_comm]⟩
            · simp only [c3, if_false]
              exact ⟨hi1, by rw [Nat.add_right_comm]⟩
          · simp only [c2, if_false]
            by_cases c4 : char0 t.data = '+'
            · simp only [c4, if_true]
              by_cases c3 : t1.type = .TK_NUM
              · simp only [c3, if_true]
                cases parse_num ops t1.data with
                | error e => trivial
                | ok v => exact ⟨hi1, by rw [Nat.add_right_comm]⟩
              · simp only [c3, if_false]
                exact ⟨hi1, by rw [Nat.add_right_comm]⟩
            · simp only [c4, if_false]
        · simp only [c1, if_false]
          by_cases c5 : t1.type = .TK_PAREN_OPEN
          · simp only [c5, if_true]
            by_cases c2 : char0 t.data = '-'
            · simp only [c2, if_true]
              exact ⟨hi1, trivial⟩
            · simp only [c2, if_false]
          · simp only [c5, if_false]

theorem op_step_embed {D : Type} {A B : List token} {d : Nat} {p q : Bool}
    (hag : Agree A B d) (hend : EndOK A B d p q) (op_stack : List Char)
    (expr : List (expr_data D)) (i' : Nat) (hi : i' < A.length) :
    match op_step A p op_stack expr i' with
    | .fail _ => True
    | .done e => op_step B q op_stack expr (i' + d) = .done e ∧ i' + 1 ≤ A.length
        ∧ (p = true → i' + 1 < A.length) ∧ (p = false → i' + 1 = A.length)
    | .next os e => op_step B q op_stack expr (i' + d) = .next os e ∧ i' + 1 < A.length := by
  unfold op_step
  cases hA : A[i' + 1]? with
  | some t =>
    have hi1 : i' + 1 < A.length := by
      by_contra hc
      rw [List.getElem?_eq_none (Nat.le_of_not_lt hc)] at hA
      cases hA
    have hB : B[i' + d + 1]? = some t := by
      rw [Nat.add_right_comm, hag (i' + 1) hi1, hA]
    simp only [hB]
    by_cases c1 : t.type = .TK_OP
    · simp only [c1, if_true]
      cases operator_precedence (char0 t.data) with
      | error e => trivial
      | ok pr =>
        simp only []
        cases shunt pr op_stack expr with
        | error e => trivial
        | ok r => exact ⟨rfl, hi1⟩
    · simp only [c1, if_false]
      cases p with
      | false => simp
      | true =>
        have hq : q = true := by
          rcases hend with ⟨-, h⟩ | ⟨h, -⟩ | ⟨h, -⟩
          · exact h
          · cases h
          · cases h
        subst hq
        simp only [if_true]
        by_cases c2 : (flush op_stack expr).length = 0
        · simp only [c2, if_true]
        · simp only [c2, if_false]
          exact ⟨trivial, Nat.le_of_lt hi1, fun _ => hi1, fun h => by cases h⟩
  | none =>
    have hlen : i' + 1 = A.length := by
      have h := List.getElem?_eq_none_iff.mp hA
      omega
    simp only []
    cases p with
    | true => simp
    | false =>
      simp only [Bool.false_eq_true, if_false]
      by_cases c2 : (flush op_stack expr).length = 0
      · simp only [c2, if_true]
      · simp only [c2, if_false]
        refine ⟨?_, Nat.le_of_eq hlen, fun h => False.elim h, fun _ => hlen⟩
        have hidx : i' + d + 1 = A.length + d := by omega
        rcases hend with ⟨h, -⟩ | ⟨-, hq, hB⟩ | ⟨-, hq, t, hB, ht⟩
        · cases h
        · subst hq
          rw [hidx, hB]
          simp [c2]
        · subst hq
          rw [hidx, hB]
          simp [c2, ht]

theorem EndOK_group {A B : List token} {d : Nat} : EndOK A B d true true :=
  Or.inl ⟨rfl, rfl⟩

theorem read_expr_embed {D : Type} (ops : DoubleOps D) {A B : List token} {d : Nat}
    (hag : Agree A B d) :
    ∀ (f f' : Nat) (p q : Bool) (op_stack : List Char) (expr : List (expr_data D))
      (i : Nat) (E : List (expr_data D)) (j : Nat),
      EndOK A B d p q → f ≤ f' →
      read_expr ops A f p op_stack expr i = .ok (E, j) →
      read_expr ops B f' q op_stack expr (i + d) = .ok (E, j + d)
        ∧ j ≤ A.length ∧ (p = true → j < A.length) ∧ (p = false → j = A.length) := by
  intro f
  induction f with
  | zero =>
    intro f' p q op_stack expr i E j _ _ h
    rw [read_expr_zero] at h
    cases h
  | succ f ih =>
    intro f' p q op_stack expr i E j hend hf h
    obtain ⟨g, rfl⟩ : ∃ g, f' = g + 1 := ⟨f' - 1, by omega⟩
    have hfg : f ≤ g := by omega
    -- the part after the value
    have hres : ∀ (ex : List (expr_data D)) (i' : Nat), i' < A.length →
        resume ops A f p op_stack ex i' = .ok (E, j) →
        resume ops B g q op_stack ex (i' + d) = .ok (E, j + d)
          ∧ j ≤ A.length ∧ (p = true → j < A.length) ∧ (p = false → j = A.length) := by
      intro ex i' hi' hr
      have hs := op_step_embed hag hend op_stack ex i' hi'
      unfold resume at hr ⊢
      cases ho : op_step A p op_stack ex i' with
      | fail e => rw [ho] at hr; cases hr
      | done e =>
        rw [ho] at hr hs
        simp only [] at hr hs
        obtain ⟨hs1, hs2, hs3, hs4⟩ := hs
        rw [hs1]
        simp only [Except.ok.injEq, Prod.mk.injEq] at hr
        obtain ⟨rfl, rfl⟩ := hr
        exact ⟨by simp only [Nat.add_right_comm], hs2, hs3, hs4⟩
      | next os e =>
        rw [ho] at hr hs
        simp only [] at hr hs
        obtain ⟨hs1, hs2⟩ := hs
        rw [hs1]
        simp only []
        have := ih g p q os e (i' + 1 + 1) E j hend hfg hr
        have hidx : i' + 1 + 1 + d = i' + d + 1 + 1 := by omega
        rw [hidx] at this
        exact this
    rw [read_expr_succ] at h ⊢
    have hv := value_step_embed ops hag i
    cases hvs : value_step ops A i with
    | fail e => rw [hvs] at h; cases h
    | leaf f0 i' =>
      rw [hvs] at h hv
      simp only [] at h hv
      rw [hv.2]
      exact hres _ _ hv.1 h
    | group =>
      rw [hvs] at h hv
      simp only [] at h hv
      rw [hv.2]
      simp only []
      cases hin : read_expr ops A f true [] expr (i + 1) with
      | error e => rw [hin] at h; cases h
      | ok r =>
        obtain ⟨ex1, j1⟩ := r
        rw [hin] at h
        simp only [] at h
        have hI := ih g true true [] expr (i + 1) ex1 j1 EndOK_group hfg hin
        have hidx : i + 1 + d = i + d + 1 := by omega
        rw [hidx] at hI
        rw [hI.1]
        exact hres _ _ (hI.2.2.1 rfl) h
    | neggroup =>
      rw [hvs] at h hv
      simp only [] at h hv
      rw [hv.2]
      simp only []
      cases hin : read_expr ops A f true [] [] (i + 1 + 1) with
      | error e => rw [hin] at h; cases h
      | ok r =>
        obtain ⟨ex1, j1⟩ := r
        rw [hin] at h
        simp only [] at h
        have hI := ih g true true [] [] (i + 1 + 1) ex1 j1 EndOK_group hfg hin
        have hidx : i + 1 + 1 + d = i + d + 1 + 1 := by omega
        rw [hidx] at hI
        rw [hI.1]
        exact hres _ _ (hI.2.2.1 rfl) h

/-! ## The parser builds well-formed sequences -/

theorem rpn_depth_append {D : Type} (xs ys : List (expr_data D)) :
    ∀ d, rpn_depth (xs ++ ys) d = (rpn_depth xs d).bind (rpn_depth ys) := by
  induction xs with
  | nil => intro d; simp [rpn_depth]
  | cons x xs ih =>
    intro d
    cases x with
    | factor f =>
      simp only [List.cons_append, rpn_depth]
      split_ifs
      · exact ih _
      · rfl
    | op c =>
      simp only [List.cons_append, rpn_depth]
      split_ifs
      · exact ih _
      · rfl

theorem rpn_vars_append {D : Type} (xs ys : List (expr_data D)) :
    rpn_vars (xs ++ ys) = rpn_vars xs ++ rpn_vars ys := by
  induction xs with
  | nil => simp [rpn_vars]
  | cons x xs ih =>
    cases x with
    | factor f => simp [rpn_vars, ih]
    | op c => simp [rpn_vars, ih]

theorem rpn_depth_push_op {D : Type} (ex : List (expr_data D)) (c : Char) (n : Nat)
    (hc : is_op c = true) (h : rpn_depth ex 0 = some (n + 2)) :
    rpn_depth (ex ++ [.op c]) 0 = some (n + 1) := by
  rw [rpn_depth_append, h]
  simp [rpn_depth, hc]

theorem rpn_depth_push_factor {D : Type} (ex : List (expr_data D)) (f : node D) (n : Nat)
    (hf : node_ok f = true) (h : rpn_depth ex 0 = some n) :
    rpn_depth (ex ++ [.factor f]) 0 = some (n + 1) := by
  rw [rpn_depth_append, h]
  simp [rpn_depth, hf]

theorem shunt_ok {D : Type} (pr : Int) (d0 : Nat) :
    ∀ (os : List Char) (ex : List (expr_data D)) (os' : List Char)
      (ex' : List (expr_data D)),
      (∀ c ∈ os, is_op c = true) → rpn_depth ex 0 = some (d0 + os.length + 1) →
      shunt pr os ex = .ok (os', ex') →
      (∀ c ∈ os', is_op c = true) ∧ rpn_depth ex' 0 = some (d0 + os'.length + 1)
        ∧ rpn_vars ex' = rpn_vars ex := by
  intro os
  induction os with
  | nil =>
    intro ex os' ex' _ hd h
    simp only [shunt, Except.ok.injEq, Prod.mk.injEq] at h
    obtain ⟨rfl, rfl⟩ := h
    exact ⟨by simp, hd, rfl⟩
  | cons c os ih =>
    intro ex os' ex' hos hd h
    have hc : is_op c = true := hos c (List.mem_cons_self _ _)
    obtain ⟨p, hp, -, -⟩ := is_op_precedence hc
    simp only [shunt, hp] at h
    by_cases hge : p ≥ pr
    · simp only [hge, if_true] at h
      have hd2 : rpn_depth (ex ++ [.op c]) 0 = some (d0 + os.length + 1) := by
        apply rpn_depth_push_op _ _ _ hc
        rw [hd]
        simp only [List.length_cons]
        rfl
      obtain ⟨h1, h2, h3⟩ := ih _ _ _ (fun x hx => hos x (List.mem_cons_of_mem _ hx)) hd2 h
      refine ⟨h1, h2, ?_⟩
      rw [h3, rpn_vars_append]
      simp [rpn_vars]
    · simp only [hge, if_false, Except.ok.injEq, Prod.mk.injEq] at h
      obtain ⟨rfl, rfl⟩ := h
      exact ⟨hos, hd, rfl⟩

theorem flush_ok {D : Type} (d0 : Nat) :
    ∀ (os : List Char) (ex : List (expr_data D)),
      (∀ c ∈ os, is_op c = true) → rpn_depth ex 0 = some (d0 + os.length + 1) →
      rpn_depth (flush os ex) 0 = some (d0 + 1)
        ∧ rpn_vars (flush os ex) = rpn_vars ex := by
  intro os
  induction os with
  | nil =>
    intro ex _ hd
    exact ⟨hd, rfl⟩
  | cons c os ih =>
    intro ex hos hd
    have hc : is_op c = true := hos c (List.mem_cons_self _ _)
    have hd2 : rpn_depth (ex ++ [.op c]) 0 = some (d0 + os.length + 1) := by
      apply rpn_depth_push_op _ _ _ hc
      rw [hd]
      simp only [List.length_cons]
      rfl
    obtain ⟨h1, h2⟩ := ih _ (fun x hx => hos x (List.mem_cons_of_mem _ hx)) hd2
    refine ⟨h1, ?_⟩
    simp only [flush]
    rw [h2, rpn_vars_append]
    simp [rpn_vars]

/-! ## Slices of the token sequence -/

theorem slice_split (tks : List token) {i k j : Nat} (hik : i ≤ k) (hkj : k ≤ j) :
    slice tks i j = slice tks i k ++ slice tks k j := by
  unfold slice
  have h1 : j - i = (k - i) + (j - k) := by omega
  rw [h1, List.take_add, List.drop_drop]
  have h2 : i + (k - i) = k := by omega
  rw [h2]

theorem idents_append (xs ys : List token) : idents (xs ++ ys) = idents xs ++ idents ys := by
  simp [idents, List.filterMap_append]

theorem idents_slice_mono (tks : List token) {i i2 j2 j : Nat} (h1 : i ≤ i2) (h2 : i2 ≤ j2)
    (h3 : j2 ≤ j) : List.Sublist (idents (slice tks i2 j2)) (idents (slice tks i j)) := by
  rw [slice_split tks (Nat.le_trans h1 h2) h3, slice_split tks h1 h2, idents_append,
    idents_append]
  exact List.Sublist.trans (List.sublist_append_right _ _) (List.sublist_append_left _ _)

theorem slice_single (tks : List token) {k : Nat} {t : token} (h : tks[k]? = some t) :
    slice tks k (k + 1) = [t] := by
  unfold slice
  have hk : k < tks.length := by
    by_contra hc
    rw [List.getElem?_eq_none (Nat.le_of_not_lt hc)] at h
    cases h
  have ht : tks[k] = t := by
    rw [List.getElem?_eq_getElem hk] at h
    exact Option.some.inj h
  rw [Nat.add_sub_cancel_left, List.take_one_drop_eq_of_lt_length hk]
  simp only [List.get_eq_getElem, ht]

theorem idents_slice_ident (tks : List token) {i k j : Nat} {t : token}
    (h : tks[k]? = some t) (ht : t.type = .TK_IDENT) (hik : i ≤ k) (hkj : k < j) :
    List.Sublist [t.data] (idents (slice tks i j)) := by
  have h1 : idents (slice tks k (k + 1)) = [t.data] := by
    rw [slice_single tks h]
    simp [idents, ht]
  rw [← h1]
  exact idents_slice_mono tks hik (Nat.le_succ k) hkj

theorem idents_slice_sublist (tks : List token) (i j : Nat) :
    List.Sublist (idents (slice tks i j)) (idents tks) := by
  unfold slice idents
  exact List.Sublist.filterMap _
    (List.Sublist.trans (List.take_sublist _ _) (List.drop_sublist _ _))

theorem value_step_leaf_ok {D : Type} (ops : DoubleOps D) (tks : List token) (i : Nat)
    (f : node D) (i' : Nat) (h : value_step ops tks i = .leaf f i') :
    node_ok f = true ∧ i ≤ i'
      ∧ List.Sublist (node_vars f) (idents (slice tks i (i' + 1))) := by
  unfold value_step at h
  cases hA : tks[i]? with
  | none => rw [hA] at h; cases h
  | some t =>
    rw [hA] at h
    simp only [] at h
    cases ht : t.type with
    | TK_PAREN_OPEN => rw [ht] at h; cases h
    | TK_PAREN_CLOSE => rw [ht] at h; cases h
    | TK_ASSIGN => rw [ht] at h; cases h
    | TK_NUM =>
      rw [ht] at h
      simp only [] at h
      cases hp : parse_num ops t.data with
      | error e => rw [hp] at h; cases h
      | ok v =>
        rw [hp] at h
        simp only [ValueStep.leaf.injEq] at h
        obtain ⟨rfl, rfl⟩ := h
        exact ⟨rfl, Nat.le_refl _, by simp [node_vars]⟩
    | TK_IDENT =>
      rw [ht] at h
      simp only [ValueStep.leaf.injEq] at h
      obtain ⟨rfl, rfl⟩ := h
      exact ⟨rfl, Nat.le_refl _,
        idents_slice_ident tks hA ht (Nat.le_refl _) (Nat.lt_succ_self _)⟩
    | TK_OP =>
      rw [ht] at h
      simp only [] at h
      cases hA1 : tks[i + 1]? with
      | none => rw [hA1] at h; cases h
      | some t1 =>
        rw [hA1] at h
        simp only [] at h
        have key : ∀ (neg : Bool) (g : D → D),
            (if t1.type = .TK_NUM then
              match parse_num ops t1.data with
              | .error e => ValueStep.fail e
              | .ok d => ValueStep.leaf (.num (g d)) (i + 1)
            else ValueStep.leaf (.var t1.data neg) (i + 1)) = .leaf f i' →
            (t1.type = .TK_NUM ∨ t1.type = .TK_IDENT) →
            node_ok f = true ∧ i ≤ i'
              ∧ List.Sublist (node_vars f) (idents (slice tks i (i' + 1))) := by
          intro neg g hk hty
          by_cases c3 : t1.type = .TK_NUM
          · simp only [c3, if_true] at hk
            cases hp : parse_num ops t1.data with
            | error e => rw [hp] at hk; cases hk
            | ok v =>
              rw [hp] at hk
              simp only [ValueStep.leaf.injEq] at hk
              obtain ⟨rfl, rfl⟩ := hk
              exact ⟨rfl, Nat.le_succ _, by simp [node_vars]⟩
          · simp only [c3, if_false, ValueStep.leaf.injEq] at hk
            obtain ⟨rfl, rfl⟩ := hk
            have hid : t1.type = .TK_IDENT := by
              rcases hty with h | h
              · exact absurd h c3
              · exact h
            exact ⟨rfl, Nat.le_succ _,
              idents_slice_ident tks hA1 hid (Nat.le_succ _) (Nat.lt_succ_self _)⟩
        by_cases c1 : t1.type = .TK_NUM ∨ t1.type = .TK_IDENT
        · simp only [c1, if_true] at h
          by_cases c2 : char0 t.data = '-'
          · simp only [c2, if_true] at h
            exact key true ops.neg h c1
          · simp only [c2, if_false] at h
            by_cases c4 : char0 t.data = '+'
            · simp only [c4, if_true] at h
              exact key false id h c1
            · simp only [c4, if_false] at h
              cases h
        · simp only [c1, if_false] at h
          by_cases c5 : t1.type = .TK_PAREN_OPEN
          · simp only [c5, if_true] at h
            by_cases c2 : char0 t.data = '-'
            · simp only [c2, if_true] at h
              cases h
            · simp only [c2, if_false] at h
              cases h
          · simp only [c5, if_false] at h
            cases h

theorem op_step_ok {D : Type} (tks : List token) (p : Bool) (os : List Char)
    (ex : List (expr_data D)) (i' : Nat) (d0 : Nat)
    (hos : ∀ c ∈ os, is_op c = true) (hd : rpn_depth ex 0 = some (d0 + os.length + 1)) :
    match op_step tks p os ex i' with
    | .fail _ => True
    | .done e => rpn_depth e 0 = some (d0 + 1) ∧ rpn_vars e = rpn_vars ex
    | .next os' e => (∀ c ∈ os', is_op c = true) ∧ rpn_depth e 0 = some (d0 + os'.length)
        ∧ rpn_vars e = rpn_vars ex := by
  have hfl := flush_ok d0 os ex hos hd
  unfold op_step
  cases tks[i' + 1]? with
  | some t =>
    simp only []
    by_cases c1 : t.type = .TK_OP
    · simp only [c1, if_true]
      cases hp : operator_precedence (char0 t.data) with
      | error e => trivial
      | ok pr =>
        simp only []
        cases hs : shunt pr os ex with
        | error e => trivial
        | ok r =>
          obtain ⟨os', ex'⟩ := r
          obtain ⟨h1, h2, h3⟩ := shunt_ok pr d0 os ex os' ex' hos hd hs
          refine ⟨?_, ?_, h3⟩
          · intro c hc
            rcases List.mem_cons.mp hc with rfl | hc
            · exact operator_precedence_is_op hp
            · exact h1 c hc
          · rw [h2]
            rfl
    · simp only [c1, if_false]
      split_ifs
      · trivial
      · exact hfl
      · trivial
  | none =>
    simp only []
    split_ifs
    · trivial
    · trivial
    · exact hfl

theorem read_expr_ok {D : Type} (ops : DoubleOps D) (tks : List token) :
    ∀ (fuel : Nat) (p : Bool) (os : List Char) (ex : List (expr_data D)) (i d0 : Nat)
      (E : List (expr_data D)) (j : Nat),
      (∀ c ∈ os, is_op c = true) → rpn_depth ex 0 = some (d0 + os.length) →
      read_expr ops tks fuel p os ex i = .ok (E, j) →
      rpn_depth E 0 = some (d0 + 1) ∧ i < j
        ∧ ∃ L, rpn_vars E = rpn_vars ex ++ L ∧ List.Sublist L (idents (slice tks i j)) := by
  intro fuel
  induction fuel with
  | zero =>
    intro p os ex i d0 E j _ _ h
    rw [read_expr_zero] at h
    cases h
  | succ f ih =>
    intro p os ex i d0 E j hos hd h
    -- the part after the value, which ends at `i'` and added the names `L1`
    have hres : ∀ (ex1 : List (expr_data D)) (i' : Nat) (L1 : List String), i ≤ i' →
        rpn_depth ex1 0 = some (d0 + os.length + 1) → rpn_vars ex1 = rpn_vars ex ++ L1 →
        List.Sublist L1 (idents (slice tks i (i' + 1))) →
        resume ops tks f p os ex1 i' = .ok (E, j) →
        rpn_depth E 0 = some (d0 + 1) ∧ i < j
          ∧ ∃ L, rpn_vars E = rpn_vars ex ++ L
            ∧ List.Sublist L (idents (slice tks i j)) := by
      intro ex1 i' L1 hi' hd1 hv1 hL1 hr
      have hs := op_step_ok tks p os ex1 i' d0 hos hd1
      unfold resume at hr
      cases ho : op_step tks p os ex1 i' with
      | fail e => rw [ho] at hr; cases hr
      | done e =>
        rw [ho] at hr hs
        simp only [Except.ok.injEq, Prod.mk.injEq] at hr hs
        obtain ⟨rfl, rfl⟩ := hr
        refine ⟨hs.1, Nat.lt_succ_of_le hi', L1, ?_, hL1⟩
        rw [hs.2, hv1]
      | next os' e =>
        rw [ho] at hr hs
        simp only [] at hr hs
        obtain ⟨hs1, hs2, hs3⟩ := hs
        obtain ⟨g1, g2, L2, g3, g4⟩ := ih p os' e (i' + 1 + 1) d0 E j hs1 hs2 hr
        refine ⟨g1, by omega, L1 ++ L2, ?_, ?_⟩
        · rw [g3, hs3, hv1, List.append_assoc]
        · have hsp : slice tks i j = slice tks i (i' + 1) ++ slice tks (i' + 1) j :=
            slice_split tks (by omega) (by omega)
          rw [hsp, idents_append]
          exact List.Sublist.append hL1
            (List.Sublist.trans g4
              (idents_slice_mono tks (Nat.le_succ _) (Nat.le_of_lt g2) (Nat.le_refl _)))
    rw [read_expr_succ] at h
    cases hvs : value_step ops tks i with
    | fail e => rw [hvs] at h; cases h
    | leaf f0 i' =>
      rw [hvs] at h
      simp only [] at h
      obtain ⟨k1, k2, k3⟩ := value_step_leaf_ok ops tks i f0 i' hvs
      refine hres _ i' (node_vars f0) k2 (rpn_depth_push_factor ex f0 _ k1 hd) ?_ k3 h
      rw [rpn_vars_append]
      simp [rpn_vars]
    | group =>
      rw [hvs] at h
      simp only [] at h
      cases hin : read_expr ops tks f true [] ex (i + 1) with
      | error e => rw [hin] at h; cases h
      | ok r =>
        obtain ⟨ex1, j1⟩ := r
        rw [hin] at h
        simp only [] at h
        obtain ⟨g1, g2, L1, g3, g4⟩ :=
          ih true [] ex (i + 1) (d0 + os.length) ex1 j1 (by simp) hd hin
        exact hres ex1 j1 L1 (by omega) g1 g3
          (List.Sublist.trans g4
            (idents_slice_mono tks (Nat.le_succ _) (Nat.le_of_lt g2) (Nat.le_succ _))) h
    | neggroup =>
      rw [hvs] at h
      simp only [] at h
      cases hin : read_expr ops tks f true [] [] (i + 1 + 1) with
      | error e => rw [hin] at h; cases h
      | ok r =>
        obtain ⟨e1, j1⟩ := r
        rw [hin] at h
        simp only [] at h
        obtain ⟨g1, g2, L1, g3, g4⟩ :=
          ih true [] [] (i + 1 + 1) 0 e1 j1 (by simp) rfl hin
        have hok : node_ok (node.negexprgrp (node.expression e1)) = true := by
          simp [node_ok, g1]
        refine hres _ j1 L1 (by omega) (rpn_depth_push_factor ex _ _ hok hd) ?_
          (List.Sublist.trans g4
            (idents_slice_mono tks (by omega) (Nat.le_of_lt g2) (Nat.le_succ _))) h
        rw [rpn_vars_append]
        simp only [rpn_vars, node_vars, List.append_nil]
        rw [g3]
        rfl

/-! ## Evaluating well-formed sequences -/

theorem first_undefined_append_of_some {D : Type} (m : Memory D) (xs ys : List String)
    (x : String) (h : first_undefined m xs = some x) :
    first_undefined m (xs ++ ys) = some x := by
  unfold first_undefined at h ⊢
  rw [List.find?_append, h]
  rfl

theorem first_undefined_append_of_none {D : Type} (m : Memory D) (xs ys : List String)
    (h : first_undefined m xs = none) :
    first_undefined m (xs ++ ys) = first_undefined m ys := by
  unfold first_undefined at h ⊢
  rw [List.find?_append, h]
  rfl

mutual
theorem get_value_ok {D : Type} (ops : DoubleOps D) (m : Memory D) :
    (n : node D) → node_ok n = true → EvalSpec m (node_vars n) (get_value ops n m)
  | .num d, _ => ⟨rfl, ⟨d, rfl⟩⟩
  | .var name negative, _ => by
    cases hm : m name with
    | none =>
      refine ⟨by simp [get_value, hm], ?_⟩
      simp [node_vars, first_undefined, hm, get_value, undefined_variable]
    | some v =>
      refine ⟨by simp [get_value, hm], ?_⟩
      simp [node_vars, first_undefined, hm, get_value]
  | .negexprgrp e, h => by
    have ih := get_value_ok ops m e (by simpa [node_ok] using h)
    obtain ⟨ih1, ih2⟩ := ih
    simp only [node_vars]
    cases hr : get_value ops e m with
    | mk r m' =>
      rw [hr] at ih1 ih2
      simp only at ih1 ih2
      subst ih1
      cases r with
      | error err =>
        refine ⟨by simp [get_value, hr], ?_⟩
        cases hf : first_undefined m' (node_vars e) with
        | none => rw [hf] at ih2; simp at ih2
        | some x =>
          rw [hf] at ih2
          simp only [get_value, hr]
          exact ih2
      | ok v =>
        refine ⟨by simp [get_value, hr], ?_⟩
        cases hf : first_undefined m' (node_vars e) with
        | none => exact ⟨ops.neg v, by simp [get_value, hr]⟩
        | some x => rw [hf] at ih2; simp at ih2
  | .expression es, h => by
    have := get_value_loop_ok ops m es [] (by simpa [node_ok] using h)
    simpa [node_vars, get_value] using this
  | .assignment _ _, h => by simp [node_ok] at h
  | .assignment_op _ _ _, h => by simp [node_ok] at h
theorem get_value_loop_ok {D : Type} (ops : DoubleOps D) (m : Memory D) :
    (es : List (expr_data D)) → (stack : List D) → rpn_depth es stack.length = some 1 →
      EvalSpec m (rpn_vars es) (get_value_loop ops es stack m)
  | [], stack, h => by
    simp only [rpn_depth, Option.some.injEq] at h
    match stack, h with
    | [v], _ => exact ⟨rfl, ⟨v, rfl⟩⟩
  | .op c :: rest, stack, h => by
    simp only [rpn_depth] at h
    by_cases hc : is_op c = true ∧ 2 ≤ stack.length
    · simp only [hc, and_self, if_true] at h
      match stack, hc, h with
      | rhs :: lhs :: st, hc, h =>
        obtain ⟨v, hv⟩ := operate_ok ops hc.1 lhs rhs
        have ih := get_value_loop_ok ops m rest (v :: st) (by simpa using h)
        simpa [rpn_vars, get_value_loop, hv] using ih
    · simp only [hc, if_false] at h
      cases h
  | .factor f :: rest, stack, h => by
    simp only [rpn_depth] at h
    by_cases hf : node_ok f = true
    · simp only [hf, if_true] at h
      obtain ⟨ih1, ih2⟩ := get_value_ok ops m f hf
      cases hr : get_value ops f m with
      | mk r m' =>
        rw [hr] at ih1 ih2
        simp only at ih1 ih2
        subst ih1
        cases r with
        | error err =>
          refine ⟨by simp [get_value_loop, hr], ?_⟩
          cases hfu : first_undefined m' (node_vars f) with
          | none => rw [hfu] at ih2; simp at ih2
          | some x =>
            rw [hfu] at ih2
            simp only [rpn_vars, first_undefined_append_of_some m' _ _ x hfu,
              get_value_loop, hr]
            exact ih2
        | ok v =>
          have ih := get_value_loop_ok ops m' rest (v :: stack) (by simpa using h)
          cases hfu : first_undefined m' (node_vars f) with
          | none =>
            simp only [rpn_vars, get_value_loop, hr]
            unfold EvalSpec at ih ⊢
            rw [first_undefined_append_of_none m' _ _ hfu]
            exact ih
          | some x => rw [hfu] at ih2; simp at ih2
    · simp only [hf, if_false] at h
      cases h
end

/-! ## What `parse` returns -/

theorem expression_ctor_ok {D : Type} (ops : DoubleOps D) (tks : List token) (i : Nat)
    (p : Bool) (N : node D) (j : Nat) (h : expression_ctor ops tks i p = .ok (N, j)) :
    ∃ E, N = .expression E ∧ read_expr ops tks (tks.length + 1) p [] [] i = .ok (E, j)
      ∧ node_ok N = true ∧ List.Sublist (node_vars N) (idents tks) := by
  unfold expression_ctor at h
  cases hr : read_expr ops tks (tks.length + 1) p [] [] i with
  | error e => rw [hr] at h; cases h
  | ok r =>
    obtain ⟨E, j'⟩ := r
    rw [hr] at h
    simp only [Except.ok.injEq, Prod.mk.injEq] at h
    obtain ⟨rfl, rfl⟩ := h
    obtain ⟨g1, -, L, g3, g4⟩ := read_expr_ok ops tks _ p [] [] i 0 E j' (by simp) rfl hr
    refine ⟨E, rfl, rfl, by simp [node_ok, g1], ?_⟩
    simp only [node_vars, g3, rpn_vars, List.nil_append]
    exact List.Sublist.trans g4 (idents_slice_sublist tks i j')

theorem expression_ctor_embed {D : Type} (ops : DoubleOps D) {A B : List token} {d : Nat}
    {q : Bool} (hag : Agree A B d) (hend : EndOK A B d false q) (hlen : A.length ≤ B.length)
    (N : node D) (j : Nat) (h : expression_ctor ops A 0 false = .ok (N, j)) :
    expression_ctor ops B d q = .ok (N, A.length + d) := by
  obtain ⟨E, rfl, hr, -, -⟩ := expression_ctor_ok ops A 0 false N j h
  obtain ⟨g1, -, -, g4⟩ := read_expr_embed ops hag (A.length + 1) (B.length + 1) false q [] []
    0 E j hend (by omega) hr
  unfold expression_ctor
  rw [Nat.zero_add] at g1
  rw [g1, g4 rfl]

theorem get_value_assignment {D : Type} (ops : DoubleOps D) (name : String) (e : node D)
    (m : Memory D) :
    get_value ops (.assignment name e) m =
      match get_value ops e (if ops.target_first then m.subscript name ops.zero else m) with
      | (.error err, memory) => (.error err, memory)
      | (.ok v, memory) => (.ok v, memory.set name v) := by
  rw [get_value]

theorem subscript_bound {D : Type} (m : Memory D) (name : String) (z old : D)
    (h : m name = some old) : m.subscript name z = m := by
  simp [Memory.subscript, h]

theorem subscript_unbound {D : Type} (m : Memory D) (name : String) (z : D)
    (h : m name = none) : m.subscript name z = m.set name z := by
  simp [Memory.subscript, h]

theorem subscript_set {D : Type} (m : Memory D) (name : String) (z v : D) :
    (m.subscript name z).set name v = m.set name v := by
  funext k
  cases h : m name with
  | none =>
    rw [subscript_unbound m name z h]
    by_cases hk : k = name <;> simp [Memory.set, hk]
  | some old => rw [subscript_bound m name z old h]

theorem assign_store_bound {D : Type} (ops : DoubleOps D) (m : Memory D) (name : String)
    (old : D) (h : m name = some old) :
    (if ops.target_first then m.subscript name ops.zero else m) = m := by
  rw [subscript_bound m name _ old h]
  simp

theorem subscript_other {D : Type} (m : Memory D) (name : String) (z : D) (k : String)
    (hk : m k ≠ none) : m.subscript name z k = m k := by
  cases h : m name with
  | some old => rw [subscript_bound m name z old h]
  | none =>
    rw [subscript_unbound m name z h]
    have : k ≠ name := fun hkn => hk (hkn ▸ h)
    simp [Memory.set, this]

theorem get_value_assignment_op {D : Type} (ops : DoubleOps D) (name : String) (e : node D)
    (op : Char) (m : Memory D) :
    get_value ops (.assignment_op name e op) m =
      match m name with
      | none => (.error (.runtime_error ("undefined variable '" ++ name ++ "'")), m)
      | some lhs =>
        match get_value ops e m with
        | (.error err, memory) => (.error err, memory)
        | (.ok rhs, memory) =>
          match operate ops lhs rhs op with
          | .error err => (.error err, memory)
          | .ok v => (.ok v, memory.set name v) := by
  rw [get_value]

theorem get_value_negexprgrp {D : Type} (ops : DoubleOps D) (e : node D) (m : Memory D) :
    get_value ops (.negexprgrp e) m =
      match get_value ops e m with
      | (.error err, memory) => (.error err, memory)
      | (.ok v, memory) => (.ok (ops.neg v), memory) := by
  rw [get_value]

/-! ## Evaluation reads only the variables a node refers to -/

mutual
theorem get_value_congr {D : Type} (ops : DoubleOps D) (m m' : Memory D) :
    (n : node D) → node_ok n = true → (∀ x ∈ node_vars n, m x = m' x) →
      (get_value ops n m).1 = (get_value ops n m').1
  | .num _, _, _ => rfl
  | .var name negative, _, h => by
    have hx : m name = m' name := h name (by simp [node_vars])
    simp only [get_value, hx]
    cases m' name <;> rfl
  | .negexprgrp e, hok, h => by
    have ih := get_value_congr ops m m' e (by simpa [node_ok] using hok)
      (by simpa [node_vars] using h)
    obtain ⟨r, s, hr⟩ : ∃ r s, get_value ops e m = (r, s) := ⟨_, _, rfl⟩
    obtain ⟨r', s', hr'⟩ : ∃ r s, get_value ops e m' = (r, s) := ⟨_, _, rfl⟩
    rw [hr, hr'] at ih
    change r = r' at ih
    subst ih
    rw [get_value_negexprgrp, get_value_negexprgrp, hr, hr']
    cases r <;> rfl
  | .expression es, hok, h => by
    have := get_value_loop_congr ops m m' es [] (by simpa [node_ok] using hok)
      (by simpa [node_vars] using h)
    simpa [get_value] using this
  | .assignment _ _, h, _ => by simp [node_ok] at h
  | .assignment_op _ _ _, h, _ => by simp [node_ok] at h
theorem get_value_loop_congr {D : Type} (ops : DoubleOps D) (m m' : Memory D) :
    (es : List (expr_data D)) → (stack : List D) → rpn_depth es stack.length = some 1 →
      (∀ x ∈ rpn_vars es, m x = m' x) →
      (get_value_loop ops es stack m).1 = (get_value_loop ops es stack m').1
  | [], stack, h, _ => by
    simp only [rpn_depth, Option.some.injEq] at h
    match stack, h with
    | [v], _ => rfl
  | .op c :: rest, stack, h, hv => by
    simp only [rpn_depth] at h
    by_cases hc : is_op c = true ∧ 2 ≤ stack.length
    · simp only [hc, and_self, if_true] at h
      match stack, hc, h with
      | rhs :: lhs :: st, hc, h =>
        obtain ⟨v, hop⟩ := operate_ok ops hc.1 lhs rhs
        have ih := get_value_loop_congr ops m m' rest (v :: st) (by simpa using h)
          (by simpa [rpn_vars] using hv)
        simpa [get_value_loop, hop] using ih
    · simp only [hc, if_false] at h
      cases h
  | .factor f :: rest, stack, h, hv => by
    simp only [rpn_depth] at h
    by_cases hf : node_ok f = true
    · simp only [hf, if_true] at h
      have hvf : ∀ x ∈ node_vars f, m x = m' x :=
        fun x hx => hv x (by simp [rpn_vars, hx])
      have hvr : ∀ x ∈ rpn_vars rest, m x = m' x :=
        fun x hx => hv x (by simp [rpn_vars, hx])
      have ihf := get_value_congr ops m m' f hf hvf
      have h1 := (get_value_ok ops m f hf).1
      have h2 := (get_value_ok ops m' f hf).1
      obtain ⟨r, s, hr⟩ : ∃ r s, get_value ops f m = (r, s) := ⟨_, _, rfl⟩
      obtain ⟨r', s', hr'⟩ : ∃ r s, get_value ops f m' = (r, s) := ⟨_, _, rfl⟩
      rw [hr] at ihf h1
      rw [hr'] at ihf h2
      change r = r' at ihf
      change s = m at h1
      change s' = m' at h2
      subst ihf h1 h2
      cases r with
      | error err => simp only [get_value_loop, hr, hr']
      | ok v =>
        have ih := get_value_loop_congr ops s s' rest (v :: stack) (by simpa using h) hvr
        simpa only [get_value_loop, hr, hr'] using ih
    · simp only [hf, if_false] at h
      cases h
end

theorem first_undefined_none {D : Type} (m : Memory D) (xs : List String)
    (h : first_undefined m xs = none) : ∀ x ∈ xs, m x ≠ none := by
  intro x hx hm
  unfold first_undefined at h
  rw [List.find?_eq_none] at h
  exact h x hx (by simp [hm])

/-- A right-hand side that evaluates to a value gives the same value, and leaves
the store it was given, once `memory[name]` has run on the store. -/
theorem get_value_after_subscript {D : Type} (ops : DoubleOps D) (m : Memory D)
    (n : node D) (hok : node_ok n = true) (v : D) (hv : (get_value ops n m).1 = .ok v)
    (name : String) (z : D) :
    get_value ops n (m.subscript name z) = (.ok v, m.subscript name z) := by
  obtain ⟨-, h2⟩ := get_value_ok ops m n hok
  have hnone : first_undefined m (node_vars n) = none := by
    cases hf : first_undefined m (node_vars n) with
    | none => rfl
    | some x =>
      rw [hf] at h2
      simp only [] at h2
      rw [h2] at hv
      cases hv
  have hc := get_value_congr ops (m.subscript name z) m n hok
    (fun x hx => subscript_other m name z x (first_undefined_none m _ hnone x hx))
  have h1 := (get_value_ok ops (m.subscript name z) n hok).1
  rw [hv] at hc
  obtain ⟨r, s, hr⟩ : ∃ r s, get_value ops n (m.subscript name z) = (r, s) := ⟨_, _, rfl⟩
  rw [hr] at hc h1 ⊢
  change r = _ at hc
  change s = _ at h1
  rw [hc, h1]

/-- The nodes `parse` returns: an expression, or an assignment or compound
assignment of an expression to the text of token 0. -/
theorem parse_shape {D : Type} (ops : DoubleOps D) (tks : List token) (N : node D)
    (h : parse ops tks = .ok N) :
    (classify tks = .expression ∧ ∃ j, expression_ctor ops tks 0 false = .ok (N, j))
    ∨ (classify tks = .assignment ∧ ∃ t0 E j, tks[0]? = some t0
        ∧ expression_ctor ops tks 2 false = .ok (E, j) ∧ N = .assignment t0.data E)
    ∨ (classify tks = .assignment_op ∧ ∃ t0 t1 E j, tks[0]? = some t0 ∧ tks[1]? = some t1
        ∧ expression_ctor ops tks 3 false = .ok (E, j)
        ∧ N = .assignment_op t0.data E (char0 t1.data)) := by
  unfold parse at h
  cases hc : classify tks with
  | expression =>
    rw [hc] at h
    simp only [] at h
    cases he : expression_ctor ops tks 0 false with
    | error e => rw [he] at h; cases h
    | ok r =>
      obtain ⟨n, j⟩ := r
      rw [he] at h
      simp only [Except.ok.injEq] at h
      subst h
      exact Or.inl ⟨rfl, j, rfl⟩
  | assignment =>
    rw [hc] at h
    simp only [] at h
    refine Or.inr (Or.inl ⟨rfl, ?_⟩)
    cases ha : assignment_ctor ops tks with
    | error e => rw [ha] at h; cases h
    | ok r =>
      obtain ⟨n, i⟩ := r
      rw [ha] at h
      simp only [Except.ok.injEq] at h
      subst h
      unfold assignment_ctor at ha
      cases h0 : tks[0]? with
      | none => rw [h0] at ha; cases ha
      | some t0 =>
        rw [h0] at ha
        simp only [] at ha
        split_ifs at ha with c1 c2
        cases he : expression_ctor ops tks 2 false with
        | error e => rw [he] at ha; cases ha
        | ok r =>
          obtain ⟨E, j⟩ := r
          rw [he] at ha
          simp only [Except.ok.injEq, Prod.mk.injEq] at ha
          exact ⟨t0, E, j, rfl, rfl, ha.1.symm⟩
  | assignment_op =>
    rw [hc] at h
    simp only [] at h
    refine Or.inr (Or.inr ⟨rfl, ?_⟩)
    cases ha : assignment_op_ctor ops tks with
    | error e => rw [ha] at h; cases h
    | ok r =>
      obtain ⟨n, i⟩ := r
      rw [ha] at h
      simp only [Except.ok.injEq] at h
      subst h
      unfold assignment_op_ctor at ha
      cases h0 : tks[0]? with
      | none => rw [h0] at ha; cases ha
      | some t0 =>
        cases h1 : tks[1]? with
        | none => rw [h0, h1] at ha; cases ha
        | some t1 =>
          rw [h0, h1] at ha
          simp only [] at ha
          split_ifs at ha with c1 c2
          cases he : expression_ctor ops tks 3 false with
          | error e => rw [he] at ha; cases ha
          | ok r =>
            obtain ⟨E, j⟩ := r
            rw [he] at ha
            simp only [Except.ok.injEq, Prod.mk.injEq] at ha
            exact ⟨t0, t1, E, j, rfl, rfl, rfl, ha.1.symm⟩

/-- The store a failed evaluation leaves: the store it was given, but for an
assignment to a name the store does not hold when `memory[name]` is evaluated
before the right operand, which leaves the name inserted with the
value-initialised `double`. -/
theorem get_value_error_store {D : Type} (ops : DoubleOps D) (tks : List token)
    (N : node D) (h : parse ops tks = .ok N) (m : Memory D) (e : Exn)
    (he : (get_value ops N m).1 = .error e) :
    (get_value ops N m).2 = m
    ∨ (ops.target_first = true ∧ classify tks = .assignment
        ∧ ∃ t0, tks[0]? = some t0 ∧ m t0.data = none
          ∧ (get_value ops N m).2 = m.set t0.data ops.zero) := by
  rcases parse_shape ops tks N h with ⟨-, j, h1⟩ | ⟨hcl, t0, E, j, ht0, h1, rfl⟩
    | ⟨-, t0, t1, E, j, -, -, h1, rfl⟩
  · obtain ⟨E, rfl, -, hok, -⟩ := expression_ctor_ok ops tks 0 false N j h1
    exact Or.inl (get_value_ok ops m _ hok).1
  · obtain ⟨E', rfl, -, hok, -⟩ := expression_ctor_ok ops tks 2 false E j h1
    have key : ∀ m1 : Memory D,
        (match get_value ops (.expression E') m1 with
          | (.error err, memory) => (Except.error err, memory)
          | (.ok v, memory) => (.ok v, memory.set t0.data v)).1 = Except.error e →
        (match get_value ops (.expression E') m1 with
          | (.error err, memory) => (Except.error err, memory)
          | (.ok v, memory) => (.ok v, memory.set t0.data v)).2 = m1 := by
      intro m1 he1
      have h2 := (get_value_ok ops m1 _ hok).1
      obtain ⟨r, m', hr⟩ : ∃ r m', get_value ops (.expression E') m1 = (r, m') :=
        ⟨_, _, rfl⟩
      rw [hr] at h2 he1 ⊢
      change m' = m1 at h2
      subst h2
      cases r with
      | error err => rfl
      | ok v => cases he1
    rw [get_value_assignment] at he ⊢
    cases hto : ops.target_first with
    | false =>
      rw [hto] at he
      simp only [Bool.false_eq_true, if_false] at he ⊢
      exact Or.inl (key m he)
    | true =>
      rw [hto] at he
      simp only [if_true] at he ⊢
      cases hm : m t0.data with
      | some old =>
        rw [subscript_bound m t0.data ops.zero old hm] at he ⊢
        exact Or.inl (key m he)
      | none =>
        rw [subscript_unbound m t0.data ops.zero hm] at he ⊢
        exact Or.inr ⟨trivial, hcl, t0, ht0, hm, key _ he⟩
  · obtain ⟨E', rfl, -, hok, -⟩ := expression_ctor_ok ops tks 3 false E j h1
    have h2 := (get_value_ok ops m _ hok).1
    refine Or.inl ?_
    rw [get_value_assignment_op] at he ⊢
    cases hm : m t0.data with
    | none => rfl
    | some lhs =>
      rw [hm] at he
      obtain ⟨r, m', hr⟩ : ∃ r m', get_value ops (.expression E') m = (r, m') := ⟨_, _, rfl⟩
      rw [hr] at h2 he ⊢
      change m' = m at h2
      subst h2
      cases r with
      | error err => rfl
      | ok v =>
        change (match operate ops lhs v (char0 t1.data) with
          | .error err => (Except.error err, m')
          | .ok v => (.ok v, m'.set t0.data v)).1 = Except.error e at he
        change (match operate ops lhs v (char0 t1.data) with
          | .error err => (Except.error err, m')
          | .ok v => (.ok v, m'.set t0.data v)).2 = m'
        cases ho : operate ops lhs v (char0 t1.data) with
        | error err => rfl
        | ok w =>
          rw [ho] at he
          cases he

theorem get_value_error_keeps_store {D : Type} (ops : DoubleOps D) (tks : List token)
    (N : node D) (h : parse ops tks = .ok N) (m : Memory D) (e : Exn)
    (hord : ops.target_first = false)
    (he : (get_value ops N m).1 = .error e) : (get_value ops N m).2 = m := by
  rcases get_value_error_store ops tks N h m e he with h1 | ⟨h1, -⟩
  · exact h1
  · rw [hord] at h1
    cases h1

theorem interpret_tokens_error_store {D : Type} (ops : DoubleOps D) (tks : List token)
    (m : Memory D) (e : Exn) (he : (interpret_tokens ops tks m).1 = .error e) :
    (interpret_tokens ops tks m).2 = m
    ∨ (ops.target_first = true ∧ classify tks = .assignment
        ∧ ∃ t0, tks[0]? = some t0 ∧ m t0.data = none
          ∧ (interpret_tokens ops tks m).2 = m.set t0.data ops.zero) := by
  unfold interpret_tokens at he ⊢
  cases hp : parse ops tks with
  | error err => exact Or.inl rfl
  | ok N =>
    rw [hp] at he
    exact get_value_error_store ops tks N hp m e he

theorem interpret_tokens_error_keeps_store {D : Type} (ops : DoubleOps D) (tks : List token)
    (m : Memory D) (e : Exn) (hord : ops.target_first = false)
    (he : (interpret_tokens ops tks m).1 = .error e) :
    (interpret_tokens ops tks m).2 = m := by
  rcases interpret_tokens_error_store ops tks m e he with h1 | ⟨h1, -⟩
  · exact h1
  · rw [hord] at h1
    cases h1

/-! ## Tokens of an expression after a prefix -/

theorem agree_append (pre A suf : List token) : Agree A (pre ++ (A ++ suf)) pre.length := by
  intro k hk
  rw [List.getElem?_append_right (Nat.le_add_left _ _), Nat.add_sub_cancel,
    List.getElem?_append_left hk]

theorem expression_ctor_nonempty {D : Type} (ops : DoubleOps D) (tks : List token)
    (N : node D) (j : Nat) (h : expression_ctor ops tks 0 false = .ok (N, j)) :
    0 < tks.length := by
  cases tks with
  | nil => simp [expression_ctor, read_expr] at h
  | cons t ts => simp

/-- The expression constructor on `pre ++ rhs` from position `pre.length` builds
what it builds on `rhs` from position 0. -/
theorem expression_ctor_shift {D : Type} (ops : DoubleOps D) (pre rhs : List token)
    (N : node D) (j : Nat) (h : expression_ctor ops rhs 0 false = .ok (N, j)) :
    expression_ctor ops (pre ++ rhs) pre.length false = .ok (N, rhs.length + pre.length) := by
  have hag : Agree rhs (pre ++ rhs) pre.length := by
    have := agree_append pre rhs []
    rwa [List.append_nil] at this
  have hend : EndOK rhs (pre ++ rhs) pre.length false false := by
    refine Or.inr (Or.inl ⟨rfl, rfl, ?_⟩)
    apply List.getElem?_eq_none
    simp [Nat.add_comm]
  exact expression_ctor_embed ops hag hend (by simp) N j h

/-! ## The store after a statement -/

/-- Claim C8. A statement that `parse` reads as a bare expression leaves the
store as it was, whether it gives a value or an exception; interpreting it
again then gives the same result. -/
theorem bare_expression_keeps_store {D : Type} (ops : DoubleOps D) (s : String)
    (tks : List token) (m : Memory D) (hs : scan s = .ok tks)
    (hc : classify tks = .expression) :
    (interpret_tokens ops tks m).2 = m ∧ (interpret ops s m).2 = m
      ∧ interpret ops s (interpret ops s m).2 = interpret ops s m := by
  have h1 : (interpret_tokens ops tks m).2 = m := by
    unfold interpret_tokens
    cases hp : parse ops tks with
    | error e => rfl
    | ok N =>
      simp only []
      rcases parse_shape ops tks N hp with ⟨-, j, h1⟩ | ⟨h2, -⟩ | ⟨h2, -⟩
      · obtain ⟨E, rfl, -, hok, -⟩ := expression_ctor_ok ops tks 0 false N j h1
        exact (get_value_ok ops m _ hok).1
      · rw [hc] at h2; cases h2
      · rw [hc] at h2; cases h2
  have h2 : (interpret ops s m).2 = m := by
    unfold interpret
    rw [hs]
    exact h1
  exact ⟨h1, h2, by rw [h2]⟩

/-- The statement `x+1` with `x` stored: the store is the same afterwards. -/
theorem bare_expression_keeps_store_witness :
    scan "x+1" = .ok [⟨.TK_IDENT, "x"⟩, ⟨.TK_OP, "+"⟩, ⟨.TK_NUM, "1"⟩]
    ∧ classify [⟨.TK_IDENT, "x"⟩, ⟨.TK_OP, "+"⟩, ⟨.TK_NUM, "1"⟩] = .expression
    ∧ (interpret intOps "x+1" ((emptyMemory Int).set "x" 5)).1 = .ok 6
    ∧ (interpret intOps "x+1" ((emptyMemory Int).set "x" 5)).2 = (emptyMemory Int).set "x" 5 :=
  ⟨rfl, rfl, rfl,
    (bare_expression_keeps_store intOps "x+1" _ ((emptyMemory Int).set "x" 5) rfl rfl).2.1⟩

/-- Claim C9. For a token sequence that the expression constructor parses (as
`parse` does for a bare expression), evaluation leaves the store as it was and
fails exactly when a variable reference of the expression is absent from the
store; the failure is the undefined-variable error of the first absent
reference, the references being in the order of their identifier tokens;
otherwise evaluation returns a value. -/
theorem evaluation_fails_iff_undefined_variable {D : Type} (ops : DoubleOps D)
    (tks : List token) (N : node D) (j : Nat) (m : Memory D)
    (hp : expression_ctor ops tks 0 false = .ok (N, j)) :
    List.Sublist (node_vars N) (idents tks)
    ∧ (get_value ops N m).2 = m
    ∧ ((∃ e, (get_value ops N m).1 = .error e) ↔ ∃ x ∈ node_vars N, m x = none)
    ∧ (match (node_vars N).find? (fun x => (m x).isNone) with
        | some x =>
          (get_value ops N m).1
            = .error (.runtime_error ("undefined variable '" ++ x ++ "'"))
        | none => ∃ v, (get_value ops N m).1 = .ok v) := by
  obtain ⟨E, rfl, -, hok, hsub⟩ := expression_ctor_ok ops tks 0 false N j hp
  obtain ⟨h1, h2⟩ := get_value_ok ops m _ hok
  refine ⟨hsub, h1, ?_, h2⟩
  unfold first_undefined at h2
  cases hf : List.find? (fun x => (m x).isNone) (node_vars (node.expression E)) with
  | none =>
    rw [hf] at h2
    obtain ⟨v, hv⟩ := h2
    constructor
    · rintro ⟨e, he⟩
      rw [hv] at he
      cases he
    · rintro ⟨x, hx, hmx⟩
      have := List.find?_eq_none.mp hf x hx
      simp [hmx] at this
  | some x =>
    rw [hf] at h2
    constructor
    · intro _
      have hx := List.find?_some hf
      exact ⟨x, List.mem_of_find?_eq_some hf, by simpa using hx⟩
    · intro _
      exact ⟨_, h2⟩

/-- The statement `z*2` with `z` never set fails with undefined variable 'z'. -/
theorem evaluation_fails_iff_undefined_variable_witness :
    expression_ctor intOps [⟨.TK_IDENT, "z"⟩, ⟨.TK_OP, "*"⟩, ⟨.TK_NUM, "2"⟩] 0 false
      = .ok (.expression [.factor (.var "z" false), .factor (.num 2), .op '*'], 3)
    ∧ (get_value intOps
        (.expression [.factor (.var "z" false), .factor (.num 2), .op '*'])
        (emptyMemory Int)).1 = .error (.runtime_error "undefined variable 'z'") :=
  ⟨rfl, (evaluation_fails_iff_undefined_variable intOps
    [⟨.TK_IDENT, "z"⟩, ⟨.TK_OP, "*"⟩, ⟨.TK_NUM, "2"⟩] _ 3 (emptyMemory Int) rfl).2.2.2⟩

theorem parse_assignment {D : Type} (ops : DoubleOps D) (n eq : String) (rhs : List token)
    (N : node D) (j : Nat) (hp : expression_ctor ops rhs 0 false = .ok (N, j)) :
    parse ops (⟨.TK_IDENT, n⟩ :: ⟨.TK_ASSIGN, eq⟩ :: rhs) = .ok (.assignment n N) := by
  have hne := expression_ctor_nonempty ops rhs N j hp
  have he := expression_ctor_shift ops [⟨.TK_IDENT, n⟩, ⟨.TK_ASSIGN, eq⟩] rhs N j hp
  simp only [List.cons_append, List.nil_append, List.length_cons, List.length_nil] at he
  have hc : classify (⟨.TK_IDENT, n⟩ :: ⟨.TK_ASSIGN, eq⟩ :: rhs) = .assignment := by
    simp [classify]
  have hlen : 2 < (⟨.TK_IDENT, n⟩ :: ⟨.TK_ASSIGN, eq⟩ :: rhs : List token).length := by
    simp only [List.length_cons]
    omega
  unfold parse
  rw [hc]
  simp only [assignment_ctor, List.getElem?_cons_zero, ne_eq, not_true_eq_false, if_false,
    hlen, if_true, he]

theorem parse_assignment_op {D : Type} (ops : DoubleOps D) (n o eq : String)
    (rhs : List token) (N : node D) (j : Nat)
    (hp : expression_ctor ops rhs 0 false = .ok (N, j)) :
    parse ops (⟨.TK_IDENT, n⟩ :: ⟨.TK_OP, o⟩ :: ⟨.TK_ASSIGN, eq⟩ :: rhs)
      = .ok (.assignment_op n N (char0 o)) := by
  have hne := expression_ctor_nonempty ops rhs N j hp
  have he := expression_ctor_shift ops
    [⟨.TK_IDENT, n⟩, ⟨.TK_OP, o⟩, ⟨.TK_ASSIGN, eq⟩] rhs N j hp
  simp only [List.cons_append, List.nil_append, List.length_cons, List.length_nil] at he
  have hc : classify (⟨.TK_IDENT, n⟩ :: ⟨.TK_OP, o⟩ :: ⟨.TK_ASSIGN, eq⟩ :: rhs)
      = .assignment_op := by
    simp [classify]
  have hlen : 3 < (⟨.TK_IDENT, n⟩ :: ⟨.TK_OP, o⟩ :: ⟨.TK_ASSIGN, eq⟩ :: rhs :
      List token).length := by
    simp only [List.length_cons]
    omega
  unfold parse
  rw [hc]
  simp only [assignment_op_ctor, List.getElem?_cons_zero, List.getElem?_cons_succ, ne_eq,
    not_true_eq_false, if_false, hlen, if_true, he]

/-- Claim C5. When the right-hand tokens `rhs` parse as an expression that
evaluates to `v` in the store `m`, interpreting the assignment `n = rhs` returns
`v` and leaves `m` with `n` bound to `v` and every other name as it was; the
bare expression `n` then evaluates to `v`. -/
theorem assignment_stores_value {D : Type} (ops : DoubleOps D) (m : Memory D) (n : String)
    (rhs : List token) (N : node D) (j : Nat) (v : D)
    (hp : expression_ctor ops rhs 0 false = .ok (N, j))
    (hv : (get_value ops N m).1 = .ok v) :
    interpret_tokens ops (⟨.TK_IDENT, n⟩ :: ⟨.TK_ASSIGN, "="⟩ :: rhs) m = (.ok v, m.set n v)
    ∧ (m.set n v) n = some v
    ∧ (∀ k, k ≠ n → (m.set n v) k = m k)
    ∧ interpret_tokens ops [⟨.TK_IDENT, n⟩] (m.set n v) = (.ok v, m.set n v) := by
  obtain ⟨E, rfl, -, hok, -⟩ := expression_ctor_ok ops rhs 0 false N j hp
  have h2 := (get_value_ok ops m _ hok).1
  obtain ⟨r, m', hr⟩ : ∃ r m', get_value ops (.expression E) m = (r, m') := ⟨_, _, rfl⟩
  rw [hr] at h2 hv
  change m' = m at h2
  change r = .ok v at hv
  subst h2 hv
  have hset : (m'.set n v) n = some v := by simp [Memory.set]
  refine ⟨?_, hset, ?_, ?_⟩
  · unfold interpret_tokens
    rw [parse_assignment ops n "=" rhs _ j hp]
    simp only []
    rw [get_value_assignment]
    cases hto : ops.target_first with
    | false =>
      simp only [Bool.false_eq_true, if_false]
      rw [hr]
    | true =>
      simp only [if_true]
      rw [get_value_after_subscript ops m' _ hok v (by rw [hr]) n ops.zero]
      simp only []
      rw [subscript_set]
  · intro k hk
    simp [Memory.set, hk]
  · simp only [interpret_tokens, parse, classify, expression_ctor, List.length_cons,
      List.length_nil]
    simp [read_expr, flush, get_value, get_value_loop, hset]

/-- The statement `x=5`, then `x`. -/
theorem assignment_stores_value_witness :
    expression_ctor intOps [⟨.TK_NUM, "5"⟩] 0 false
      = .ok (.expression [.factor (.num 5)], 1)
    ∧ (get_value intOps (.expression [.factor (.num 5)]) (emptyMemory Int)).1 = .ok 5
    ∧ scan "x=5" = .ok [⟨.TK_IDENT, "x"⟩, ⟨.TK_ASSIGN, "="⟩, ⟨.TK_NUM, "5"⟩]
    ∧ interpret_tokens intOps [⟨.TK_IDENT, "x"⟩, ⟨.TK_ASSIGN, "="⟩, ⟨.TK_NUM, "5"⟩]
        (emptyMemory Int) = (.ok 5, (emptyMemory Int).set "x" 5)
    ∧ (interpret intOps "x+1" ((emptyMemory Int).set "x" 5)).1 = .ok 6 :=
  ⟨rfl, rfl, rfl,
    (assignment_stores_value intOps (emptyMemory Int) "x" [⟨.TK_NUM, "5"⟩] _ 1 5 rfl rfl).1,
    rfl⟩

/-- Claim C6. With `n` bound to `old` in the store `m`, an operator `o` among
`+ - * / % ^` and right-hand tokens `rhs` that parse as an expression evaluating
to `v` in `m`, interpreting `n o= rhs` returns `operate(old,v,o)` and leaves `m`
with `n` rebound to it and every other name as it was. -/
theorem compound_assignment_applies_operator {D : Type} (ops : DoubleOps D) (m : Memory D)
    (n : String) (o : Char) (rhs : List token) (N : node D) (j : Nat) (old v : D)
    (ho : is_op o = true) (hn : m n = some old)
    (hp : expression_ctor ops rhs 0 false = .ok (N, j))
    (hv : (get_value ops N m).1 = .ok v) :
    ∃ r, operate ops old v o = .ok r
      ∧ interpret_tokens ops
          (⟨.TK_IDENT, n⟩ :: ⟨.TK_OP, String.singleton o⟩ :: ⟨.TK_ASSIGN, "="⟩ :: rhs) m
          = (.ok r, m.set n r)
      ∧ (m.set n r) n = some r
      ∧ (∀ k, k ≠ n → (m.set n r) k = m k) := by
  obtain ⟨E, rfl, -, hok, -⟩ := expression_ctor_ok ops rhs 0 false N j hp
  have h2 := (get_value_ok ops m _ hok).1
  obtain ⟨r0, m', hr⟩ : ∃ r m', get_value ops (.expression E) m = (r, m') := ⟨_, _, rfl⟩
  rw [hr] at h2 hv
  change m' = m at h2
  change r0 = .ok v at hv
  subst h2 hv
  obtain ⟨r, hop⟩ := operate_ok ops ho old v
  refine ⟨r, hop, ?_, by simp [Memory.set], ?_⟩
  · unfold interpret_tokens
    rw [parse_assignment_op ops n (String.singleton o) "=" rhs _ j hp]
    simp only []
    rw [get_value_assignment_op, hn]
    simp only []
    rw [hr]
    simp only [char0_singleton, hop]
  · intro k hk
    simp [Memory.set, hk]

/-- The statement `x+=3` with `x` stored as 5 returns 8 and stores 8. -/
theorem compound_assignment_applies_operator_witness :
    is_op '+' = true ∧ ((emptyMemory Int).set "x" 5) "x" = some 5
    ∧ expression_ctor intOps [⟨.TK_NUM, "3"⟩] 0 false
      = .ok (.expression [.factor (.num 3)], 1)
    ∧ scan "x+=3" = .ok [⟨.TK_IDENT, "x"⟩, ⟨.TK_OP, "+"⟩, ⟨.TK_ASSIGN, "="⟩, ⟨.TK_NUM, "3"⟩]
    ∧ ∃ r, operate intOps 5 3 '+' = .ok r
      ∧ interpret_tokens intOps
          [⟨.TK_IDENT, "x"⟩, ⟨.TK_OP, "+"⟩, ⟨.TK_ASSIGN, "="⟩, ⟨.TK_NUM, "3"⟩]
          ((emptyMemory Int).set "x" 5) = (.ok r, ((emptyMemory Int).set "x" 5).set "x" r)
      ∧ (((emptyMemory Int).set "x" 5).set "x" r) "x" = some r
      ∧ (∀ k, k ≠ "x" → (((emptyMemory Int).set "x" 5).set "x" r) k
          = ((emptyMemory Int).set "x" 5) k) :=
  ⟨rfl, rfl, rfl, rfl,
    compound_assignment_applies_operator intOps ((emptyMemory Int).set "x" 5) "x" '+'
      [⟨.TK_NUM, "3"⟩] _ 1 5 3 rfl rfl rfl rfl⟩

/-- A compound assignment `y o= rhs` with `y` not in the store fails with the
undefined-variable error for `y` and leaves the store as it was, in either
order of the operands of `=`. -/
theorem compound_assignment_unbound_fails {D : Type} (ops : DoubleOps D) (m : Memory D)
    (y o : String) (rhs : List token) (N : node D) (j : Nat)
    (hp : expression_ctor ops rhs 0 false = .ok (N, j)) (hy : m y = none) :
    interpret_tokens ops (⟨.TK_IDENT, y⟩ :: ⟨.TK_OP, o⟩ :: ⟨.TK_ASSIGN, "="⟩ :: rhs) m
      = (.error (.runtime_error ("undefined variable '" ++ y ++ "'")), m) := by
  unfold interpret_tokens
  rw [parse_assignment_op ops y o "=" rhs _ j hp]
  simp only []
  rw [get_value_assignment_op, hy]

/-- The store a failed statement leaves, in either order of the operands of `=`:
the store it was given, but for an assignment to a name `n` the store does not
hold when `memory[n]` is evaluated before the right operand; then it is the
store with `n` bound to the value-initialised `double`. -/
theorem failure_store {D : Type} (ops : DoubleOps D) (m : Memory D) (s : String) (e : Exn)
    (he : (interpret ops s m).1 = .error e) :
    (interpret ops s m).2 = m
    ∨ (ops.target_first = true
        ∧ ∃ tks t0, scan s = .ok tks ∧ classify tks = .assignment ∧ tks[0]? = some t0
          ∧ m t0.data = none ∧ (interpret ops s m).2 = m.set t0.data ops.zero) := by
  unfold interpret at he ⊢
  cases hs : scan s with
  | error err => exact Or.inl rfl
  | ok tks =>
    rw [hs] at he
    rcases interpret_tokens_error_store ops tks m e he with h1 | ⟨h1, h2, t0, h3, h4, h5⟩
    · exact Or.inl h1
    · exact Or.inr ⟨h1, tks, t0, rfl, h2, h3, h4, h5⟩

/-- When the right operand of `=` is evaluated first (the order of C++17), a
statement that fails, at scanning, parsing or evaluation, leaves the store as
it was, and an assignment whose right-hand side refers to a variable the store
does not hold fails with that undefined-variable error and creates no entry. -/
theorem failure_keeps_store_right_first {D : Type} (ops : DoubleOps D) (m : Memory D)
    (hord : ops.target_first = false) :
    (∀ (s : String) (e : Exn), (interpret ops s m).1 = .error e → (interpret ops s m).2 = m)
    ∧ (∀ (n : String) (rhs : List token) (N : node D) (j : Nat) (x : String),
        expression_ctor ops rhs 0 false = .ok (N, j) →
        (node_vars N).find? (fun x => (m x).isNone) = some x →
        interpret_tokens ops (⟨.TK_IDENT, n⟩ :: ⟨.TK_ASSIGN, "="⟩ :: rhs) m
          = (.error (.runtime_error ("undefined variable '" ++ x ++ "'")), m)) := by
  refine ⟨?_, ?_⟩
  · intro s e he
    rcases failure_store ops m s e he with h1 | ⟨h1, -⟩
    · exact h1
    · rw [hord] at h1
      cases h1
  · intro n rhs N j x hp hx
    obtain ⟨E, rfl, -, hok, -⟩ := expression_ctor_ok ops rhs 0 false N j hp
    obtain ⟨h1, h2⟩ := get_value_ok ops m _ hok
    unfold first_undefined at h2
    rw [hx] at h2
    obtain ⟨r, m', hr⟩ : ∃ r m', get_value ops (.expression E) m = (r, m') := ⟨_, _, rfl⟩
    rw [hr] at h1 h2
    change m' = m at h1
    change r = _ at h2
    subst h1 h2
    unfold interpret_tokens
    rw [parse_assignment ops n "=" rhs _ j hp]
    simp only []
    rw [get_value_assignment, hord]
    simp only [Bool.false_eq_true, if_false]
    rw [hr]
    rfl

/-- The statements `y+=1` and `x=z` on the empty store, right operand first. -/
theorem failure_keeps_store_right_first_witness :
    (interpret intOps "y+=1" (emptyMemory Int)).1
      = .error (.runtime_error "undefined variable 'y'")
    ∧ (interpret intOps "y+=1" (emptyMemory Int)).2 = emptyMemory Int
    ∧ (interpret intOps "x=z" (emptyMemory Int)).1
      = .error (.runtime_error "undefined variable 'z'")
    ∧ (interpret intOps "x=z" (emptyMemory Int)).2 = emptyMemory Int :=
  ⟨rfl, (failure_keeps_store_right_first intOps (emptyMemory Int) rfl).1 "y+=1" _ rfl,
    rfl, (failure_keeps_store_right_first intOps (emptyMemory Int) rfl).1 "x=z" _ rfl⟩

/-- An assignment `n = z` to a name the store does not hold, of a variable `z`
other than `n` that the store does not hold either, when `memory[n]` is
evaluated before the right operand: the statement fails with the
undefined-variable error for `z` and leaves `n` in the store. -/
theorem failed_assignment_target_first {D : Type} (ops : DoubleOps D) (m : Memory D)
    (n z : String) (hord : ops.target_first = true) (hn : m n = none) (hz : m z = none)
    (hnz : z ≠ n) :
    interpret_tokens ops [⟨.TK_IDENT, n⟩, ⟨.TK_ASSIGN, "="⟩, ⟨.TK_IDENT, z⟩] m
      = (.error (.runtime_error ("undefined variable '" ++ z ++ "'")), m.set n ops.zero) := by
  have hp : expression_ctor ops [⟨.TK_IDENT, z⟩] 0 false
      = .ok (.expression [.factor (.var z false)], 1) := by
    simp [expression_ctor, read_expr, flush]
  unfold interpret_tokens
  rw [parse_assignment ops n "=" [⟨.TK_IDENT, z⟩] _ 1 hp]
  simp only []
  rw [get_value_assignment, hord]
  simp only [if_true]
  rw [subscript_unbound m n ops.zero hn]
  have hz2 : (m.set n ops.zero) z = none := by simp [Memory.set, hnz, hz]
  simp [get_value, get_value_loop, hz2]

/-- Claim C7, on the code. `assignment::get_value` is the one expression
`memory[name]=expr->get_value(memory)`, and the source names no language
standard. In a build that evaluates `memory[name]` before the right operand,
which the standards before C++17 allow, the statement `x=z` on the empty store
fails with the undefined-variable error for `z` and leaves `x` in the store,
bound to 0, and `q=q+1` on the empty store succeeds with 1. In a build that
evaluates the right operand first (C++17) the failed `x=z` leaves the store
empty. The compound assignment `y+=1` fails and leaves the store empty in both
builds: `assignment_op::get_value` evaluates its right-hand side in a statement
of its own, before `memory[name]`. -/
theorem failed_assignment_inserts_target :
    scan "x=z" = .ok [⟨.TK_IDENT, "x"⟩, ⟨.TK_ASSIGN, "="⟩, ⟨.TK_IDENT, "z"⟩]
    ∧ intOpsTargetFirst.target_first = true
    ∧ (emptyMemory Int) "x" = none
    ∧ interpret intOpsTargetFirst "x=z" (emptyMemory Int)
        = (.error (.runtime_error "undefined variable 'z'"), (emptyMemory Int).set "x" 0)
    ∧ (interpret intOpsTargetFirst "x=z" (emptyMemory Int)).2 "x" = some 0
    ∧ (interpret intOpsTargetFirst "x=z" (emptyMemory Int)).2 ≠ emptyMemory Int
    ∧ (interpret intOpsTargetFirst "q=q+1" (emptyMemory Int)).1 = .ok 1
    ∧ (interpret intOps "q=q+1" (emptyMemory Int)).1
        = .error (.runtime_error "undefined variable 'q'")
    ∧ interpret intOps "x=z" (emptyMemory Int)
        = (.error (.runtime_error "undefined variable 'z'"), emptyMemory Int)
    ∧ interpret intOpsTargetFirst "y+=1" (emptyMemory Int)
        = (.error (.runtime_error "undefined variable 'y'"), emptyMemory Int)
    ∧ interpret intOps "y+=1" (emptyMemory Int)
        = (.error (.runtime_error "undefined variable 'y'"), emptyMemory Int) := by
  refine ⟨rfl, rfl, rfl, rfl, rfl, ?_, rfl, rfl, rfl, rfl, rfl⟩
  intro h
  have h2 : (interpret intOpsTargetFirst "x=z" (emptyMemory Int)).2 "x"
      = (emptyMemory Int) "x" := by rw [h]
  have h3 : (interpret intOpsTargetFirst "x=z" (emptyMemory Int)).2 "x" = some 0 := rfl
  rw [h3] at h2
  cases h2

/-! ## Negated groups -/

/-- Claim C3. When the tokens `ts` parse as a top-level expression `N`, the
tokens of `- ( ts )` parse too, to a node whose evaluation in any store gives
the negation of the value of `N`, or the exception `N` gives, and the store
that evaluating `N` leaves. -/
theorem negated_group_negates {D : Type} (ops : DoubleOps D) (ts : List token)
    (N : node D) (j : Nat) (hp : expression_ctor ops ts 0 false = .ok (N, j)) :
    ∃ N', parse ops
        (⟨.TK_OP, "-"⟩ :: ⟨.TK_PAREN_OPEN, "("⟩ :: (ts ++ [⟨.TK_PAREN_CLOSE, ")"⟩]))
        = .ok N'
      ∧ ∀ m : Memory D, get_value ops N' m =
          (match (get_value ops N m).1 with
            | .ok v => .ok (ops.neg v)
            | .error e => .error e,
           (get_value ops N m).2) := by
  obtain ⟨E, rfl, hr, -, -⟩ := expression_ctor_ok ops ts 0 false N j hp
  refine ⟨.expression [.factor (.negexprgrp (.expression E))], ?_, ?_⟩
  · -- the group is read from position 2 of the longer sequence
    have hag : Agree ts
        (⟨.TK_OP, "-"⟩ :: ⟨.TK_PAREN_OPEN, "("⟩ :: (ts ++ [⟨.TK_PAREN_CLOSE, ")"⟩])) 2 :=
      agree_append [⟨.TK_OP, "-"⟩, ⟨.TK_PAREN_OPEN, "("⟩] ts [⟨.TK_PAREN_CLOSE, ")"⟩]
    have hclose : (⟨.TK_OP, "-"⟩ :: ⟨.TK_PAREN_OPEN, "("⟩ ::
        (ts ++ [⟨.TK_PAREN_CLOSE, ")"⟩]) : List token)[ts.length + 2]?
          = some ⟨.TK_PAREN_CLOSE, ")"⟩ := by
      simp
    have hend : EndOK ts
        (⟨.TK_OP, "-"⟩ :: ⟨.TK_PAREN_OPEN, "("⟩ :: (ts ++ [⟨.TK_PAREN_CLOSE, ")"⟩]))
        2 false true :=
      Or.inr (Or.inr ⟨rfl, rfl, _, hclose, by decide⟩)
    obtain ⟨g1, -, -, g4⟩ := read_expr_embed ops hag (ts.length + 1) (ts.length + 3)
      false true [] [] 0 E j hend (by omega) hr
    have hj := g4 rfl
    subst hj
    have hlen : (⟨.TK_OP, "-"⟩ :: ⟨.TK_PAREN_OPEN, "("⟩ ::
        (ts ++ [⟨.TK_PAREN_CLOSE, ")"⟩]) : List token).length = ts.length + 3 := by
      simp
    have hc : classify
        (⟨.TK_OP, "-"⟩ :: ⟨.TK_PAREN_OPEN, "("⟩ :: (ts ++ [⟨.TK_PAREN_CLOSE, ")"⟩]))
        = .expression := by
      simp [classify]
    have hpast : (⟨.TK_OP, "-"⟩ :: ⟨.TK_PAREN_OPEN, "("⟩ ::
        (ts ++ [⟨.TK_PAREN_CLOSE, ")"⟩]) : List token)[ts.length + 2 + 1]? = none := by
      apply List.getElem?_eq_none
      rw [hlen]
    have hvs : value_step ops
        (⟨.TK_OP, "-"⟩ :: ⟨.TK_PAREN_OPEN, "("⟩ :: (ts ++ [⟨.TK_PAREN_CLOSE, ")"⟩])) 0
        = (.neggroup : ValueStep D) := by
      have cm : char0 "-" = '-' := rfl
      simp [value_step, cm]
    unfold parse
    rw [hc]
    simp only [expression_ctor, hlen]
    rw [read_expr_succ, hvs]
    simp only [Nat.zero_add] at g1 ⊢
    rw [g1]
    simp only [resume, op_step, hpast, Bool.false_eq_true, if_false, flush, List.nil_append,
      List.length_singleton, Nat.succ_ne_zero, one_ne_zero]
  · intro m
    rw [get_value, get_value_loop, get_value_negexprgrp]
    obtain ⟨r, m', hrm⟩ : ∃ r m', get_value ops (.expression E) m = (r, m') := ⟨_, _, rfl⟩
    rw [hrm]
    cases r with
    | error e => rfl
    | ok v => rfl

/-- The statement `-(3+2)` is -5. -/
theorem negated_group_negates_witness :
    expression_ctor intOps [⟨.TK_NUM, "3"⟩, ⟨.TK_OP, "+"⟩, ⟨.TK_NUM, "2"⟩] 0 false
      = .ok (.expression [.factor (.num 3), .factor (.num 2), .op '+'], 3)
    ∧ (get_value intOps (.expression [.factor (.num 3), .factor (.num 2), .op '+'])
        (emptyMemory Int)).1 = .ok 5
    ∧ scan "-(3+2)" = .ok [⟨.TK_OP, "-"⟩, ⟨.TK_PAREN_OPEN, "("⟩, ⟨.TK_NUM, "3"⟩,
        ⟨.TK_OP, "+"⟩, ⟨.TK_NUM, "2"⟩, ⟨.TK_PAREN_CLOSE, ")"⟩]
    ∧ (interpret intOps "-(3+2)" (emptyMemory Int)).1 = .ok (-5)
    ∧ ∃ N', parse intOps [⟨.TK_OP, "-"⟩, ⟨.TK_PAREN_OPEN, "("⟩, ⟨.TK_NUM, "3"⟩,
        ⟨.TK_OP, "+"⟩, ⟨.TK_NUM, "2"⟩, ⟨.TK_PAREN_CLOSE, ")"⟩] = .ok N'
      ∧ (get_value intOps N' (emptyMemory Int)).1 = .ok (-5) := by
  refine ⟨rfl, rfl, rfl, rfl, ?_⟩
  obtain ⟨N', h1, h2⟩ := negated_group_negates intOps
    [⟨.TK_NUM, "3"⟩, ⟨.TK_OP, "+"⟩, ⟨.TK_NUM, "2"⟩] _ 3 rfl
  exact ⟨N', h1, by rw [h2 (emptyMemory Int)]; rfl⟩

/-! ## The fuel of `expression_ctor` is enough -/

theorem operator_precedence_error {c : Char} {e : Exn}
    (h : operator_precedence c = .error e) : e ≠ .out_of_fuel := by
  unfold operator_precedence at h
  split_ifs at h
  simp only [Except.error.injEq] at h
  subst h
  simp

theorem shunt_error {D : Type} (pr : Int) :
    ∀ (os : List Char) (ex : List (expr_data D)) (e : Exn),
      shunt pr os ex = .error e → e ≠ .out_of_fuel := by
  intro os
  induction os with
  | nil => intro ex e h; simp [shunt] at h
  | cons c os ih =>
    intro ex e h
    simp only [shunt] at h
    cases hp : operator_precedence c with
    | error err =>
      rw [hp] at h
      simp only [Except.error.injEq] at h
      subst h
      exact operator_precedence_error hp
    | ok p =>
      rw [hp] at h
      simp only [] at h
      split_ifs at h
      exact ih _ _ h

theorem parse_num_error {D : Type} (ops : DoubleOps D) (s : String) (e : Exn)
    (h : parse_num ops s = .error e) : e ≠ .out_of_fuel := by
  unfold parse_num at h
  cases hs : ops.stod s with
  | none =>
    rw [hs] at h
    simp only [Except.error.injEq] at h
    subst h
    simp
  | some d => rw [hs] at h; cases h

theorem value_step_fail {D : Type} (ops : DoubleOps D) (tks : List token) (i : Nat)
    (e : Exn) (h : value_step ops tks i = .fail e) : e ≠ .out_of_fuel := by
  intro he
  subst he
  unfold value_step at h
  have hn : ∀ s, parse_num ops s ≠ .error .out_of_fuel :=
    fun s hs => parse_num_error ops s _ hs rfl
  cases hA : tks[i]? with
  | none => rw [hA] at h; cases h
  | some t =>
    rw [hA] at h
    simp only [] at h
    cases ht : t.type with
    | TK_PAREN_OPEN => rw [ht] at h; cases h
    | TK_PAREN_CLOSE => rw [ht] at h; cases h
    | TK_ASSIGN => rw [ht] at h; cases h
    | TK_IDENT => rw [ht] at h; cases h
    | TK_NUM =>
      rw [ht] at h
      simp only [] at h
      cases hp : parse_num ops t.data with
      | error err =>
        rw [hp] at h
        simp only [ValueStep.fail.injEq] at h
        subst h
        exact hn _ hp
      | ok v => rw [hp] at h; cases h
    | TK_OP =>
      rw [ht] at h
      simp only [] at h
      cases hA1 : tks[i + 1]? with
      | none => rw [hA1] at h; cases h
      | some t1 =>
        rw [hA1] at h
        simp only [] at h
        cases hp : parse_num ops t1.data with
        | error err =>
          rw [hp] at h
          have hne : err ≠ .out_of_fuel := parse_num_error ops _ _ hp
          split_ifs at h <;> simp at h <;> exact hne h
        | ok v =>
          rw [hp] at h
          split_ifs at h <;> simp at h

theorem op_step_fail {D : Type} (tks : List token) (p : Bool) (os : List Char)
    (ex : List (expr_data D)) (i' : Nat) (e : Exn)
    (h : op_step tks p os ex i' = .fail e) : e ≠ .out_of_fuel := by
  intro he
  subst he
  unfold op_step at h
  cases hA : tks[i' + 1]? with
  | none =>
    rw [hA] at h
    simp only [] at h
    split_ifs at h <;> simp at h
  | some t =>
    rw [hA] at h
    simp only [] at h
    by_cases c1 : t.type = .TK_OP
    · simp only [c1, if_true] at h
      cases hp : operator_precedence (char0 t.data) with
      | error err =>
        rw [hp] at h
        simp only [OpStep.fail.injEq] at h
        subst h
        exact operator_precedence_error hp rfl
      | ok pr =>
        rw [hp] at h
        simp only [] at h
        cases hs : shunt pr os ex with
        | error err =>
          rw [hs] at h
          simp only [OpStep.fail.injEq] at h
          subst h
          exact shunt_error pr os ex _ hs rfl
        | ok r => rw [hs] at h; cases h
    · simp only [c1, if_false] at h
      split_ifs at h <;> simp at h

theorem value_step_bound {D : Type} (ops : DoubleOps D) (tks : List token) (i : Nat) :
    match value_step ops tks i with
    | .fail _ => True
    | .leaf _ i' => i ≤ i'
    | .group => i < tks.length
    | .neggroup => i + 1 < tks.length := by
  have hag : Agree tks tks 0 := fun k _ => rfl
  have h := value_step_embed ops hag i
  cases hv : value_step ops tks i with
  | fail e => trivial
  | leaf f i' => exact (value_step_leaf_ok ops tks i f i' hv).2.1
  | group => rw [hv] at h; exact h.1
  | neggroup => rw [hv] at h; exact h.1

theorem read_expr_index_lt {D : Type} (ops : DoubleOps D) (tks : List token) :
    ∀ (fuel : Nat) (p : Bool) (os : List Char) (ex : List (expr_data D)) (i : Nat)
      (E : List (expr_data D)) (j : Nat),
      read_expr ops tks fuel p os ex i = .ok (E, j) → i < j := by
  intro fuel
  induction fuel with
  | zero => intro p os ex i E j h; rw [read_expr_zero] at h; cases h
  | succ f ih =>
    intro p os ex i E j h
    have hres : ∀ (ex1 : List (expr_data D)) (i' : Nat), i ≤ i' →
        resume ops tks f p os ex1 i' = .ok (E, j) → i < j := by
      intro ex1 i' hi' hr
      unfold resume at hr
      cases ho : op_step tks p os ex1 i' with
      | fail e => rw [ho] at hr; cases hr
      | done e =>
        rw [ho] at hr
        simp only [Except.ok.injEq, Prod.mk.injEq] at hr
        omega
      | next os' e =>
        rw [ho] at hr
        have := ih p os' e (i' + 1 + 1) E j hr
        omega
    rw [read_expr_succ] at h
    have hb := value_step_bound ops tks i
    cases hvs : value_step ops tks i with
    | fail e => rw [hvs] at h; cases h
    | leaf f0 i' =>
      rw [hvs] at h hb
      exact hres _ i' hb h
    | group =>
      rw [hvs] at h
      simp only [] at h
      cases hin : read_expr ops tks f true [] ex (i + 1) with
      | error e => rw [hin] at h; cases h
      | ok r =>
        obtain ⟨ex1, j1⟩ := r
        rw [hin] at h
        have := ih true [] ex (i + 1) ex1 j1 hin
        exact hres ex1 j1 (by omega) h
    | neggroup =>
      rw [hvs] at h
      simp only [] at h
      cases hin : read_expr ops tks f true [] [] (i + 1 + 1) with
      | error e => rw [hin] at h; cases h
      | ok r =>
        obtain ⟨e1, j1⟩ := r
        rw [hin] at h
        have := ih true [] [] (i + 1 + 1) e1 j1 hin
        exact hres _ j1 (by omega) h

theorem op_step_next_bound {D : Type} (tks : List token) (p : Bool) (os : List Char)
    (ex : List (expr_data D)) (i' : Nat) (os' : List Char) (e : List (expr_data D))
    (h : op_step tks p os ex i' = .next os' e) : i' + 1 < tks.length := by
  unfold op_step at h
  cases hA : tks[i' + 1]? with
  | none =>
    rw [hA] at h
    simp only [] at h
    split_ifs at h
  | some t =>
    by_contra hc
    rw [List.getElem?_eq_none (Nat.le_of_not_lt hc)] at hA
    cases hA

/-- With one unit of fuel for each token from `i` on, and one more, `read_expr`
does not run out of fuel. -/
theorem read_expr_fuel_enough {D : Type} (ops : DoubleOps D) (tks : List token) :
    ∀ (fuel : Nat) (p : Bool) (os : List Char) (ex : List (expr_data D)) (i : Nat),
      i ≤ tks.length → tks.length + 1 ≤ fuel + i →
      read_expr ops tks fuel p os ex i ≠ .error .out_of_fuel := by
  intro fuel
  induction fuel with
  | zero =>
    intro p os ex i hi hf
    omega
  | succ f ih =>
    intro p os ex i hi hf h
    have hres : ∀ (ex1 : List (expr_data D)) (i' : Nat), i ≤ i' →
        resume ops tks f p os ex1 i' ≠ .error .out_of_fuel := by
      intro ex1 i' hi' hr
      unfold resume at hr
      cases ho : op_step tks p os ex1 i' with
      | fail e =>
        rw [ho] at hr
        simp only [Except.error.injEq] at hr
        exact op_step_fail tks p os ex1 i' e ho hr
      | done e => rw [ho] at hr; cases hr
      | next os' e =>
        rw [ho] at hr
        have hb := op_step_next_bound tks p os ex1 i' os' e ho
        exact ih p os' e (i' + 1 + 1) (by omega) (by omega) hr
    rw [read_expr_succ] at h
    have hb := value_step_bound ops tks i
    cases hvs : value_step ops tks i with
    | fail e =>
      rw [hvs] at h
      simp only [Except.error.injEq] at h
      exact value_step_fail ops tks i e hvs h
    | leaf f0 i' =>
      rw [hvs] at h hb
      exact hres _ i' hb h
    | group =>
      rw [hvs] at h hb
      simp only [] at h hb
      cases hin : read_expr ops tks f true [] ex (i + 1) with
      | error e =>
        rw [hin] at h
        simp only [Except.error.injEq] at h
        subst h
        exact ih true [] ex (i + 1) (by omega) (by omega) hin
      | ok r =>
        obtain ⟨ex1, j1⟩ := r
        rw [hin] at h
        have := read_expr_index_lt ops tks f true [] ex (i + 1) ex1 j1 hin
        exact hres ex1 j1 (by omega) h
    | neggroup =>
      rw [hvs] at h hb
      simp only [] at h hb
      cases hin : read_expr ops tks f true [] [] (i + 1 + 1) with
      | error e =>
        rw [hin] at h
        simp only [Except.error.injEq] at h
        subst h
        exact ih true [] [] (i + 1 + 1) (by omega) (by omega) hin
      | ok r =>
        obtain ⟨e1, j1⟩ := r
        rw [hin] at h
        have := read_expr_index_lt ops tks f true [] [] (i + 1 + 1) e1 j1 hin
        exact hres _ j1 (by omega) h

/-- No call of `parse` ends by running out of fuel: the recursion budget of the
model is never what stops it. -/
theorem parse_never_out_of_fuel {D : Type} (ops : DoubleOps D) (tks : List token) :
    parse ops tks ≠ .error .out_of_fuel := by
  have key : ∀ i, i ≤ tks.length →
      expression_ctor ops tks i false ≠ .error .out_of_fuel := by
    intro i hi h
    unfold expression_ctor at h
    cases hr : read_expr ops tks (tks.length + 1) false [] [] i with
    | error e =>
      rw [hr] at h
      simp only [Except.error.injEq] at h
      subst h
      exact read_expr_fuel_enough ops tks _ false [] [] i hi (by omega) hr
    | ok r => rw [hr] at h; cases h
  intro h
  unfold parse at h
  cases hc : classify tks with
  | expression =>
    rw [hc] at h
    simp only [] at h
    cases he : expression_ctor ops tks 0 false with
    | error e =>
      rw [he] at h
      simp only [Except.error.injEq] at h
      subst h
      exact key 0 (Nat.zero_le _) he
    | ok r => rw [he] at h; cases h
  | assignment =>
    rw [hc] at h
    simp only [] at h
    cases ha : assignment_ctor ops tks with
    | ok r => rw [ha] at h; cases h
    | error e =>
      rw [ha] at h
      simp only [Except.error.injEq] at h
      subst h
      unfold assignment_ctor at ha
      cases h0 : tks[0]? with
      | none => rw [h0] at ha; cases ha
      | some t0 =>
        rw [h0] at ha
        simp only [] at ha
        split_ifs at ha with c1 c2
        · cases ha
        · cases he : expression_ctor ops tks 2 false with
          | error e =>
            rw [he] at ha
            simp only [Except.error.injEq] at ha
            subst ha
            exact key 2 (Nat.le_of_lt c2) he
          | ok r => rw [he] at ha; cases ha
        · cases ha
  | assignment_op =>
    rw [hc] at h
    simp only [] at h
    cases ha : assignment_op_ctor ops tks with
    | ok r => rw [ha] at h; cases h
    | error e =>
      rw [ha] at h
      simp only [Except.error.injEq] at h
      subst h
      unfold assignment_op_ctor at ha
      cases h0 : tks[0]? with
      | none => rw [h0] at ha; split at ha <;> simp_all
      | some t0 =>
        cases h1 : tks[1]? with
        | none => rw [h0, h1] at ha; cases ha
        | some t1 =>
          rw [h0, h1] at ha
          simp only [] at ha
          split_ifs at ha with c1 c2
          · cases ha
          · cases he : expression_ctor ops tks 3 false with
            | error e =>
              rw [he] at ha
              simp only [Except.error.injEq] at ha
              subst ha
              exact key 3 (Nat.le_of_lt c2) he
            | ok r => rw [he] at ha; cases ha
          · cases ha

/-! ## Empty groups, unclosed groups, signs before signs -/

/-- Claim C12, as the code has it. The statement `()` fails with the error
"expected value, got ')'": a `(` whose next token is `)` sends `read_expr` to a
value position that holds `)`, where it throws before any "empty expression"
test is reached. The same holds at every value position, inside or outside a
group. -/
theorem empty_group_fails_expected_value {D : Type} (ops : DoubleOps D) :
    (∀ m : Memory D,
      interpret_tokens ops [⟨.TK_PAREN_OPEN, "("⟩, ⟨.TK_PAREN_CLOSE, ")"⟩] m
        = (.error (.runtime_error "expected value, got ')'"), m))
    ∧ (∀ (tks : List token) (fuel : Nat) (parens : Bool) (op_stack : List Char)
        (expr : List (expr_data D)) (i : Nat) (t0 t1 : token),
        tks[i]? = some t0 → t0.type = .TK_PAREN_OPEN →
        tks[i + 1]? = some t1 → t1.type = .TK_PAREN_CLOSE →
        read_expr ops tks (fuel + 2) parens op_stack expr i
          = .error (.runtime_error "expected value, got ')'")) := by
  constructor
  · intro m
    rfl
  · intro tks fuel parens op_stack expr i t0 t1 h0 ht0 h1 ht1
    have hv0 : value_step ops tks i = (.group : ValueStep D) := by
      simp [value_step, h0, ht0]
    have hv1 : value_step ops tks (i + 1)
        = (.fail (.runtime_error "expected value, got ')'") : ValueStep D) := by
      simp [value_step, h1, ht1]
    rw [read_expr_succ, hv0]
    simp only []
    rw [read_expr_succ, hv1]

/-- The statement `()`: the error is "expected value, got ')'", in a group as well. -/
theorem empty_group_fails_expected_value_witness :
    scan "()" = .ok [⟨.TK_PAREN_OPEN, "("⟩, ⟨.TK_PAREN_CLOSE, ")"⟩]
    ∧ interpret_tokens intOps [⟨.TK_PAREN_OPEN, "("⟩, ⟨.TK_PAREN_CLOSE, ")"⟩]
        (emptyMemory Int) = (.error (.runtime_error "expected value, got ')'"), emptyMemory Int)
    ∧ read_expr intOps
        [⟨.TK_NUM, "1"⟩, ⟨.TK_OP, "+"⟩, ⟨.TK_PAREN_OPEN, "("⟩, ⟨.TK_PAREN_CLOSE, ")"⟩]
        3 false ['+'] [.factor (.num 1)] 2
        = .error (.runtime_error "expected value, got ')'") :=
  ⟨rfl, (empty_group_fails_expected_value intOps).1 (emptyMemory Int),
    (empty_group_fails_expected_value intOps).2 _ 1 false ['+'] [.factor (.num 1)] 2
      ⟨.TK_PAREN_OPEN, "("⟩ ⟨.TK_PAREN_CLOSE, ")"⟩ rfl rfl rfl rfl⟩

/-- Claim C12, as stated, fails: interpreting `()` does not give the "empty
expression" error. -/
theorem empty_group_is_not_empty_expression :
    (interpret intOps "()" (emptyMemory Int)).1
      ≠ .error (.runtime_error "empty expression") := by
  intro h
  have h2 : (Except.error (.runtime_error "expected value, got ')'") : Except Exn Int)
      = .error (.runtime_error "empty expression") := h
  injection h2 with h3
  exact absurd h3 (by decide)

/-- Claim C13, on the code. Inside a group any token that is no operator ends the
group: the statement `(1 2`, whose `(` has no `)`, parses and evaluates to 1
(the token `2` is skipped), and so does `(1 x` whatever `x` is. -/
theorem unclosed_group_is_accepted :
    scan "(1 2" = .ok [⟨.TK_PAREN_OPEN, "("⟩, ⟨.TK_NUM, "1"⟩, ⟨.TK_NUM, "2"⟩]
    ∧ parse intOps [⟨.TK_PAREN_OPEN, "("⟩, ⟨.TK_NUM, "1"⟩, ⟨.TK_NUM, "2"⟩]
        = .ok (.expression [.factor (.num 1)])
    ∧ interpret intOps "(1 2" (emptyMemory Int) = (.ok 1, emptyMemory Int)
    ∧ interpret intOps "(1 x" (emptyMemory Int) = (.ok 1, emptyMemory Int)
    ∧ interpret intOps "(1 =" (emptyMemory Int) = (.ok 1, emptyMemory Int)
    ∧ interpret intOps "(1 (" (emptyMemory Int) = (.ok 1, emptyMemory Int) :=
  ⟨rfl, rfl, rfl, rfl, rfl, rfl⟩

/-- Claim C20, on the code. The text `.` passes `is_num` (no digit is asked for),
so the scan succeeds with a number token whose text has no digit, and the
conversion of that token fails in `std::stod`. -/
theorem lone_dot_is_a_number_token :
    is_num "." = true
    ∧ scan "." = .ok [⟨.TK_NUM, "."⟩]
    ∧ (∀ (D : Type) (ops : DoubleOps D) (m : Memory D), ops.stod "." = none →
        interpret ops "." m = (.error .stod_error, m))
    ∧ intOps.stod "." = none
    ∧ interpret intOps "." (emptyMemory Int) = (.error .stod_error, emptyMemory Int)
    ∧ scan "1+." = .ok [⟨.TK_NUM, "1"⟩, ⟨.TK_OP, "+"⟩, ⟨.TK_NUM, "."⟩] := by
  refine ⟨rfl, rfl, ?_, rfl, rfl, rfl⟩
  intro D ops m h
  have hs : scan "." = .ok [⟨.TK_NUM, "."⟩] := rfl
  simp [interpret, hs, interpret_tokens, parse, classify, expression_ctor, read_expr,
    parse_num, h]

/-! ## Which terms take a sign -/

/-- The tokens of `- ( ts )` parse when `ts` parses at top level. -/
theorem parse_negated_group {D : Type} (ops : DoubleOps D) (ts : List token)
    (E : List (expr_data D)) (j : Nat)
    (hr : read_expr ops ts (ts.length + 1) false [] [] 0 = .ok (E, j)) :
    parse ops (⟨.TK_OP, "-"⟩ :: ⟨.TK_PAREN_OPEN, "("⟩ :: (ts ++ [⟨.TK_PAREN_CLOSE, ")"⟩]))
      = .ok (.expression [.factor (.negexprgrp (.expression E))]) := by
  have hag : Agree ts
      (⟨.TK_OP, "-"⟩ :: ⟨.TK_PAREN_OPEN, "("⟩ :: (ts ++ [⟨.TK_PAREN_CLOSE, ")"⟩])) 2 :=
    agree_append [⟨.TK_OP, "-"⟩, ⟨.TK_PAREN_OPEN, "("⟩] ts [⟨.TK_PAREN_CLOSE, ")"⟩]
  have hclose : (⟨.TK_OP, "-"⟩ :: ⟨.TK_PAREN_OPEN, "("⟩ ::
      (ts ++ [⟨.TK_PAREN_CLOSE, ")"⟩]) : List token)[ts.length + 2]?
        = some ⟨.TK_PAREN_CLOSE, ")"⟩ := by
    simp
  have hend : EndOK ts
      (⟨.TK_OP, "-"⟩ :: ⟨.TK_PAREN_OPEN, "("⟩ :: (ts ++ [⟨.TK_PAREN_CLOSE, ")"⟩]))
      2 false true :=
    Or.inr (Or.inr ⟨rfl, rfl, _, hclose, by decide⟩)
  obtain ⟨g1, -, -, g4⟩ := read_expr_embed ops hag (ts.length + 1) (ts.length + 3)
    false true [] [] 0 E j hend (by omega) hr
  have hj := g4 rfl
  subst hj
  have hlen : (⟨.TK_OP, "-"⟩ :: ⟨.TK_PAREN_OPEN, "("⟩ ::
      (ts ++ [⟨.TK_PAREN_CLOSE, ")"⟩]) : List token).length = ts.length + 3 := by
    simp
  have hc : classify
      (⟨.TK_OP, "-"⟩ :: ⟨.TK_PAREN_OPEN, "("⟩ :: (ts ++ [⟨.TK_PAREN_CLOSE, ")"⟩]))
      = .expression := by
    simp [classify]
  have hpast : (⟨.TK_OP, "-"⟩ :: ⟨.TK_PAREN_OPEN, "("⟩ ::
      (ts ++ [⟨.TK_PAREN_CLOSE, ")"⟩]) : List token)[ts.length + 2 + 1]? = none := by
    apply List.getElem?_eq_none
    rw [hlen]
  have hvs : value_step ops
      (⟨.TK_OP, "-"⟩ :: ⟨.TK_PAREN_OPEN, "("⟩ :: (ts ++ [⟨.TK_PAREN_CLOSE, ")"⟩])) 0
      = (.neggroup : ValueStep D) := by
    have cm : char0 "-" = '-' := rfl
    simp [value_step, cm]
  unfold parse
  rw [hc]
  simp only [expression_ctor, hlen]
  rw [read_expr_succ, hvs]
  simp only [Nat.zero_add] at g1 ⊢
  rw [g1]
  simp only [resume, op_step, hpast, Bool.false_eq_true, if_false, flush, List.nil_append,
    List.length_singleton, Nat.succ_ne_zero, one_ne_zero]

/-- Claim C17, as the code has it. A sign applies to a number or an identifier
(`-` and `+` both) and `-` applies to a parenthesized group; `+` before a `(`,
and any sign before another operator token, make the parse fail with
"expected value, got" and the sign. -/
theorem sign_applies_to_literal_variable_or_minus_group {D : Type} (ops : DoubleOps D) :
    (∀ (s : String) (d : D), ops.stod s = some d →
        parse ops [⟨.TK_OP, "-"⟩, ⟨.TK_NUM, s⟩]
          = .ok (.expression [.factor (.num (ops.neg d))])
        ∧ parse ops [⟨.TK_OP, "+"⟩, ⟨.TK_NUM, s⟩] = .ok (.expression [.factor (.num d)]))
    ∧ (∀ x : String,
        parse ops [⟨.TK_OP, "-"⟩, ⟨.TK_IDENT, x⟩]
          = .ok (.expression [.factor (.var x true)] : node D)
        ∧ parse ops [⟨.TK_OP, "+"⟩, ⟨.TK_IDENT, x⟩]
          = .ok (.expression [.factor (.var x false)] : node D))
    ∧ (∀ (ts : List token) (N : node D) (j : Nat),
        expression_ctor ops ts 0 false = .ok (N, j) →
        parse ops
          (⟨.TK_OP, "-"⟩ :: ⟨.TK_PAREN_OPEN, "("⟩ :: (ts ++ [⟨.TK_PAREN_CLOSE, ")"⟩]))
          = .ok (.expression [.factor (.negexprgrp N)]))
    ∧ (∀ rest : List token,
        parse ops (⟨.TK_OP, "+"⟩ :: ⟨.TK_PAREN_OPEN, "("⟩ :: rest)
          = (.error (.runtime_error "expected value, got '+'") : Except Exn (node D)))
    ∧ (∀ (sign o : String) (t : token) (rest : List token), t.type ≠ .TK_ASSIGN →
        parse ops (⟨.TK_OP, sign⟩ :: ⟨.TK_OP, o⟩ :: t :: rest)
          = (.error (.runtime_error ("expected value, got '" ++ sign ++ "'"))
              : Except Exn (node D))) := by
  have cm : char0 "-" = '-' := rfl
  have cp : char0 "+" = '+' := rfl
  have cpm : ¬ ('+' = '-') := by decide
  refine ⟨?_, ?_, ?_, ?_, ?_⟩
  · intro s d hs
    constructor <;>
    · simp only [parse, classify, expression_ctor, List.length_cons, List.length_nil]
      simp [read_expr, parse_num, hs, cm, cp, cpm, flush]
  · intro x
    constructor <;>
    · simp only [parse, classify, expression_ctor, List.length_cons, List.length_nil]
      simp [read_expr, cm, cp, cpm, flush]
  · intro ts N j hp
    obtain ⟨E, rfl, hr, -, -⟩ := expression_ctor_ok ops ts 0 false N j hp
    exact parse_negated_group ops ts E j hr
  · intro rest
    have hc : classify (⟨.TK_OP, "+"⟩ :: ⟨.TK_PAREN_OPEN, "("⟩ :: rest) = .expression := by
      simp [classify]
    have hv : value_step ops (⟨.TK_OP, "+"⟩ :: ⟨.TK_PAREN_OPEN, "("⟩ :: rest) 0
        = (.fail (.runtime_error "expected value, got '+'") : ValueStep D) := by
      simp [value_step, cp, cpm]
    unfold parse
    rw [hc]
    simp only [expression_ctor]
    rw [read_expr_succ, hv]
  · intro sign o t rest ht
    have hc : classify (⟨.TK_OP, sign⟩ :: ⟨.TK_OP, o⟩ :: t :: rest) = .expression := by
      simp [classify, ht]
    have hv : value_step ops (⟨.TK_OP, sign⟩ :: ⟨.TK_OP, o⟩ :: t :: rest) 0
        = (.fail (.runtime_error ("expected value, got '" ++ sign ++ "'")) : ValueStep D) := by
      simp [value_step]
    unfold parse
    rw [hc]
    simp only [expression_ctor]
    rw [read_expr_succ, hv]

/-- The statements `-3`, `-(1+2)`, `+(1+2)` and `- - 3`. -/
theorem sign_applies_to_literal_variable_or_minus_group_witness :
    intOps.stod "3" = some 3
    ∧ parse intOps [⟨.TK_OP, "-"⟩, ⟨.TK_NUM, "3"⟩] = .ok (.expression [.factor (.num (-3))])
    ∧ expression_ctor intOps [⟨.TK_NUM, "1"⟩, ⟨.TK_OP, "+"⟩, ⟨.TK_NUM, "2"⟩] 0 false
        = .ok (.expression [.factor (.num 1), .factor (.num 2), .op '+'], 3)
    ∧ parse intOps [⟨.TK_OP, "-"⟩, ⟨.TK_PAREN_OPEN, "("⟩, ⟨.TK_NUM, "1"⟩, ⟨.TK_OP, "+"⟩,
          ⟨.TK_NUM, "2"⟩, ⟨.TK_PAREN_CLOSE, ")"⟩]
        = .ok (.expression [.factor (.negexprgrp
            (.expression [.factor (.num 1), .factor (.num 2), .op '+']))])
    ∧ parse intOps [⟨.TK_OP, "+"⟩, ⟨.TK_PAREN_OPEN, "("⟩, ⟨.TK_NUM, "1"⟩, ⟨.TK_OP, "+"⟩,
          ⟨.TK_NUM, "2"⟩, ⟨.TK_PAREN_CLOSE, ")"⟩]
        = .error (.runtime_error "expected value, got '+'")
    ∧ (⟨.TK_NUM, "3"⟩ : token).type ≠ .TK_ASSIGN
    ∧ parse intOps [⟨.TK_OP, "-"⟩, ⟨.TK_OP, "-"⟩, ⟨.TK_NUM, "3"⟩]
        = .error (.runtime_error "expected value, got '-'") :=
  ⟨rfl, ((sign_applies_to_literal_variable_or_minus_group intOps).1 "3" 3 rfl).1,
    rfl,
    (sign_applies_to_literal_variable_or_minus_group intOps).2.2.1
      [⟨.TK_NUM, "1"⟩, ⟨.TK_OP, "+"⟩, ⟨.TK_NUM, "2"⟩] _ 3 rfl,
    (sign_applies_to_literal_variable_or_minus_group intOps).2.2.2.1 _,
    by decide,
    (sign_applies_to_literal_variable_or_minus_group intOps).2.2.2.2 "-" "-"
      ⟨.TK_NUM, "3"⟩ [] (by decide)⟩

/-- Claim C17, as stated, fails: `- 3` and `( 1 + 2 )` are single terms that
parse, yet `- - 3` and `+ ( 1 + 2 )` do not parse. -/
theorem sign_before_signed_term_fails :
    (∃ N, parse intOps [⟨.TK_OP, "-"⟩, ⟨.TK_NUM, "3"⟩] = .ok N)
    ∧ scan "- - 3" = .ok [⟨.TK_OP, "-"⟩, ⟨.TK_OP, "-"⟩, ⟨.TK_NUM, "3"⟩]
    ∧ parse intOps [⟨.TK_OP, "-"⟩, ⟨.TK_OP, "-"⟩, ⟨.TK_NUM, "3"⟩]
        = .error (.runtime_error "expected value, got '-'")
    ∧ (∃ N, parse intOps [⟨.TK_PAREN_OPEN, "("⟩, ⟨.TK_NUM, "1"⟩, ⟨.TK_OP, "+"⟩,
          ⟨.TK_NUM, "2"⟩, ⟨.TK_PAREN_CLOSE, ")"⟩] = .ok N)
    ∧ scan "+ ( 1 + 2 )" = .ok [⟨.TK_OP, "+"⟩, ⟨.TK_PAREN_OPEN, "("⟩, ⟨.TK_NUM, "1"⟩,
          ⟨.TK_OP, "+"⟩, ⟨.TK_NUM, "2"⟩, ⟨.TK_PAREN_CLOSE, ")"⟩]
    ∧ parse intOps [⟨.TK_OP, "+"⟩, ⟨.TK_PAREN_OPEN, "("⟩, ⟨.TK_NUM, "1"⟩, ⟨.TK_OP, "+"⟩,
          ⟨.TK_NUM, "2"⟩, ⟨.TK_PAREN_CLOSE, ")"⟩]
        = .error (.runtime_error "expected value, got '+'") :=
  ⟨⟨_, rfl⟩, rfl, rfl, ⟨_, rfl⟩, rfl, rfl⟩

/-! ## The target of an assignment -/

theorem length_of_getElem? {α : Type} {l : List α} {i : Nat} {a : α} (h : l[i]? = some a) :
    i < l.length := by
  by_contra hc
  rw [List.getElem?_eq_none (Nat.le_of_not_lt hc)] at h
  cases h

/-- Claim C15. When token 1 is an assign token, or token 1 is an operator token
and token 2 an assign token, `parse` fails with "can't assign to" and the text
of token 0 if token 0 is no identifier, whatever follows; if token 0 is an
identifier, `parse` reads the tokens from position 2 (from 3 for the compound
form) as the right-hand expression and, when that succeeds, returns the
assignment (compound assignment, with the operator of token 1) to the name of
token 0. -/
theorem assignment_target_must_be_identifier {D : Type} (ops : DoubleOps D)
    (tks : List token) (t0 t1 : token) (h0 : tks[0]? = some t0) (h1 : tks[1]? = some t1) :
    (t1.type = .TK_ASSIGN →
      (t0.type ≠ .TK_IDENT →
        parse ops tks
          = (.error (.runtime_error ("can't assign to '" ++ t0.data ++ "'"))
              : Except Exn (node D)))
      ∧ (t0.type = .TK_IDENT →
        parse ops tks =
          if 2 < tks.length then
            match expression_ctor ops tks 2 false with
            | .error e => .error e
            | .ok (E, _) => .ok (.assignment t0.data E)
          else .error (.runtime_error "expected expression, got EOF")))
    ∧ (∀ t2 : token, t1.type = .TK_OP → tks[2]? = some t2 → t2.type = .TK_ASSIGN →
      (t0.type ≠ .TK_IDENT →
        parse ops tks
          = (.error (.runtime_error ("can't assign to '" ++ t0.data ++ "'"))
              : Except Exn (node D)))
      ∧ (t0.type = .TK_IDENT →
        parse ops tks =
          if 3 < tks.length then
            match expression_ctor ops tks 3 false with
            | .error e => .error e
            | .ok (E, _) => .ok (.assignment_op t0.data E (char0 t1.data))
          else .error (.runtime_error "expected expression, got EOF"))) := by
  have hl1 := length_of_getElem? h1
  constructor
  · intro ht1
    have hc : classify tks = .assignment := by
      simp [classify, hl1, h1, ht1]
    constructor
    · intro ht0
      simp [parse, hc, assignment_ctor, h0, ht0]
    · intro ht0
      simp only [parse, hc, assignment_ctor, h0, ht0, ne_eq, not_true_eq_false, if_false]
      split_ifs
      · cases expression_ctor ops tks 2 false with
        | error e => rfl
        | ok r => rfl
      · rfl
  · intro t2 ht1 h2 ht2
    have hl2 := length_of_getElem? h2
    have hc : classify tks = .assignment_op := by
      simp [classify, hl2, h1, ht1, h2, ht2]
    constructor
    · intro ht0
      simp [parse, hc, assignment_op_ctor, h0, h1, ht0]
    · intro ht0
      simp only [parse, hc, assignment_op_ctor, h0, h1, ht0, ne_eq, not_true_eq_false,
        if_false]
      split_ifs
      · cases expression_ctor ops tks 3 false with
        | error e => rfl
        | ok r => rfl
      · rfl

/-- The statements `3=4` and `3+=4` fail with "can't assign to '3'"; `x=4` is an
assignment to `x`. -/
theorem assignment_target_must_be_identifier_witness :
    scan "3=4" = .ok [⟨.TK_NUM, "3"⟩, ⟨.TK_ASSIGN, "="⟩, ⟨.TK_NUM, "4"⟩]
    ∧ parse intOps [⟨.TK_NUM, "3"⟩, ⟨.TK_ASSIGN, "="⟩, ⟨.TK_NUM, "4"⟩]
        = .error (.runtime_error "can't assign to '3'")
    ∧ parse intOps [⟨.TK_NUM, "3"⟩, ⟨.TK_OP, "+"⟩, ⟨.TK_ASSIGN, "="⟩, ⟨.TK_NUM, "4"⟩]
        = .error (.runtime_error "can't assign to '3'")
    ∧ parse intOps [⟨.TK_IDENT, "x"⟩, ⟨.TK_ASSIGN, "="⟩, ⟨.TK_NUM, "4"⟩]
        = .ok (.assignment "x" (.expression [.factor (.num 4)])) :=
  ⟨rfl,
    ((assignment_target_must_be_identifier intOps
      [⟨.TK_NUM, "3"⟩, ⟨.TK_ASSIGN, "="⟩, ⟨.TK_NUM, "4"⟩] _ _ rfl rfl).1 rfl).1 (by decide),
    ((assignment_target_must_be_identifier intOps
      [⟨.TK_NUM, "3"⟩, ⟨.TK_OP, "+"⟩, ⟨.TK_ASSIGN, "="⟩, ⟨.TK_NUM, "4"⟩] _ _ rfl rfl).2
        ⟨.TK_ASSIGN, "="⟩ rfl rfl rfl).1 (by decide),
    ((assignment_target_must_be_identifier intOps
      [⟨.TK_IDENT, "x"⟩, ⟨.TK_ASSIGN, "="⟩, ⟨.TK_NUM, "4"⟩] _ _ rfl rfl).1 rfl).2 rfl⟩

/-! ## The value stack of the evaluator -/

theorem undefined_variable_ne_internal (x : String) :
    undefined_variable x ≠ .runtime_error "internal error, invalid stack size" := by
  intro h
  unfold undefined_variable at h
  injection h with h
  have h2 := congrArg (fun s => s.data.take 1) h
  simp only [String.data_append, List.append_assoc] at h2
  revert h2
  change ¬ (List.take 1 ('u' :: _) = ['i'])
  simp

theorem expression_error_is_undefined_variable {D : Type} (ops : DoubleOps D)
    (n : node D) (hok : node_ok n = true) (m : Memory D) (e : Exn)
    (he : (get_value ops n m).1 = .error e) : ∃ x, e = undefined_variable x := by
  obtain ⟨-, h2⟩ := get_value_ok ops m n hok
  cases hf : first_undefined m (node_vars n) with
  | none =>
    rw [hf] at h2
    obtain ⟨v, hv⟩ := h2
    rw [hv] at he
    cases he
  | some x =>
    rw [hf] at h2
    simp only [] at h2
    rw [h2] at he
    injection he with he
    exact ⟨x, he.symm⟩

/-- Claim C19. For every token sequence that `parse` accepts, the entry sequence
of the parsed expression (the right-hand side, for an assignment) is a
well-formed reverse-Polish sequence: every operator entry finds at least two
values and exactly one value is left at the end, in negated groups too. Its
evaluation in any store neither reads an empty stack nor raises "internal
error, invalid stack size". -/
theorem value_stack_never_underflows {D : Type} (ops : DoubleOps D) (tks : List token)
    (N : node D) (m : Memory D) (hp : parse ops tks = .ok N) :
    (get_value ops N m).1 ≠ .error .undefined_behaviour
    ∧ (get_value ops N m).1 ≠ .error (.runtime_error "internal error, invalid stack size")
    ∧ ∃ E, (N = .expression E ∨ (∃ x, N = .assignment x (.expression E))
            ∨ (∃ x c, N = .assignment_op x (.expression E) c))
          ∧ rpn_depth E 0 = some 1 ∧ node_ok (node.expression E) = true := by
  have hbad : ∀ (m0 : Memory D) (n : node D), node_ok n = true →
      ∀ e, (get_value ops n m0).1 = .error e →
      e ≠ .undefined_behaviour ∧ e ≠ .runtime_error "internal error, invalid stack size" := by
    intro m0 n hn e he
    obtain ⟨x, rfl⟩ := expression_error_is_undefined_variable ops n hn m0 e he
    exact ⟨by simp [undefined_variable], undefined_variable_ne_internal x⟩
  have hdepth : ∀ E : List (expr_data D), node_ok (node.expression E) = true →
      rpn_depth E 0 = some 1 := by
    intro E h
    simpa [node_ok] using h
  rcases parse_shape ops tks N hp with ⟨-, j, h1⟩ | ⟨-, t0, E, j, -, h1, rfl⟩
    | ⟨-, t0, t1, E, j, -, -, h1, rfl⟩
  · obtain ⟨E, rfl, -, hok, -⟩ := expression_ctor_ok ops tks 0 false N j h1
    refine ⟨fun h => (hbad m _ hok _ h).1 rfl, fun h => (hbad m _ hok _ h).2 rfl,
      E, Or.inl rfl, hdepth E hok, hok⟩
  · obtain ⟨E', rfl, -, hok, -⟩ := expression_ctor_ok ops tks 2 false E j h1
    have key : ∀ e, (get_value ops (.assignment t0.data (.expression E')) m).1 = .error e →
        (get_value ops (.expression E')
          (if ops.target_first then m.subscript t0.data ops.zero else m)).1 = .error e := by
      intro e he
      rw [get_value_assignment] at he
      obtain ⟨r, m', hr⟩ : ∃ r m', get_value ops (.expression E')
          (if ops.target_first then m.subscript t0.data ops.zero else m) = (r, m') :=
        ⟨_, _, rfl⟩
      rw [hr] at he ⊢
      cases r with
      | error err => exact he
      | ok v => cases he
    refine ⟨fun h => (hbad _ _ hok _ (key _ h)).1 rfl,
      fun h => (hbad _ _ hok _ (key _ h)).2 rfl,
      E', Or.inr (Or.inl ⟨_, rfl⟩), hdepth E' hok, hok⟩
  · obtain ⟨E', rfl, -, hok, -⟩ := expression_ctor_ok ops tks 3 false E j h1
    have key : ∀ e, (get_value ops
          (.assignment_op t0.data (.expression E') (char0 t1.data)) m).1 = .error e →
        e ≠ .undefined_behaviour
          ∧ e ≠ .runtime_error "internal error, invalid stack size" := by
      intro e he
      rw [get_value_assignment_op] at he
      cases hm : m t0.data with
      | none =>
        rw [hm] at he
        injection he with he
        subst he
        exact ⟨by simp, undefined_variable_ne_internal t0.data⟩
      | some lhs =>
        rw [hm] at he
        obtain ⟨r, m', hr⟩ : ∃ r m', get_value ops (.expression E') m = (r, m') :=
          ⟨_, _, rfl⟩
        rw [hr] at he
        cases r with
        | error err =>
          have h2 : (get_value ops (.expression E') m).1 = .error e := by
            rw [hr]
            exact he
          exact hbad m _ hok _ h2
        | ok v =>
          change (match operate ops lhs v (char0 t1.data) with
            | .error err => (Except.error err, m')
            | .ok w => (.ok w, m'.set t0.data w)).1 = Except.error e at he
          cases ho : operate ops lhs v (char0 t1.data) with
          | ok w => rw [ho] at he; cases he
          | error err =>
            rw [ho] at he
            injection he with he
            subst he
            unfold operate at ho
            split_ifs at ho
            injection ho with ho
            subst ho
            exact ⟨by simp, by decide⟩
    refine ⟨fun h => (key _ h).1 rfl, fun h => (key _ h).2 rfl,
      E', Or.inr (Or.inr ⟨_, _, rfl⟩), hdepth E' hok, hok⟩

/-- The statement `-(1+2)*-x` with `x` stored evaluates with no stack failure. -/
theorem value_stack_never_underflows_witness :
    scan "-(1+2)*-x" = .ok [⟨.TK_OP, "-"⟩, ⟨.TK_PAREN_OPEN, "("⟩, ⟨.TK_NUM, "1"⟩,
        ⟨.TK_OP, "+"⟩, ⟨.TK_NUM, "2"⟩, ⟨.TK_PAREN_CLOSE, ")"⟩, ⟨.TK_OP, "*"⟩, ⟨.TK_OP, "-"⟩,
        ⟨.TK_IDENT, "x"⟩]
    ∧ parse intOps [⟨.TK_OP, "-"⟩, ⟨.TK_PAREN_OPEN, "("⟩, ⟨.TK_NUM, "1"⟩,
        ⟨.TK_OP, "+"⟩, ⟨.TK_NUM, "2"⟩, ⟨.TK_PAREN_CLOSE, ")"⟩, ⟨.TK_OP, "*"⟩, ⟨.TK_OP, "-"⟩,
        ⟨.TK_IDENT, "x"⟩]
      = .ok (.expression [.factor (.negexprgrp
          (.expression [.factor (.num 1), .factor (.num 2), .op '+'])),
          .factor (.var "x" true), .op '*'])
    ∧ (get_value intOps (.expression [.factor (.negexprgrp
          (.expression [.factor (.num 1), .factor (.num 2), .op '+'])),
          .factor (.var "x" true), .op '*']) ((emptyMemory Int).set "x" 5)).1
        ≠ .error (.runtime_error "internal error, invalid stack size") :=
  ⟨rfl, rfl,
    (value_stack_never_underflows intOps
      [⟨.TK_OP, "-"⟩, ⟨.TK_PAREN_OPEN, "("⟩, ⟨.TK_NUM, "1"⟩,
        ⟨.TK_OP, "+"⟩, ⟨.TK_NUM, "2"⟩, ⟨.TK_PAREN_CLOSE, ")"⟩, ⟨.TK_OP, "*"⟩, ⟨.TK_OP, "-"⟩,
        ⟨.TK_IDENT, "x"⟩]
      (.expression [.factor (.negexprgrp
          (.expression [.factor (.num 1), .factor (.num 2), .op '+'])),
          .factor (.var "x" true), .op '*'])
      ((emptyMemory Int).set "x" 5) rfl).2.1⟩

/-! ## A group that is never closed -/

theorem op_step_unclosed {D : Type} {A B : List token} {d : Nat}
    (hag : Agree A B d) (hend : B[A.length + d]? = none) (op_stack : List Char)
    (expr : List (expr_data D)) (i' : Nat) (hi : i' < A.length) :
    match op_step A false op_stack expr i' with
    | .fail _ => True
    | .done _ => op_step B true op_stack expr (i' + d)
        = .fail (.runtime_error "expected ')', got EOF")
    | .next os e => op_step B true op_stack expr (i' + d) = .next os e := by
  unfold op_step
  cases hA : A[i' + 1]? with
  | some t =>
    have hi1 : i' + 1 < A.length := length_of_getElem? hA
    have hB : B[i' + d + 1]? = some t := by
      rw [Nat.add_right_comm, hag (i' + 1) hi1, hA]
    simp only [hB]
    by_cases c1 : t.type = .TK_OP
    · simp only [c1, if_true]
      cases operator_precedence (char0 t.data) with
      | error e => trivial
      | ok pr =>
        simp only []
        cases shunt pr op_stack expr with
        | error e => trivial
        | ok r => rfl
    · simp [c1]
  | none =>
    have hlen : i' + 1 = A.length := by
      have h := List.getElem?_eq_none_iff.mp hA
      omega
    have hB : B[i' + d + 1]? = none := by
      have hidx : i' + d + 1 = A.length + d := by omega
      rw [hidx, hend]
    simp only [hB, Bool.false_eq_true, if_false, if_true]
    split_ifs
    · trivial
    · trivial

/-- A run of `read_expr` that succeeds at top level on `A` fails with "expected
')', got EOF" when it is made inside a group on a sequence that holds the
tokens of `A` and ends where `A` ends. -/
theorem read_expr_unclosed {D : Type} (ops : DoubleOps D) {A B : List token} {d : Nat}
    (hag : Agree A B d) (hend : B[A.length + d]? = none) :
    ∀ (f f' : Nat) (op_stack : List Char) (expr : List (expr_data D)) (i : Nat)
      (E : List (expr_data D)) (j : Nat), f ≤ f' →
      read_expr ops A f false op_stack expr i = .ok (E, j) →
      read_expr ops B f' true op_stack expr (i + d)
        = .error (.runtime_error "expected ')', got EOF") := by
  intro f
  induction f with
  | zero =>
    intro f' op_stack expr i E j _ h
    rw [read_expr_zero] at h
    cases h
  | succ f ih =>
    intro f' op_stack expr i E j hf h
    obtain ⟨g, rfl⟩ : ∃ g, f' = g + 1 := ⟨f' - 1, by omega⟩
    have hfg : f ≤ g := by omega
    have hres : ∀ (ex : List (expr_data D)) (i' : Nat), i' < A.length →
        resume ops A f false op_stack ex i' = .ok (E, j) →
        resume ops B g true op_stack ex (i' + d)
          = .error (.runtime_error "expected ')', got EOF") := by
      intro ex i' hi' hr
      have hs := op_step_unclosed hag hend op_stack ex i' hi'
      unfold resume at hr ⊢
      cases ho : op_step A false op_stack ex i' with
      | fail e => rw [ho] at hr; cases hr
      | done e =>
        rw [ho] at hs
        simp only [] at hs
        rw [hs]
      | next os e =>
        rw [ho] at hr hs
        simp only [] at hr hs
        rw [hs]
        simp only []
        have := ih g os e (i' + 1 + 1) E j hfg hr
        have hidx : i' + 1 + 1 + d = i' + d + 1 + 1 := by omega
        rw [hidx] at this
        exact this
    rw [read_expr_succ] at h ⊢
    have hv := value_step_embed ops hag i
    cases hvs : value_step ops A i with
    | fail e => rw [hvs] at h; cases h
    | leaf f0 i' =>
      rw [hvs] at h hv
      simp only [] at h hv
      rw [hv.2]
      exact hres _ _ hv.1 h
    | group =>
      rw [hvs] at h hv
      simp only [] at h hv
      rw [hv.2]
      simp only []
      cases hin : read_expr ops A f true [] expr (i + 1) with
      | error e => rw [hin] at h; cases h
      | ok r =>
        obtain ⟨ex1, j1⟩ := r
        rw [hin] at h
        simp only [] at h
        have hI := read_expr_embed ops hag f g true true [] expr (i + 1) ex1 j1 EndOK_group
          hfg hin
        have hidx : i + 1 + d = i + d + 1 := by omega
        rw [hidx] at hI
        rw [hI.1]
        exact hres _ _ (hI.2.2.1 rfl) h
    | neggroup =>
      rw [hvs] at h hv
      simp only [] at h hv
      rw [hv.2]
      simp only []
      cases hin : read_expr ops A f true [] [] (i + 1 + 1) with
      | error e => rw [hin] at h; cases h
      | ok r =>
        obtain ⟨ex1, j1⟩ := r
        rw [hin] at h
        simp only [] at h
        have hI := read_expr_embed ops hag f g true true [] [] (i + 1 + 1) ex1 j1 EndOK_group
          hfg hin
        have hidx : i + 1 + 1 + d = i + d + 1 + 1 := by omega
        rw [hidx] at hI
        rw [hI.1]
        exact hres _ _ (hI.2.2.1 rfl) h

/-- The first tokens of a sequence that `read_expr` can start on: token 0 is no
assign token, and when it is an operator, token 1 is no assign token. -/
theorem value_step_first_tokens {D : Type} (ops : DoubleOps D) (ts : List token)
    (h : ∀ e, value_step ops ts 0 ≠ (.fail e : ValueStep D)) :
    ∃ t0, ts[0]? = some t0 ∧ t0.type ≠ .TK_ASSIGN
      ∧ (t0.type = .TK_OP → ∃ t1, ts[1]? = some t1 ∧ t1.type ≠ .TK_ASSIGN) := by
  unfold value_step at h
  cases h0 : ts[0]? with
  | none =>
    rw [h0] at h
    exact absurd rfl (h _)
  | some t0 =>
    rw [h0] at h
    simp only [] at h
    refine ⟨t0, rfl, ?_, ?_⟩
    · intro ht
      rw [ht] at h
      exact absurd rfl (h _)
    · intro ht
      rw [ht] at h
      simp only [] at h
      cases h1 : ts[0 + 1]? with
      | none =>
        rw [h1] at h
        exact absurd rfl (h _)
      | some t1 =>
        rw [h1] at h
        simp only [] at h
        refine ⟨t1, rfl, ?_⟩
        intro ht1
        simp only [ht1] at h
        exact absurd rfl (h _)

theorem classify_after_token {D : Type} (ops : DoubleOps D) (ts : List token)
    (E : List (expr_data D)) (j : Nat) (f : Nat)
    (hr : read_expr ops ts f false [] [] 0 = .ok (E, j)) (t : token) :
    classify (t :: ts) = .expression := by
  have hv : ∀ e, value_step ops ts 0 ≠ (.fail e : ValueStep D) := by
    intro e he
    cases f with
    | zero => rw [read_expr_zero] at hr; cases hr
    | succ f =>
      rw [read_expr_succ, he] at hr
      cases hr
  obtain ⟨t0, h0, hne, h1⟩ := value_step_first_tokens ops ts hv
  unfold classify
  have e1 : (t :: ts)[1]? = some t0 := by simpa using h0
  rw [e1]
  by_cases hop : t0.type = .TK_OP
  · obtain ⟨t1, h1', hne1⟩ := h1 hop
    have e2 : (t :: ts)[2]? = some t1 := by simpa using h1'
    rw [e2]
    simp [hne, hne1]
  · simp [hne, hop]

/-- Claim C14. When the tokens `ts` parse as a top-level expression, the tokens
of `( ts`, a group that the end of input leaves open, fail to parse with the
error "expected ')', got EOF". -/
theorem unterminated_group_fails {D : Type} (ops : DoubleOps D) (ts : List token)
    (N : node D) (j : Nat) (hp : expression_ctor ops ts 0 false = .ok (N, j)) :
    parse ops (⟨.TK_PAREN_OPEN, "("⟩ :: ts)
      = .error (.runtime_error "expected ')', got EOF")
    ∧ ∀ m : Memory D, interpret_tokens ops (⟨.TK_PAREN_OPEN, "("⟩ :: ts) m
      = (.error (.runtime_error "expected ')', got EOF"), m) := by
  obtain ⟨E, rfl, hr, -, -⟩ := expression_ctor_ok ops ts 0 false N j hp
  have hag : Agree ts (⟨.TK_PAREN_OPEN, "("⟩ :: ts) 1 := by
    have := agree_append [⟨.TK_PAREN_OPEN, "("⟩] ts []
    simpa using this
  have hend : (⟨.TK_PAREN_OPEN, "("⟩ :: ts : List token)[ts.length + 1]? = none := by
    apply List.getElem?_eq_none
    simp
  have hin := read_expr_unclosed ops hag hend (ts.length + 1) (ts.length + 1) [] [] 0 E j
    (Nat.le_refl _) hr
  have hc := classify_after_token ops ts E j _ hr ⟨.TK_PAREN_OPEN, "("⟩
  have hv : value_step ops (⟨.TK_PAREN_OPEN, "("⟩ :: ts) 0 = (.group : ValueStep D) := by
    simp [value_step]
  have hparse : parse ops (⟨.TK_PAREN_OPEN, "("⟩ :: ts)
      = .error (.runtime_error "expected ')', got EOF") := by
    unfold parse
    rw [hc]
    simp only [expression_ctor, List.length_cons]
    rw [read_expr_succ, hv]
    simp only [Nat.zero_add] at hin ⊢
    rw [hin]
  refine ⟨hparse, fun m => ?_⟩
  unfold interpret_tokens
  rw [hparse]

/-- The statement `(1+2` fails as an unterminated group. -/
theorem unterminated_group_fails_witness :
    expression_ctor intOps [⟨.TK_NUM, "1"⟩, ⟨.TK_OP, "+"⟩, ⟨.TK_NUM, "2"⟩] 0 false
      = .ok (.expression [.factor (.num 1), .factor (.num 2), .op '+'], 3)
    ∧ scan "(1+2" = .ok [⟨.TK_PAREN_OPEN, "("⟩, ⟨.TK_NUM, "1"⟩, ⟨.TK_OP, "+"⟩, ⟨.TK_NUM, "2"⟩]
    ∧ parse intOps [⟨.TK_PAREN_OPEN, "("⟩, ⟨.TK_NUM, "1"⟩, ⟨.TK_OP, "+"⟩, ⟨.TK_NUM, "2"⟩]
      = .error (.runtime_error "expected ')', got EOF") :=
  ⟨rfl, rfl, (unterminated_group_fails intOps
    [⟨.TK_NUM, "1"⟩, ⟨.TK_OP, "+"⟩, ⟨.TK_NUM, "2"⟩] _ 3 rfl).1⟩

/-! ## Runs that start with a digit -/

theorem scan_eq_scan_from (s : String) : scan s = scan_from s.data false "" [] := by
  unfold scan scan_from
  cases scan_loop s.data false "" [] with
  | error e => rfl
  | ok st => rfl

theorem is_num_loop_eq (cs : List Char) :
    ∀ dot : Bool, is_num_loop cs dot
      = (cs.all (fun c => is_digit c || c == '.')
          && decide (cs.count '.' + (if dot then 1 else 0) ≤ 1)) := by
  induction cs with
  | nil => intro dot; cases dot <;> rfl
  | cons c cs ih =>
    intro dot
    by_cases hc : c = '.'
    · subst hc
      cases dot with
      | false =>
        simp only [is_num_loop, and_self, if_true, ih]
        simp [Nat.add_comm]
      | true =>
        have h1 : ('.' : Char) < '0' := by decide
        simp [is_num_loop, h1]
    · have hd : (c < '0' ∨ c > '9') ↔ is_digit c = false := by
        simp only [is_digit, decide_eq_false_iff_not, not_and_or, not_le, gt_iff_lt]
      by_cases h2 : c < '0' ∨ c > '9'
      · have h3 := hd.mp h2
        simp [is_num_loop, hc, h2, h3]
      · have h3 : is_digit c = true := by
          cases h : is_digit c with
          | true => rfl
          | false => exact absurd (hd.mpr h) h2
        have hne : ¬ (('.' : Char) = c) := fun h => hc h.symm
        simp [is_num_loop, hc, h2, h3, ih, List.count_cons, hne]

theorem is_num_eq (r : List Char) : is_num ⟨r⟩ = digits_one_dot r := by
  unfold is_num digits_one_dot
  rw [is_num_loop_eq]
  simp

theorem is_ident_cons (c : Char) (cs : List Char) :
    is_ident ⟨c :: cs⟩ = !is_digit c := by
  have h0 : char0 ⟨c :: cs⟩ = c := rfl
  unfold is_ident
  rw [h0]
  by_cases h : c ≥ '0' ∧ c ≤ '9'
  · have hd : is_digit c = true := by simpa [is_digit] using h
    simp [h, hd]
  · have hd : is_digit c = false := by simpa [is_digit] using h
    simp only [h, if_false, is_ident_loop_true, hd, Bool.not_false]

theorem commit_run (c : Char) (cs : List Char) (tks : List token) :
    (bad_number_run (c :: cs) = true →
      commit true ⟨c :: cs⟩ tks
        = .error (.runtime_error ("unexpected '" ++ (⟨c :: cs⟩ : String) ++ "'")))
    ∧ (bad_number_run (c :: cs) = false →
      ∃ tok, commit true ⟨c :: cs⟩ tks = .ok (false, "", tks ++ [tok])) := by
  have hid := is_ident_cons c cs
  have hnum := is_num_eq (c :: cs)
  unfold commit
  simp only [if_true, hid, hnum]
  unfold bad_number_run
  simp only []
  cases h1 : digits_one_dot (c :: cs) with
  | true => simp
  | false =>
    cases h2 : is_digit c with
    | true => simp
    | false => simp

theorem scan_loop_plain (c : Char) (cs : List Char) (reading : Bool) (tmp : String)
    (tks : List token) (hc : is_delim c = false) :
    scan_loop (c :: cs) reading tmp tks = scan_loop cs true (tmp.push c) tks := by
  simp only [is_delim, Bool.or_eq_false_iff, beq_eq_false_iff_ne, ne_eq] at hc
  obtain ⟨h1, h2, h3, h4, h5⟩ := hc
  simp [scan_loop, h1, h2, h3, h4, h5]

theorem scan_loop_delim (c : Char) (hc : is_delim c = true) :
    ∃ extra : List token, ∀ (cs : List Char) (reading : Bool) (tmp : String)
      (tks : List token),
      scan_loop (c :: cs) reading tmp tks =
        match commit reading tmp tks with
        | .error e => .error e
        | .ok (reading, tmp, tks) => scan_loop cs reading tmp (tks ++ extra) := by
  by_cases h1 : is_separator c = true
  · refine ⟨[], fun cs reading tmp tks => ?_⟩
    simp only [scan_loop, h1, if_true, List.append_nil]
  by_cases h2 : c = '('
  · refine ⟨[⟨.TK_PAREN_OPEN, String.singleton c⟩], fun cs reading tmp tks => ?_⟩
    simp only [scan_loop, h1, h2, if_true, if_false]
    rfl
  by_cases h3 : c = ')'
  · refine ⟨[⟨.TK_PAREN_CLOSE, String.singleton c⟩], fun cs reading tmp tks => ?_⟩
    simp only [scan_loop, h1, h2, h3, if_true, if_false]
    rfl
  by_cases h4 : c = '='
  · refine ⟨[⟨.TK_ASSIGN, String.singleton c⟩], fun cs reading tmp tks => ?_⟩
    simp only [scan_loop, h1, h2, h3, h4, if_true, if_false]
    rfl
  by_cases h5 : is_op c = true
  · refine ⟨[⟨.TK_OP, String.singleton c⟩], fun cs reading tmp tks => ?_⟩
    simp [scan_loop, h1, h2, h3, h4, h5]
  · exfalso
    simp [is_delim, h1, h2, h3, h4, h5] at hc

/-- The scan of the rest of a text, with the run `cur` in the buffer, fails on the
first bad run and succeeds when there is none. -/
theorem scan_loop_runs (cs : List Char) :
    ∀ (cur : List Char) (tks : List token),
      (∀ run, (buffered_runs_from cs cur).find? bad_number_run = some run →
        scan_from cs (decide (cur ≠ [])) ⟨cur⟩ tks
          = .error (.runtime_error ("unexpected '" ++ (⟨run⟩ : String) ++ "'")))
      ∧ ((buffered_runs_from cs cur).find? bad_number_run = none →
        ∃ out, scan_from cs (decide (cur ≠ [])) ⟨cur⟩ tks = .ok out) := by
  unfold scan_from
  induction cs with
  | nil =>
    intro cur tks
    cases cur with
    | nil =>
      constructor
      · intro run h
        simp [buffered_runs_from] at h
      · intro _
        exact ⟨tks, rfl⟩
    | cons c cur =>
      obtain ⟨hb, hg⟩ := commit_run c cur tks
      have hlen : (⟨c :: cur⟩ : String).length > 0 := by
        show (c :: cur).length > 0
        simp
      cases hbad : bad_number_run (c :: cur) with
      | true =>
        constructor
        · intro run h
          simp [buffered_runs_from, hbad] at h
          subst h
          simp only [scan_loop, scan_end, hlen, if_true, ne_eq, reduceCtorEq,
            not_false_eq_true, decide_True, hb hbad]
        · intro h
          simp [buffered_runs_from, hbad] at h
      | false =>
        constructor
        · intro run h
          simp [buffered_runs_from, hbad] at h
        · intro _
          obtain ⟨tok, htok⟩ := hg hbad
          refine ⟨tks ++ [tok], ?_⟩
          simp only [scan_loop, scan_end, hlen, if_true, ne_eq, reduceCtorEq,
            not_false_eq_true, decide_True, htok]
  | cons c cs ih =>
    intro cur tks
    cases hc : is_delim c with
    | false =>
      rw [scan_loop_plain c cs _ _ tks hc]
      have hpush : (⟨cur⟩ : String).push c = ⟨cur ++ [c]⟩ := rfl
      have hne : decide (cur ++ [c] ≠ []) = true := by simp
      have := ih (cur ++ [c]) tks
      unfold scan_from at this
      rw [hne] at this
      simpa only [buffered_runs_from, hc, hpush, Bool.false_eq_true, if_false] using this
    | true =>
      obtain ⟨extra, hex⟩ := scan_loop_delim c hc
      rw [hex]
      cases cur with
      | nil =>
        have := ih [] (tks ++ extra)
        unfold scan_from at this
        have hcm : commit (decide (([] : List Char) ≠ [])) ⟨[]⟩ tks
            = .ok (false, ⟨[]⟩, tks) := rfl
        rw [hcm]
        simpa only [buffered_runs_from, hc, if_true] using this
      | cons c0 cur =>
        obtain ⟨hb, hg⟩ := commit_run c0 cur tks
        have hdec : decide (c0 :: cur ≠ []) = true := by simp
        rw [hdec]
        cases hbad : bad_number_run (c0 :: cur) with
        | true =>
          rw [hb hbad]
          constructor
          · intro run h
            simp [buffered_runs_from, hc, hbad] at h
            subst h
            rfl
          · intro h
            simp [buffered_runs_from, hc, hbad] at h
        | false =>
          obtain ⟨tok, htok⟩ := hg hbad
          rw [htok]
          have := ih [] (tks ++ [tok] ++ extra)
          unfold scan_from at this
          simpa [buffered_runs_from, hc, hbad] using this

/-- Claim C11, as the code has it. A text with a buffered run that starts with a
digit and is not made only of digits with at most one `.` fails to scan, with
the "unexpected" error naming the first such run of the text; a text with no
such run scans to a token sequence. -/
theorem scan_fails_on_first_bad_run (s : String) :
    match (buffered_runs s).find? bad_number_run with
    | some run => scan s = .error (.runtime_error ("unexpected '" ++ (⟨run⟩ : String) ++ "'"))
    | none => ∃ tks, scan s = .ok tks := by
  have h := scan_loop_runs s.data [] []
  rw [scan_eq_scan_from]
  unfold buffered_runs
  cases hf : (buffered_runs_from s.data []).find? bad_number_run with
  | some run => exact h.1 run hf
  | none => exact h.2 hf

/-- The text `1.2.3` fails lexically, as does `x = 12a + 1`. -/
theorem scan_fails_on_first_bad_run_witness :
    (buffered_runs "1.2.3").find? bad_number_run = some "1.2.3".data
    ∧ scan "1.2.3" = .error (.runtime_error "unexpected '1.2.3'")
    ∧ (buffered_runs "x = 12a + 1").find? bad_number_run = some "12a".data
    ∧ scan "x = 12a + 1" = .error (.runtime_error "unexpected '12a'") :=
  ⟨rfl, scan_fails_on_first_bad_run "1.2.3", rfl, scan_fails_on_first_bad_run "x = 12a + 1"⟩

/-- Claim C11, as stated, fails: `2b` is a buffered run of the text `1a 2b` that
starts with a digit and is no number, yet the error of the scan names `1a`. -/
theorem scan_does_not_name_a_later_bad_run :
    buffered_runs "1a 2b" = ["1a".data, "2b".data]
    ∧ bad_number_run "2b".data = true
    ∧ scan "1a 2b" = .error (.runtime_error "unexpected '1a'")
    ∧ scan "1a 2b" ≠ .error (.runtime_error "unexpected '2b'") := by
  refine ⟨rfl, rfl, rfl, ?_⟩
  intro h
  have h2 : (Except.error (.runtime_error "unexpected '1a'") : Except Exn (List token))
      = .error (.runtime_error "unexpected '2b'") := h
  injection h2 with h3
  exact absurd h3 (by decide)

/-! ## Evaluation, entry by entry -/

theorem get_value_loop_eq {D : Type} (ops : DoubleOps D) :
    ∀ (xs : List (expr_data D)) (stack : List D) (m : Memory D),
      get_value_loop ops xs stack m = stack_result (run_entries ops xs stack m) := by
  intro xs
  induction xs with
  | nil =>
    intro stack m
    match stack with
    | [] => simp [get_value_loop, run_entries, stack_result]
    | [v] => simp [get_value_loop, run_entries, stack_result]
    | _ :: _ :: _ => simp [get_value_loop, run_entries, stack_result]
  | cons x xs ih =>
    intro stack m
    cases x with
    | op c =>
      match stack with
      | [] => simp [get_value_loop, run_entries, stack_result]
      | [v] => simp [get_value_loop, run_entries, stack_result]
      | rhs :: lhs :: st =>
        rw [get_value_loop]
        simp only [run_entries]
        cases operate ops lhs rhs c with
        | error e => rfl
        | ok v => exact ih _ _
    | factor f =>
      rw [get_value_loop]
      simp only [run_entries]
      obtain ⟨r, m', hr⟩ : ∃ r m', get_value ops f m = (r, m') := ⟨_, _, rfl⟩
      rw [hr]
      cases r with
      | error e => rfl
      | ok v => exact ih _ _

theorem run_entries_append {D : Type} (ops : DoubleOps D) (ys : List (expr_data D)) :
    ∀ (xs : List (expr_data D)) (stack : List D) (m : Memory D),
      run_entries ops (xs ++ ys) stack m =
        match run_entries ops xs stack m with
        | (.error e, m') => (.error e, m')
        | (.ok st, m') => run_entries ops ys st m' := by
  intro xs
  induction xs with
  | nil => intro stack m; rfl
  | cons x xs ih =>
    intro stack m
    cases x with
    | op c =>
      simp only [List.cons_append, run_entries]
      match stack with
      | [] => rfl
      | [v] => rfl
      | rhs :: lhs :: st =>
        simp only []
        cases operate ops lhs rhs c with
        | error e => rfl
        | ok v => exact ih _ _
    | factor f =>
      simp only [List.cons_append, run_entries]
      obtain ⟨r, m', hr⟩ : ∃ r m', get_value ops f m = (r, m') := ⟨_, _, rfl⟩
      rw [hr]
      cases r with
      | error e => rfl
      | ok v => exact ih _ _

/-- Entries that are well-formed over the stack `st1` do not touch what lies
under it. -/
theorem run_entries_frame {D : Type} (ops : DoubleOps D) (st2 : List D) :
    ∀ (xs : List (expr_data D)) (st1 : List D) (m : Memory D) (k : Nat),
      rpn_depth xs st1.length = some k →
      run_entries ops xs (st1 ++ st2) m =
        match run_entries ops xs st1 m with
        | (.error e, m') => (.error e, m')
        | (.ok s, m') => (.ok (s ++ st2), m') := by
  intro xs
  induction xs with
  | nil => intro st1 m k _; rfl
  | cons x xs ih =>
    intro st1 m k h
    cases x with
    | op c =>
      simp only [rpn_depth] at h
      by_cases hc : is_op c = true ∧ 2 ≤ st1.length
      · simp only [hc, and_self, if_true] at h
        match st1, hc, h with
        | rhs :: lhs :: st, hc, h =>
          simp only [List.cons_append, run_entries]
          cases operate ops lhs rhs c with
          | error e => rfl
          | ok v => exact ih (v :: st) m k (by simpa using h)
      · simp only [hc, if_false] at h
        cases h
    | factor f =>
      simp only [rpn_depth] at h
      by_cases hf : node_ok f = true
      · simp only [hf, if_true] at h
        simp only [run_entries]
        obtain ⟨r, m', hr⟩ : ∃ r m', get_value ops f m = (r, m') := ⟨_, _, rfl⟩
        rw [hr]
        cases r with
        | error e => rfl
        | ok v => exact ih (v :: st1) m' k (by simpa using h)
      · simp only [hf, if_false] at h
        cases h

theorem run_entries_length {D : Type} (ops : DoubleOps D) :
    ∀ (xs : List (expr_data D)) (st : List D) (m : Memory D) (k : Nat) (s : List D)
      (m' : Memory D), rpn_depth xs st.length = some k →
      run_entries ops xs st m = (.ok s, m') → s.length = k := by
  intro xs
  induction xs with
  | nil =>
    intro st m k s m' h hr
    simp only [rpn_depth, Option.some.injEq] at h
    simp only [run_entries, Prod.mk.injEq, Except.ok.injEq] at hr
    rw [← hr.1, h]
  | cons x xs ih =>
    intro st m k s m' h hr
    cases x with
    | op c =>
      simp only [rpn_depth] at h
      by_cases hc : is_op c = true ∧ 2 ≤ st.length
      · simp only [hc, and_self, if_true] at h
        match st, hc, h with
        | rhs :: lhs :: st', hc, h =>
          simp only [run_entries] at hr
          cases ho : operate ops lhs rhs c with
          | error e => rw [ho] at hr; cases hr
          | ok v =>
            rw [ho] at hr
            exact ih (v :: st') m k s m' (by simpa using h) hr
      · simp only [hc, if_false] at h
        cases h
    | factor f =>
      simp only [rpn_depth] at h
      by_cases hf : node_ok f = true
      · simp only [hf, if_true] at h
        simp only [run_entries] at hr
        obtain ⟨r, m1, hg⟩ : ∃ r m1, get_value ops f m = (r, m1) := ⟨_, _, rfl⟩
        rw [hg] at hr
        cases r with
        | error e => cases hr
        | ok v => exact ih (v :: st) m1 k s m' (by simpa using h) hr
      · simp only [hf, if_false] at h
        cases h

/-- The value stack after a well-formed expression: its value alone, or its
exception; the store is as it was. -/
theorem run_entries_expression {D : Type} (ops : DoubleOps D) (E : List (expr_data D))
    (hok : node_ok (node.expression E) = true) (m : Memory D) :
    run_entries ops E [] m =
      (match (get_value ops (.expression E) m).1 with
        | .ok v => .ok [v]
        | .error e => .error e, m) := by
  have hd : rpn_depth E ([] : List D).length = some 1 := by simpa [node_ok] using hok
  have h1 := (get_value_ok ops m _ hok).1
  have h2 : get_value ops (.expression E) m = stack_result (run_entries ops E [] m) := by
    rw [get_value]
    exact get_value_loop_eq ops E [] m
  obtain ⟨r, m', hr⟩ : ∃ r m', run_entries ops E [] m = (r, m') := ⟨_, _, rfl⟩
  rw [h2, hr] at h1
  rw [h2, hr]
  cases r with
  | error e =>
    change m' = m at h1
    subst h1
    rfl
  | ok s =>
    have hl := run_entries_length ops E [] m 1 s m' hd hr
    match s, hl with
    | [v], _ =>
      change m' = m at h1
      subst h1
      rfl

/-! ## Entries already in `expr` -/

theorem shunt_prepend {D : Type} (pr : Int) (ex0 : List (expr_data D)) :
    ∀ (os : List Char) (ex : List (expr_data D)) (os' : List Char)
      (ex' : List (expr_data D)),
      shunt pr os ex = .ok (os', ex') → shunt pr os (ex0 ++ ex) = .ok (os', ex0 ++ ex') := by
  intro os
  induction os with
  | nil =>
    intro ex os' ex' h
    simp only [shunt, Except.ok.injEq, Prod.mk.injEq] at h ⊢
    exact ⟨h.1, by rw [h.2]⟩
  | cons c os ih =>
    intro ex os' ex' h
    simp only [shunt] at h ⊢
    cases hp : operator_precedence c with
    | error e => rw [hp] at h; cases h
    | ok p =>
      rw [hp] at h
      simp only [] at h ⊢
      by_cases hge : p ≥ pr
      · simp only [hge, if_true] at h ⊢
        have := ih _ _ _ h
        rwa [← List.append_assoc] at this
      · simp only [hge, if_false, Except.ok.injEq, Prod.mk.injEq] at h ⊢
        exact ⟨h.1, by rw [h.2]⟩

theorem flush_prepend {D : Type} (ex0 : List (expr_data D)) :
    ∀ (os : List Char) (ex : List (expr_data D)),
      flush os (ex0 ++ ex) = ex0 ++ flush os ex := by
  intro os
  induction os with
  | nil => intro ex; rfl
  | cons c os ih =>
    intro ex
    simp only [flush]
    rw [List.append_assoc, ih]

theorem op_step_prepend {D : Type} (tks : List token) (p : Bool) (os : List Char)
    (ex0 ex : List (expr_data D)) (i' : Nat) :
    match op_step tks p os ex i' with
    | .fail _ => True
    | .done e => op_step tks p os (ex0 ++ ex) i' = .done (ex0 ++ e)
    | .next os' e => op_step tks p os (ex0 ++ ex) i' = .next os' (ex0 ++ e) := by
  have hfl := flush_prepend ex0 os ex
  have hlen : (flush os ex).length ≠ 0 → ¬ ((ex0 ++ flush os ex).length = 0) := by
    intro h
    rw [List.length_append]
    omega
  unfold op_step
  cases tks[i' + 1]? with
  | some t =>
    simp only []
    by_cases c1 : t.type = .TK_OP
    · simp only [c1, if_true]
      cases operator_precedence (char0 t.data) with
      | error e => trivial
      | ok pr =>
        simp only []
        cases hs : shunt pr os ex with
        | error e => trivial
        | ok r =>
          obtain ⟨os', ex'⟩ := r
          simp only [shunt_prepend pr ex0 os ex os' ex' hs]
    · simp only [c1, if_false]
      cases p with
      | false => simp
      | true =>
        simp only [if_true]
        by_cases c2 : (flush os ex).length = 0
        · simp only [c2, if_true]
        · simp only [c2, if_false, hfl, hlen c2]
  | none =>
    simp only []
    cases p with
    | true => simp
    | false =>
      simp only [Bool.false_eq_true, if_false]
      by_cases c2 : (flush os ex).length = 0
      · simp only [c2, if_true]
      · simp only [c2, if_false, hfl, hlen c2]

/-- A successful run of `read_expr` appends the same entries whatever `expr`
already holds. -/
theorem read_expr_prepend {D : Type} (ops : DoubleOps D) (tks : List token)
    (ex0 : List (expr_data D)) :
    ∀ (f : Nat) (p : Bool) (os : List Char) (ex : List (expr_data D)) (i : Nat)
      (E : List (expr_data D)) (j : Nat),
      read_expr ops tks f p os ex i = .ok (E, j) →
      read_expr ops tks f p os (ex0 ++ ex) i = .ok (ex0 ++ E, j) := by
  intro f
  induction f with
  | zero =>
    intro p os ex i E j h
    rw [read_expr_zero] at h
    cases h
  | succ f ih =>
    intro p os ex i E j h
    have hres : ∀ (ex1 : List (expr_data D)) (i' : Nat),
        resume ops tks f p os ex1 i' = .ok (E, j) →
        resume ops tks f p os (ex0 ++ ex1) i' = .ok (ex0 ++ E, j) := by
      intro ex1 i' hr
      have hs := op_step_prepend tks p os ex0 ex1 i'
      unfold resume at hr ⊢
      cases ho : op_step tks p os ex1 i' with
      | fail e => rw [ho] at hr; cases hr
      | done e =>
        rw [ho] at hr hs
        simp only [Except.ok.injEq, Prod.mk.injEq] at hr hs
        rw [hs]
        simp only [Except.ok.injEq, Prod.mk.injEq]
        exact ⟨by rw [hr.1], hr.2⟩
      | next os' e =>
        rw [ho] at hr hs
        simp only [] at hr hs
        rw [hs]
        exact ih p os' e (i' + 1 + 1) E j hr
    rw [read_expr_succ] at h ⊢
    cases hvs : value_step ops tks i with
    | fail e => rw [hvs] at h; cases h
    | leaf f0 i' =>
      rw [hvs] at h
      simp only [] at h ⊢
      rw [List.append_assoc]
      exact hres _ _ h
    | group =>
      rw [hvs] at h
      simp only [] at h ⊢
      cases hin : read_expr ops tks f true [] ex (i + 1) with
      | error e => rw [hin] at h; cases h
      | ok r =>
        obtain ⟨ex1, j1⟩ := r
        rw [hin] at h
        simp only [] at h
        rw [ih true [] ex (i + 1) ex1 j1 hin]
        exact hres _ _ h
    | neggroup =>
      rw [hvs] at h
      simp only [] at h ⊢
      cases hin : read_expr ops tks f true [] [] (i + 1 + 1) with
      | error e => rw [hin] at h; cases h
      | ok r =>
        obtain ⟨e1, j1⟩ := r
        rw [hin] at h
        simp only [] at h ⊢
        rw [List.append_assoc]
        exact hres _ _ h

/-! ## Compound assignment and assignment of a group -/

/-- The tokens of `n o ( rhs )` parse to the reference to `n`, the entries of
`rhs`, and the operator. -/
theorem expression_ctor_name_op_group {D : Type} (ops : DoubleOps D) (n : String) (o : Char)
    (rhs : List token) (E : List (expr_data D)) (j : Nat) (ho : is_op o = true)
    (hr : read_expr ops rhs (rhs.length + 1) false [] [] 0 = .ok (E, j)) :
    expression_ctor ops
      (⟨.TK_IDENT, n⟩ :: ⟨.TK_OP, String.singleton o⟩ :: ⟨.TK_PAREN_OPEN, "("⟩ ::
        (rhs ++ [⟨.TK_PAREN_CLOSE, ")"⟩])) 0 false
      = .ok (.expression (.factor (.var n false) :: (E ++ [.op o])), rhs.length + 4) := by
  obtain ⟨pr, hpr, -, -⟩ := is_op_precedence ho
  have hag : Agree rhs
      (⟨.TK_IDENT, n⟩ :: ⟨.TK_OP, String.singleton o⟩ :: ⟨.TK_PAREN_OPEN, "("⟩ ::
        (rhs ++ [⟨.TK_PAREN_CLOSE, ")"⟩])) 3 :=
    agree_append [⟨.TK_IDENT, n⟩, ⟨.TK_OP, String.singleton o⟩, ⟨.TK_PAREN_OPEN, "("⟩] rhs
      [⟨.TK_PAREN_CLOSE, ")"⟩]
  have hclose : (⟨.TK_IDENT, n⟩ :: ⟨.TK_OP, String.singleton o⟩ :: ⟨.TK_PAREN_OPEN, "("⟩ ::
      (rhs ++ [⟨.TK_PAREN_CLOSE, ")"⟩]) : List token)[rhs.length + 3]?
        = some ⟨.TK_PAREN_CLOSE, ")"⟩ := by
    simp
  have hend : EndOK rhs
      (⟨.TK_IDENT, n⟩ :: ⟨.TK_OP, String.singleton o⟩ :: ⟨.TK_PAREN_OPEN, "("⟩ ::
        (rhs ++ [⟨.TK_PAREN_CLOSE, ")"⟩])) 3 false true :=
    Or.inr (Or.inr ⟨rfl, rfl, _, hclose, by decide⟩)
  have hpre := read_expr_prepend ops rhs [.factor (.var n false)] _ false [] [] 0 E j hr
  obtain ⟨g1, -, -, g4⟩ := read_expr_embed ops hag (rhs.length + 1) (rhs.length + 3)
    false true [] _ 0 _ j hend (by omega) hpre
  have hj := g4 rfl
  subst hj
  have hlen : (⟨.TK_IDENT, n⟩ :: ⟨.TK_OP, String.singleton o⟩ :: ⟨.TK_PAREN_OPEN, "("⟩ ::
      (rhs ++ [⟨.TK_PAREN_CLOSE, ")"⟩]) : List token).length = rhs.length + 4 := by
    simp
  have hpast : (⟨.TK_IDENT, n⟩ :: ⟨.TK_OP, String.singleton o⟩ :: ⟨.TK_PAREN_OPEN, "("⟩ ::
      (rhs ++ [⟨.TK_PAREN_CLOSE, ")"⟩]) : List token)[rhs.length + 3 + 1]? = none := by
    apply List.getElem?_eq_none
    rw [hlen]
  have hv0 : value_step ops
      (⟨.TK_IDENT, n⟩ :: ⟨.TK_OP, String.singleton o⟩ :: ⟨.TK_PAREN_OPEN, "("⟩ ::
        (rhs ++ [⟨.TK_PAREN_CLOSE, ")"⟩])) 0 = (.leaf (.var n false) 0 : ValueStep D) := by
    simp [value_step]
  have hv2 : value_step ops
      (⟨.TK_IDENT, n⟩ :: ⟨.TK_OP, String.singleton o⟩ :: ⟨.TK_PAREN_OPEN, "("⟩ ::
        (rhs ++ [⟨.TK_PAREN_CLOSE, ")"⟩])) (0 + 1 + 1) = (.group : ValueStep D) := by
    simp [value_step]
  have ho1 : op_step
      (⟨.TK_IDENT, n⟩ :: ⟨.TK_OP, String.singleton o⟩ :: ⟨.TK_PAREN_OPEN, "("⟩ ::
        (rhs ++ [⟨.TK_PAREN_CLOSE, ")"⟩])) false [] ([] ++ [.factor (.var n false)]) 0
      = (.next [o] [.factor (.var n false)] : OpStep D) := by
    simp [op_step, char0_singleton, hpr, shunt]
  have ho2 : op_step
      (⟨.TK_IDENT, n⟩ :: ⟨.TK_OP, String.singleton o⟩ :: ⟨.TK_PAREN_OPEN, "("⟩ ::
        (rhs ++ [⟨.TK_PAREN_CLOSE, ")"⟩])) false [o]
        ([.factor (.var n false)] ++ E) (rhs.length + 3)
      = (.done (.factor (.var n false) :: (E ++ [.op o])) : OpStep D) := by
    simp only [op_step, hpast, Bool.false_eq_true, if_false, flush]
    simp
  simp only [expression_ctor, hlen]
  rw [read_expr_succ, hv0]
  simp only [resume, ho1]
  rw [read_expr_succ, hv2]
  simp only [Nat.zero_add, List.append_nil] at g1 ⊢
  rw [g1]
  simp only [resume, ho2]

/-- Claim C16. With `n` in the store, an operator `o` among `+ - * / % ^` and
tokens `rhs` that parse as a top-level expression, interpreting `n o= rhs` and
interpreting `n = n o ( rhs )` from the same store give the same result, value
or exception, and the same store. -/
theorem compound_assignment_is_assignment_of_group {D : Type} (ops : DoubleOps D)
    (m : Memory D) (n : String) (o : Char) (rhs : List token) (N : node D) (j : Nat)
    (old : D) (ho : is_op o = true) (hn : m n = some old)
    (hp : expression_ctor ops rhs 0 false = .ok (N, j)) :
    interpret_tokens ops
      (⟨.TK_IDENT, n⟩ :: ⟨.TK_OP, String.singleton o⟩ :: ⟨.TK_ASSIGN, "="⟩ :: rhs) m
    = interpret_tokens ops
      (⟨.TK_IDENT, n⟩ :: ⟨.TK_ASSIGN, "="⟩ :: ⟨.TK_IDENT, n⟩ :: ⟨.TK_OP, String.singleton o⟩
        :: ⟨.TK_PAREN_OPEN, "("⟩ :: (rhs ++ [⟨.TK_PAREN_CLOSE, ")"⟩])) m := by
  obtain ⟨E, rfl, hr, hok, -⟩ := expression_ctor_ok ops rhs 0 false N j hp
  have hgrp := expression_ctor_name_op_group ops n o rhs E j ho hr
  have hrun := run_entries_expression ops E hok m
  have hd : rpn_depth E ([] : List D).length = some 1 := by simpa [node_ok] using hok
  have hframe := run_entries_frame ops [old] E [] m 1 hd
  rw [hrun] at hframe
  simp only [List.nil_append] at hframe
  -- the compound assignment
  have hL : interpret_tokens ops
      (⟨.TK_IDENT, n⟩ :: ⟨.TK_OP, String.singleton o⟩ :: ⟨.TK_ASSIGN, "="⟩ :: rhs) m
      = match get_value ops (.expression E) m with
        | (.error err, memory) => (.error err, memory)
        | (.ok v, memory) =>
          match operate ops old v o with
          | .error err => (.error err, memory)
          | .ok w => (.ok w, memory.set n w) := by
    unfold interpret_tokens
    rw [parse_assignment_op ops n (String.singleton o) "=" rhs _ j hp]
    simp only []
    rw [get_value_assignment_op, hn, char0_singleton]
  -- the assignment of the group
  have hR : interpret_tokens ops
      (⟨.TK_IDENT, n⟩ :: ⟨.TK_ASSIGN, "="⟩ :: ⟨.TK_IDENT, n⟩ :: ⟨.TK_OP, String.singleton o⟩
        :: ⟨.TK_PAREN_OPEN, "("⟩ :: (rhs ++ [⟨.TK_PAREN_CLOSE, ")"⟩])) m
      = match get_value ops
          (.expression (.factor (.var n false) :: (E ++ [.op o]))) m with
        | (.error err, memory) => (.error err, memory)
        | (.ok v, memory) => (.ok v, memory.set n v) := by
    unfold interpret_tokens
    rw [parse_assignment ops n "=" _ _ _ hgrp]
    simp only []
    rw [get_value_assignment, assign_store_bound ops m n old hn]
  have hX : get_value ops (.expression (.factor (.var n false) :: (E ++ [.op o]))) m
      = match (get_value ops (.expression E) m).1 with
        | .error err => (.error err, m)
        | .ok v =>
          match operate ops old v o with
          | .error err => (.error err, m)
          | .ok w => (.ok w, m) := by
    generalize (get_value ops (.expression E) m).1 = g at hframe ⊢
    rw [get_value, get_value_loop_eq]
    simp only [run_entries, get_value, hn, Bool.false_eq_true, if_false]
    rw [run_entries_append, hframe]
    cases g with
    | error err => rfl
    | ok v =>
      simp only [List.singleton_append, run_entries]
      cases operate ops old v o with
      | error err => rfl
      | ok w => rfl
  have h2 := (get_value_ok ops m _ hok).1
  rw [hL, hR, hX]
  obtain ⟨r, m', hrm⟩ : ∃ r m', get_value ops (.expression E) m = (r, m') := ⟨_, _, rfl⟩
  rw [hrm] at h2 ⊢
  change m' = m at h2
  subst h2
  cases r with
  | error err => rfl
  | ok v =>
    simp only []
    cases operate ops old v o with
    | error err => rfl
    | ok w => rfl

/-- The statements `x+=3` and `x=x+(3)` with `x` stored as 5. -/
theorem compound_assignment_is_assignment_of_group_witness :
    is_op '+' = true ∧ ((emptyMemory Int).set "x" 5) "x" = some 5
    ∧ expression_ctor intOps [⟨.TK_NUM, "3"⟩] 0 false
      = .ok (.expression [.factor (.num 3)], 1)
    ∧ scan "x=x+(3)" = .ok [⟨.TK_IDENT, "x"⟩, ⟨.TK_ASSIGN, "="⟩, ⟨.TK_IDENT, "x"⟩,
        ⟨.TK_OP, "+"⟩, ⟨.TK_PAREN_OPEN, "("⟩, ⟨.TK_NUM, "3"⟩, ⟨.TK_PAREN_CLOSE, ")"⟩]
    ∧ (interpret intOps "x=x+(3)" ((emptyMemory Int).set "x" 5)).1 = .ok 8
    ∧ interpret_tokens intOps
        [⟨.TK_IDENT, "x"⟩, ⟨.TK_OP, "+"⟩, ⟨.TK_ASSIGN, "="⟩, ⟨.TK_NUM, "3"⟩]
        ((emptyMemory Int).set "x" 5)
      = interpret_tokens intOps
        [⟨.TK_IDENT, "x"⟩, ⟨.TK_ASSIGN, "="⟩, ⟨.TK_IDENT, "x"⟩, ⟨.TK_OP, "+"⟩,
          ⟨.TK_PAREN_OPEN, "("⟩, ⟨.TK_NUM, "3"⟩, ⟨.TK_PAREN_CLOSE, ")"⟩]
        ((emptyMemory Int).set "x" 5) :=
  ⟨rfl, rfl, rfl, rfl, rfl,
    compound_assignment_is_assignment_of_group intOps ((emptyMemory Int).set "x" 5) "x" '+'
      [⟨.TK_NUM, "3"⟩] _ 1 5 rfl rfl rfl⟩

/-! ## The reference grammar, one operator at a time -/

theorem ref_state_id {D : Type} (ops : DoubleOps D) (x : D) (l : List (Char × D)) :
    ref_state ops id id id x l = ref_add_chain ops x l := rfl

theorem ref_state_nil {D : Type} (ops : DoubleOps D) (k1 k2 k3 : D → D) (x : D) :
    ref_state ops k1 k2 k3 x [] = k1 (k2 (k3 x)) := rfl

theorem ref_state_pow {D : Type} (ops : DoubleOps D) (k1 k2 k3 : D → D) (x : D) (o : Char)
    (n : D) (l : List (Char × D)) (ha : is_additive o = false)
    (hm : is_multiplicative o = false) :
    ref_state ops k1 k2 k3 x ((o, n) :: l)
      = ref_state ops k1 k2 (fun y => apply_op ops o (k3 x) y) n l := by
  simp [ref_state, split_at, ha, hm, ref_pow_chain]

theorem ref_state_mul {D : Type} (ops : DoubleOps D) (k1 k2 k3 : D → D) (x : D) (o : Char)
    (n : D) (l : List (Char × D)) (ha : is_additive o = false)
    (hm : is_multiplicative o = true) :
    ref_state ops k1 k2 k3 x ((o, n) :: l)
      = ref_state ops k1 (fun y => apply_op ops o (k2 (k3 x)) y) id n l := by
  simp [ref_state, split_at, ha, hm, ref_pow_chain]

theorem ref_state_add {D : Type} (ops : DoubleOps D) (k1 k2 k3 : D → D) (x : D) (o : Char)
    (n : D) (l : List (Char × D)) (ha : is_additive o = true) :
    ref_state ops k1 k2 k3 x ((o, n) :: l)
      = ref_state ops (fun y => apply_op ops o (k1 (k2 (k3 x))) y) id id n l := by
  simp [ref_state, split_at, ha, ref_pow_chain, ref_mul_chain]

/-! ## The shunting yard on a sequence of literals and operators -/

theorem operate_eq_apply_op {D : Type} (ops : DoubleOps D) {c : Char} (h : is_op c = true)
    (lhs rhs : D) : operate ops lhs rhs c = .ok (apply_op ops c lhs rhs) := by
  rcases is_op_cases h with h | h | h | h | h | h <;> subst h <;> rfl

theorem precedence_levels {o : Char} {p : Int} (h : operator_precedence o = .ok p) :
    (p = 1 ∧ is_additive o = true)
    ∨ (p = 2 ∧ is_additive o = false ∧ is_multiplicative o = true)
    ∨ (p = 3 ∧ is_additive o = false ∧ is_multiplicative o = false) := by
  rcases is_op_cases (operator_precedence_is_op h) with h1 | h1 | h1 | h1 | h1 | h1 <;>
    subst h1 <;> cases h <;> decide

theorem flush_eq {D : Type} :
    ∀ (os : List Char) (ex : List (expr_data D)),
      flush os ex = ex ++ os.map (fun c => expr_data.op c) := by
  intro os
  induction os with
  | nil => intro ex; simp [flush]
  | cons c os ih => intro ex; simp [flush, ih]

theorem shunt_pops {D : Type} (p : Int) :
    ∀ (G H : List (Char × D)) (ex : List (expr_data D)),
      (∀ g ∈ G, ∃ q, operator_precedence g.1 = .ok q ∧ q ≥ p) →
      (∀ h ∈ H, ∃ q, operator_precedence h.1 = .ok q ∧ ¬ q ≥ p) →
      shunt p ((G ++ H).map Prod.fst) ex
        = .ok (H.map Prod.fst, ex ++ G.map (fun g => expr_data.op g.1)) := by
  intro G
  induction G with
  | nil =>
    intro H ex _ hH
    cases H with
    | nil => simp [shunt]
    | cons h H =>
      obtain ⟨q, hq, hlt⟩ := hH h (List.mem_cons_self _ _)
      simp [shunt, hq, hlt]
  | cons g G ih =>
    intro H ex hG hH
    obtain ⟨q, hq, hge⟩ := hG g (List.mem_cons_self _ _)
    have := ih H (ex ++ [.op g.1]) (fun g' hg' => hG g' (List.mem_cons_of_mem _ hg')) hH
    simp only [List.cons_append, List.map_cons, shunt, hq, hge, if_true]
    refine Eq.trans this ?_
    simp

theorem run_pending {D : Type} (ops : DoubleOps D) (m : Memory D) :
    ∀ (G : List (Char × D)) (rest : List D) (x : D),
      (∀ g ∈ G, is_op g.1 = true) →
      run_entries ops (G.map (fun g => expr_data.op g.1)) (x :: (G.map Prod.snd ++ rest)) m
        = (.ok (pending ops G x :: rest), m) := by
  intro G
  induction G with
  | nil => intro rest x _; simp [run_entries, pending]
  | cons g G ih =>
    intro rest x hG
    have h1 := operate_eq_apply_op ops (hG g (List.mem_cons_self _ _)) g.2 x
    have h2 := ih rest (apply_op ops g.1 g.2 x) (fun g' hg' => hG g' (List.mem_cons_of_mem _ hg'))
    simp only [List.map_cons, List.cons_append, run_entries, h1, h2]
    simp [pending]

theorem level_is_op {D : Type} {q : Int} {F : List (Char × D)} (h : Level q F) :
    ∀ g ∈ F, is_op g.1 = true :=
  fun g hg => operator_precedence_is_op (h g hg)

theorem level_nil {D : Type} (q : Int) : Level q ([] : List (Char × D)) := by
  intro g hg; cases hg

theorem level_single {D : Type} {q : Int} {o : Char} (h : operator_precedence o = .ok q)
    (x : D) : Level q [(o, x)] := by
  intro g hg
  simp only [List.mem_singleton] at hg
  subst hg
  exact h

theorem pending_nil {D : Type} (ops : DoubleOps D) :
    pending ops ([] : List (Char × D)) = id := rfl

theorem pending_single {D : Type} (ops : DoubleOps D) (o : Char) (u : D) :
    pending ops [(o, u)] = fun y => apply_op ops o u y := rfl

theorem pending_append {D : Type} (ops : DoubleOps D) (F G : List (Char × D)) (y : D) :
    pending ops (F ++ G) y = pending ops G (pending ops F y) := by
  simp [pending]

theorem read_expr_literal_last {D : Type} (ops : DoubleOps D) (s : String) (x : D)
    (hs : ops.stod s = some x) (f : Nat) (os : List Char) (ex : List (expr_data D)) :
    read_expr ops [⟨.TK_NUM, s⟩] (f + 1) false os ex 0
      = .ok (ex ++ [.factor (.num x)] ++ os.map (fun c => expr_data.op c), 1) := by
  rw [read_expr_succ]
  simp [value_step, parse_num, hs, resume, op_step, flush_eq]

theorem read_expr_literal_op {D : Type} (ops : DoubleOps D) (s : String) (x : D)
    (hs : ops.stod s = some x) (o : Char) (p : Int) (hp : operator_precedence o = .ok p)
    (rest : List token) (f : Nat) (os os2 : List Char) (ex ex2 : List (expr_data D))
    (hsh : shunt p os (ex ++ [.factor (.num x)]) = .ok (os2, ex2)) :
    read_expr ops (⟨.TK_NUM, s⟩ :: ⟨.TK_OP, String.singleton o⟩ :: rest) (f + 1) false os ex 0
      = read_expr ops (⟨.TK_NUM, s⟩ :: ⟨.TK_OP, String.singleton o⟩ :: rest) f false
          (o :: os2) ex2 2 := by
  rw [read_expr_succ]
  simp [value_step, parse_num, hs, resume, op_step, char0_singleton, hp, hsh]

theorem read_chain {D : Type} (ops : DoubleOps D) (m : Memory D) :
    ∀ (l : List (Char × String × D)) (s : String) (x : D) (F3 F2 F1 : List (Char × D))
      (ex : List (expr_data D)) (fuel : Nat),
      ops.stod s = some x →
      (∀ e ∈ l, is_op e.1 = true ∧ ops.stod e.2.1 = some e.2.2) →
      Level 3 F3 → Level 2 F2 → Level 1 F1 →
      run_entries ops ex [] m = (.ok ((F3 ++ F2 ++ F1).map Prod.snd), m) →
      (chain_tokens l).length + 2 ≤ fuel →
      ∃ E, read_expr ops (⟨.TK_NUM, s⟩ :: chain_tokens l) fuel false
            ((F3 ++ F2 ++ F1).map Prod.fst) ex 0 = .ok (E, (chain_tokens l).length + 1)
        ∧ run_entries ops E [] m
            = (.ok [ref_state ops (pending ops F1) (pending ops F2) (pending ops F3) x
                (chain_values l)], m) := by
  intro l
  induction l with
  | nil =>
    intro s x F3 F2 F1 ex fuel hs _ h3 h2 h1 hrun hfuel
    obtain ⟨f, rfl⟩ : ∃ f, fuel = f + 1 := ⟨fuel - 1, by omega⟩
    refine ⟨_, read_expr_literal_last ops s x hs f _ ex, ?_⟩
    have hop : ∀ g ∈ F3 ++ F2 ++ F1, is_op g.1 = true := by
      intro g hg
      rcases List.mem_append.1 hg with hg | hg
      · rcases List.mem_append.1 hg with hg | hg
        · exact level_is_op h3 g hg
        · exact level_is_op h2 g hg
      · exact level_is_op h1 g hg
    have hp := run_pending ops m (F3 ++ F2 ++ F1) [] x hop
    rw [List.append_nil] at hp
    rw [run_entries_append, run_entries_append, hrun]
    simp only [run_entries, get_value, List.map_map]
    have hcomp : (fun c => expr_data.op c) ∘ Prod.fst
        = fun (g : Char × D) => (expr_data.op g.1 : expr_data D) := rfl
    rw [hcomp, hp]
    simp [chain_values, ref_state_nil, pending_append]
  | cons e l ih =>
    obtain ⟨o, s', n'⟩ := e
    intro s x F3 F2 F1 ex fuel hs hl h3 h2 h1 hrun hfuel
    have hl0 := hl (o, s', n') (List.mem_cons_self _ _)
    have hl' : ∀ e ∈ l, is_op e.1 = true ∧ ops.stod e.2.1 = some e.2.2 :=
      fun e he => hl e (List.mem_cons_of_mem _ he)
    obtain ⟨f, rfl⟩ : ∃ f, fuel = f + 1 := ⟨fuel - 1, by omega⟩
    have hlen : (chain_tokens ((o, s', n') :: l)).length = (chain_tokens l).length + 2 := rfl
    have hf : (chain_tokens l).length + 2 ≤ f := by omega
    obtain ⟨p, hp, _, _⟩ : ∃ p : Int, operator_precedence o = .ok p ∧ 1 ≤ p ∧ p ≤ 3 :=
      is_op_precedence hl0.1
    have step : ∀ (G H F3' F2' F1' : List (Char × D)),
        F3 ++ F2 ++ F1 = G ++ H →
        (∀ g ∈ G, ∃ q, operator_precedence g.1 = .ok q ∧ q ≥ p) →
        (∀ h ∈ H, ∃ q, operator_precedence h.1 = .ok q ∧ ¬ q ≥ p) →
        F3' ++ F2' ++ F1' = (o, pending ops G x) :: H →
        Level 3 F3' → Level 2 F2' → Level 1 F1' →
        ref_state ops (pending ops F1) (pending ops F2) (pending ops F3) x
            ((o, n') :: chain_values l)
          = ref_state ops (pending ops F1') (pending ops F2') (pending ops F3') n'
            (chain_values l) →
        ∃ E, read_expr ops (⟨.TK_NUM, s⟩ :: chain_tokens ((o, s', n') :: l)) (f + 1) false
              ((F3 ++ F2 ++ F1).map Prod.fst) ex 0
              = .ok (E, (chain_tokens ((o, s', n') :: l)).length + 1)
          ∧ run_entries ops E [] m
              = (.ok [ref_state ops (pending ops F1) (pending ops F2) (pending ops F3) x
                  (chain_values ((o, s', n') :: l))], m) := by
      intro G H F3' F2' F1' hsplit hG hH hnew h3' h2' h1' href
      have hsh := shunt_pops p G H (ex ++ [.factor (.num x)]) hG hH
      have hGop : ∀ g ∈ G, is_op g.1 = true := by
        intro g hg
        obtain ⟨q, hq, _⟩ := hG g hg
        exact operator_precedence_is_op hq
      have hrun' : run_entries ops
            (ex ++ [.factor (.num x)] ++ G.map (fun g => expr_data.op g.1)) [] m
          = (.ok ((F3' ++ F2' ++ F1').map Prod.snd), m) := by
        rw [run_entries_append, run_entries_append, hrun]
        simp only [run_entries, get_value]
        rw [hsplit, List.map_append, run_pending ops m G _ x hGop, hnew]
        rfl
      obtain ⟨E, hE, hEv⟩ := ih s' n' F3' F2' F1' _ f hl0.2 hl' h3' h2' h1' hrun' hf
      have hag : Agree (⟨.TK_NUM, s'⟩ :: chain_tokens l)
          (⟨.TK_NUM, s⟩ :: ⟨.TK_OP, String.singleton o⟩ :: ⟨.TK_NUM, s'⟩ :: chain_tokens l)
          2 := by
        have := agree_append [⟨.TK_NUM, s⟩, ⟨.TK_OP, String.singleton o⟩]
          (⟨.TK_NUM, s'⟩ :: chain_tokens l) []
        simpa using this
      have hend : EndOK (⟨.TK_NUM, s'⟩ :: chain_tokens l)
          (⟨.TK_NUM, s⟩ :: ⟨.TK_OP, String.singleton o⟩ :: ⟨.TK_NUM, s'⟩ :: chain_tokens l)
          2 false false := by
        refine Or.inr (Or.inl ⟨rfl, rfl, ?_⟩)
        simp
      have hemb := (read_expr_embed ops hag f f false false _ _ 0 E _ hend (Nat.le_refl _)
        hE).1
      refine ⟨E, ?_, ?_⟩
      · rw [← hsplit] at hsh
        have h1s := read_expr_literal_op ops s x hs o p hp (⟨.TK_NUM, s'⟩ :: chain_tokens l) f
          _ _ ex _ hsh
        have hnew1 : (F3' ++ F2' ++ F1').map Prod.fst = o :: H.map Prod.fst := by
          rw [hnew]; rfl
        rw [hnew1] at hemb
        exact h1s.trans hemb
      · rw [hEv]
        simp only [chain_values, List.map_cons] at href ⊢
        rw [href]
    rcases precedence_levels hp with ⟨hp1, ha⟩ | ⟨hp2, ha, hm⟩ | ⟨hp3, ha, hm⟩
    · subst hp1
      refine step (F3 ++ F2 ++ F1) [] [] [] [(o, pending ops (F3 ++ F2 ++ F1) x)]
        (by simp) ?_ (by intro h hh; cases hh) (by simp)
        (level_nil 3) (level_nil 2) (level_single hp _) ?_
      · intro g hg
        rcases List.mem_append.1 hg with hg | hg
        · rcases List.mem_append.1 hg with hg | hg
          · exact ⟨3, h3 g hg, by decide⟩
          · exact ⟨2, h2 g hg, by decide⟩
        · exact ⟨1, h1 g hg, by decide⟩
      · rw [ref_state_add ops _ _ _ x o n' _ ha, pending_nil, pending_single]
        simp [pending_append]
    · subst hp2
      refine step (F3 ++ F2) F1 [] [(o, pending ops (F3 ++ F2) x)] F1
        rfl ?_ ?_ (by simp)
        (level_nil 3) (level_single hp _) h1 ?_
      · intro g hg
        rcases List.mem_append.1 hg with hg | hg
        · exact ⟨3, h3 g hg, by decide⟩
        · exact ⟨2, h2 g hg, by decide⟩
      · intro g hg
        exact ⟨1, h1 g hg, by decide⟩
      · rw [ref_state_mul ops _ _ _ x o n' _ ha hm, pending_nil, pending_single]
        simp [pending_append]
    · subst hp3
      refine step F3 (F2 ++ F1) [(o, pending ops F3 x)] F2 F1
        (by simp) ?_ ?_ (by simp)
        (level_single hp _) h2 h1 ?_
      · intro g hg
        exact ⟨3, h3 g hg, by decide⟩
      · intro g hg
        rcases List.mem_append.1 hg with hg | hg
        · exact ⟨2, h2 g hg, by decide⟩
        · exact ⟨1, h1 g hg, by decide⟩
      · rw [ref_state_pow ops _ _ _ x o n' _ ha hm, pending_single]

theorem classify_chain {D : Type} (s0 : String) (l : List (Char × String × D)) :
    classify (⟨.TK_NUM, s0⟩ :: chain_tokens l) = .expression := by
  cases l with
  | nil => simp [classify, chain_tokens]
  | cons e l =>
    obtain ⟨o, s, n⟩ := e
    simp [classify, chain_tokens]

/-- Claim C18. For the tokens of a parenthesis-free expression `n0 o1 n1 ... ok nk`
(`k ≥ 0`) whose operands are numeric literals that `stod` converts and whose
operators are the six binary operators, parsing with the operator stack of
`read_expr` and evaluating the entries with the value stack of `get_value` gives
the value of the reference grammar (a left-associative chain of `+ -` over
left-associative chains of `* / %` over left-associative chains of `^`), and
leaves the store as it was. -/
theorem shunting_yard_agrees_with_precedence_grammar {D : Type} (ops : DoubleOps D)
    (m : Memory D) (s0 : String) (n0 : D) (l : List (Char × String × D))
    (h0 : ops.stod s0 = some n0)
    (hl : ∀ e ∈ l, is_op e.1 = true ∧ ops.stod e.2.1 = some e.2.2) :
    interpret_tokens ops (⟨.TK_NUM, s0⟩ :: chain_tokens l) m
      = (.ok (ref_add_chain ops n0 (chain_values l)), m) := by
  have hrun0 : run_entries ops ([] : List (expr_data D)) [] m
      = (.ok ((([] : List (Char × D)) ++ [] ++ []).map Prod.snd), m) := rfl
  obtain ⟨E, hE, hEv⟩ := read_chain ops m l s0 n0 [] [] [] [] ((chain_tokens l).length + 2)
    h0 hl (level_nil 3) (level_nil 2) (level_nil 1) hrun0 (Nat.le_refl _)
  have hE2 : read_expr ops (⟨.TK_NUM, s0⟩ :: chain_tokens l)
      ((⟨.TK_NUM, s0⟩ :: chain_tokens l).length + 1) false [] [] 0
      = .ok (E, (chain_tokens l).length + 1) := hE
  have hEv2 : run_entries ops E [] m = (.ok [ref_add_chain ops n0 (chain_values l)], m) :=
    hEv
  simp only [interpret_tokens, parse, classify_chain, expression_ctor, hE2, get_value,
    get_value_loop_eq, hEv2, stack_result]

/-- The expression `1-2-3*4^2/8`, whose value is `(1-2)-((3*(4^2))/8)`. -/
theorem shunting_yard_agrees_with_precedence_grammar_witness :
    scan "1-2-3*4^2/8" = .ok (⟨.TK_NUM, "1"⟩ :: chain_tokens
        [('-', "2", (2 : Int)), ('-', "3", 3), ('*', "4", 4), ('^', "2", 2), ('/', "8", 8)])
    ∧ ref_add_chain intOps 1 (chain_values
        [('-', "2", (2 : Int)), ('-', "3", 3), ('*', "4", 4), ('^', "2", 2), ('/', "8", 8)])
      = -7
    ∧ interpret_tokens intOps (⟨.TK_NUM, "1"⟩ :: chain_tokens
        [('-', "2", (2 : Int)), ('-', "3", 3), ('*', "4", 4), ('^', "2", 2), ('/', "8", 8)])
        (emptyMemory Int)
      = (.ok (ref_add_chain intOps 1 (chain_values
          [('-', "2", (2 : Int)), ('-', "3", 3), ('*', "4", 4), ('^', "2", 2), ('/', "8", 8)])),
        emptyMemory Int) :=
  ⟨rfl, by decide,
    shunting_yard_agrees_with_precedence_grammar intOps (emptyMemory Int) "1" 1
      [('-', "2", (2 : Int)), ('-', "3", 3), ('*', "4", 4), ('^', "2", 2), ('/', "8", 8)]
      rfl (by decide)⟩

end Interp
